import Mathlib

/-!
# Bare-metal operator: host, claim and boot-configuration reconcilers

A shallow embedding of the reconcilers of the bare-metal operator and the
verification of its specification against them.

* Go structs become Lean structures with the Go field names; Go string types
  (`PowerState`, `HostState`, `Phase`, ...) stay strings, so the values outside
  the declared constants (the empty string included) remain possible.
* A reconciler talks to two external collaborators, the object store
  (`client.Client`) and the BMC.  Every such call is a constructor of `Call`;
  a reconciler is a `Prog`, a tree that issues calls and continues with the
  response.  `Prog.interp` runs a program against an arbitrary environment and
  records the calls with their responses; `run` is the instance for the
  sequentially consistent object store of `World` with injected failures.
-/

namespace BareMetal

/-! ## API types (`api/metal/v1alpha1`, `api/boot/v1alpha1`, `internal/bmc`) -/

/-- Go `v1.LocalObjectReference`. -/
structure LocalObjectReference where
  Name : String
  deriving DecidableEq, Repr, Inhabited

/-- Go `v1.SecretReference`. -/
structure SecretReference where
  Name : String
  Namespace : String
  deriving DecidableEq, Repr, Inhabited

/-- Go `v1.ObjectReference`, restricted to the fields the operator writes. -/
structure ObjectReference where
  Kind : String
  Namespace : String
  Name : String
  UID : String
  deriving DecidableEq, Repr, Inhabited

/-- Go `metav1.OwnerReference`, as written by `controllerutil.SetOwnerReference`. -/
structure OwnerReference where
  Kind : String
  Name : String
  UID : String
  deriving DecidableEq, Repr, Inhabited

/-- Go `metav1.ObjectMeta`: the metadata the reconcilers read or write.
`ResourceVersion` is the version token of the store; `DeletionTimestamp` is
`none` when `DeletionTimestamp.IsZero()`. -/
structure ObjectMeta where
  Name : String
  Namespace : String := ""
  UID : String := ""
  ResourceVersion : Nat := 0
  Finalizers : List String := []
  OwnerReferences : List OwnerReference := []
  DeletionTimestamp : Option Nat := none
  deriving DecidableEq, Repr, Inhabited

/-- The finalizer for BareMetalHostClaim (also placed on a claimed host). -/
def BareMetalHostClaimFinalizer : String := "metal.afritzler.github.io/baremetalhostclaim"

/-- The finalizer for a PXE object. -/
def PXEFinalizer : String := "boot.afritzler.github.io/pxe"

abbrev BMCType := String
def BMCTypeRedfish : BMCType := "Redfish"
def BMCTypeRedfishLocal : BMCType := "RedfishLocal"

/-- BMCConfiguration; the Go field `Type` is named `Typ` here (`Type` is reserved). -/
structure BMCConfiguration where
  Typ : BMCType := ""
  Address : String := ""
  SecretRef : SecretReference := ⟨"", ""⟩
  deriving DecidableEq, Repr, Inhabited

abbrev PowerState := String
def PowerStateOn : PowerState := "On"
def PowerStateOff : PowerState := "Off"
def PowerStateUnknown : PowerState := "Unknown"

/-- The observed power states of `gofish/redfish` that the operator compares with. -/
def OnPowerState : String := "On"
def OffPowerState : String := "Off"

/-- BareMetalHostSpec defines the desired state of BareMetalHost. -/
structure BareMetalHostSpec where
  SystemID : String := ""
  FooUUID : String := ""
  Power : PowerState := ""
  ClaimRef : Option ObjectReference := none
  BMC : BMCConfiguration := {}
  BootMACAddress : String := ""
  deriving DecidableEq, Repr, Inhabited

abbrev Phase := String
def PhaseBound : Phase := "Bound"
def PhaseUnbound : Phase := "Unbound"

abbrev HostState := String
def StateInitial : HostState := "Initial"
def StateAvailable : HostState := "Available"
def StateTainted : HostState := "Tainted"
def StateReserved : HostState := "Reserved"
def StateMaintenance : HostState := "Maintenance"

structure NetworkInterface where
  ID : String
  MACAddress : String := ""
  PermanentMACAddress : String := ""
  deriving DecidableEq, Repr, Inhabited

structure Processor where
  ID : String
  ProcessorType : String := ""
  ProcessorArchitecture : String := ""
  InstructionSet : String := ""
  Manufacturer : String := ""
  Model : String := ""
  MHz : Int := 0
  Cores : Int := 0
  Threads : Int := 0
  deriving DecidableEq, Repr, Inhabited

/-- BareMetalHostStatus defines the observed state of BareMetalHost. -/
structure BareMetalHostStatus where
  Manufacturer : String := ""
  Model : String := ""
  SerialNumber : String := ""
  FirmwareVersion : String := ""
  PowerState : String := ""
  Health : String := ""
  SystemState : String := ""
  Phase : Phase := ""
  State : HostState := ""
  NetworkInterfaces : List NetworkInterface := []
  Processors : List Processor := []
  deriving DecidableEq, Repr, Inhabited

/-- BareMetalHost is cluster scoped: it is addressed by its name alone. -/
structure BareMetalHost extends ObjectMeta where
  Spec : BareMetalHostSpec := {}
  Status : BareMetalHostStatus := {}
  deriving DecidableEq, Repr, Inhabited

/-- BareMetalHostClaimSpec defines the desired state of BareMetalHostClaim. -/
structure BareMetalHostClaimSpec where
  Power : PowerState := ""
  BareMetalHostRef : LocalObjectReference := ⟨""⟩
  IgnitionRef : Option LocalObjectReference := none
  Image : String := ""
  deriving DecidableEq, Repr, Inhabited

structure BareMetalHostClaimStatus where
  Phase : Phase := ""
  deriving DecidableEq, Repr, Inhabited

structure BareMetalHostClaim extends ObjectMeta where
  Spec : BareMetalHostClaimSpec := {}
  Status : BareMetalHostClaimStatus := {}
  deriving DecidableEq, Repr, Inhabited

/-- PXESpec defines the desired state of PXE. -/
structure PXESpec where
  SystemUUID : String := ""
  BareMetalHostClaimRef : LocalObjectReference := ⟨""⟩
  IgnitionRef : Option LocalObjectReference := none
  Image : String := ""
  deriving DecidableEq, Repr, Inhabited

abbrev PXEState := String
def PXEStateReady : PXEState := "Ready"
def PXEStateApplied : PXEState := "Applied"
def PXEStateCreated : PXEState := "Created"
def PXEStateFailed : PXEState := "Failed"

structure PXEStatus where
  State : PXEState := ""
  deriving DecidableEq, Repr, Inhabited

structure PXE extends ObjectMeta where
  Spec : PXESpec := {}
  Status : PXEStatus := {}
  deriving DecidableEq, Repr, Inhabited

structure DHCPSpec where
  BareMetalHostRef : LocalObjectReference := ⟨""⟩
  deriving DecidableEq, Repr, Inhabited

abbrev DHCPState := String
def DHCPStateReady : DHCPState := "Ready"
def DHCPStateApplied : DHCPState := "Applied"
def DHCPStateCreated : DHCPState := "Created"
def DHCPStateFailed : DHCPState := "Failed"

structure DHCPStatus where
  State : DHCPState := ""
  deriving DecidableEq, Repr, Inhabited

structure DHCP extends ObjectMeta where
  Spec : DHCPSpec := {}
  Status : DHCPStatus := {}
  deriving DecidableEq, Repr, Inhabited

/-- Go `v1.Secret`: `Data` is the `map[string][]byte`, as a list of entries. -/
structure Secret extends ObjectMeta where
  Data : List (String × List Nat) := []
  deriving DecidableEq, Repr, Inhabited

/-- NIC as reported by the BMC (`bmc.NetworkInterface`). -/
structure BMCNetworkInterface where
  ID : String
  MACAddress : String := ""
  PermanentMACAddress : String := ""
  deriving DecidableEq, Repr, Inhabited

/-- Processor as reported by the BMC (`bmc.Processor`). -/
structure BMCProcessor where
  ID : String
  ProcessorType : String := ""
  ProcessorArchitecture : String := ""
  InstructionSet : String := ""
  Manufacturer : String := ""
  Model : String := ""
  MaxSpeedMHz : Int := 0
  TotalCores : Int := 0
  TotalThreads : Int := 0
  deriving DecidableEq, Repr, Inhabited

/-- Go `common.Status` of gofish: the two fields the operator copies. -/
structure CommonStatus where
  Health : String := ""
  State : String := ""
  deriving DecidableEq, Repr, Inhabited

/-- SystemInfo represents basic information about the system. -/
structure SystemInfo where
  Manufacturer : String := ""
  Model : String := ""
  Status : CommonStatus := {}
  PowerState : String := ""
  NetworkInterfaces : List BMCNetworkInterface := []
  Processors : List BMCProcessor := []
  deriving DecidableEq, Repr, Inhabited

/-- The handle `bmc.BMC` obtained from `NewRedfishLocalBMC` / `NewRedfishBMC`. -/
structure BMCClient where
  systemId : String
  address : String
  deriving DecidableEq, Repr, Inhabited

/-- Go `error` values: the two API error kinds the code and the store tell
apart, an injected failure of a collaborator, a message built with
`fmt.Errorf`, and `%w` wrapping. -/
inductive Error where
  | notFound
  | conflict
  | unavailable
  | msg (text : String)
  | wrap (context : String) (cause : Error)
  deriving DecidableEq, Repr, Inhabited

/-- Go `apierrors.IsNotFound`, which looks through `%w` wrapping. -/
def Error.IsNotFound : Error → Bool
  | .notFound => true
  | .wrap _ cause => cause.IsNotFound
  | _ => false

/-! ## Calls to the external collaborators and programs over them -/

/-- The calls a reconciler issues: to the object store through
`client.Client` (`Get`, `List`, `Patch` with a merge patch computed from a base
object, `Status().Patch`, `Patch` with `client.Apply`, `Delete`) and to the
BMC.  `lock` marks a merge patch built with `MergeFromWithOptimisticLock`, as
`clientutils.PatchAddFinalizer` and `PatchRemoveFinalizer` do. -/
inductive Call where
  | getHost (name : String)
  | getClaim (ns name : String)
  | getPXE (ns name : String)
  | getSecret (ns name : String)
  | listClaims
  | patchHost (base modified : BareMetalHost) (lock : Bool)
  | patchClaim (base modified : BareMetalHostClaim) (lock : Bool)
  | patchPXE (base modified : PXE) (lock : Bool)
  | patchHostStatus (base modified : BareMetalHost)
  | patchClaimStatus (base modified : BareMetalHostClaim)
  | patchPXEStatus (base modified : PXE)
  | patchDHCPStatus (base modified : DHCP)
  | applyPXE (pxe : PXE) (force : Bool)
  | applyDHCP (dhcp : DHCP) (force : Bool)
  | applySecret (secret : Secret) (force : Bool)
  | deleteSecret (ns name : String)
  | newRedfishLocalBMC (systemID address : String)
  | newRedfishBMC (systemID address : String) (username password : List Nat) (basicAuth : Bool)
  | bmcLogout (c : BMCClient)
  | bmcGetSystemInfo (c : BMCClient)
  | bmcSetPXEBootOnce (c : BMCClient) (systemID : String)
  | bmcPowerOn (c : BMCClient)
  | bmcPowerOff (c : BMCClient)
  deriving DecidableEq, Repr

/-- What a successful call returns.  A write returns the object as the store
holds it after the write; the Go client decodes it into the object passed in. -/
@[reducible] def Resp : Call → Type
  | .getHost _ => BareMetalHost
  | .getClaim _ _ => BareMetalHostClaim
  | .getPXE _ _ => PXE
  | .getSecret _ _ => Secret
  | .listClaims => List BareMetalHostClaim
  | .patchHost _ _ _ => BareMetalHost
  | .patchClaim _ _ _ => BareMetalHostClaim
  | .patchPXE _ _ _ => PXE
  | .patchHostStatus _ _ => BareMetalHost
  | .patchClaimStatus _ _ => BareMetalHostClaim
  | .patchPXEStatus _ _ => PXE
  | .patchDHCPStatus _ _ => DHCP
  | .applyPXE _ _ => PXE
  | .applyDHCP _ _ => DHCP
  | .applySecret _ _ => Secret
  | .deleteSecret _ _ => Unit
  | .newRedfishLocalBMC _ _ => BMCClient
  | .newRedfishBMC _ _ _ _ _ => BMCClient
  | .bmcLogout _ => Unit
  | .bmcGetSystemInfo _ => SystemInfo
  | .bmcSetPXEBootOnce _ _ => Unit
  | .bmcPowerOn _ => Unit
  | .bmcPowerOff _ => Unit

/-- A reconciler as a tree of calls: it returns, or issues a call and
continues with the response (an error or the value). -/
inductive Prog (α : Type) where
  | ret (a : α)
  | call (c : Call) (k : Except Error (Resp c) → Prog α)

/-- One issued call with the response it received. -/
structure Event where
  call : Call
  resp : Except Error (Resp call)

/-- The result of running a program: the value returned, the final state of
the environment, and the calls issued, oldest first. -/
structure Outcome (σ α : Type) where
  value : α
  state : σ
  trace : List Event

/-- Run a program against an environment with state `σ` that answers calls. -/
def Prog.interp {σ α : Type} (h : (c : Call) → σ → Except Error (Resp c) × σ) :
    Prog α → σ → Outcome σ α
  | .ret a, s => ⟨a, s, []⟩
  | .call c k, s =>
    let out := (k (h c s).1).interp h (h c s).2
    ⟨out.value, out.state, ⟨c, (h c s).1⟩ :: out.trace⟩

/-- Sequencing: run `p`, then continue with its value. -/
def Prog.bind {α β : Type} : Prog α → (α → Prog β) → Prog β
  | .ret a, f => f a
  | .call c k, f => .call c fun r => (k r).bind f

/-- The response of an event is a success. -/
def Event.succeeded (e : Event) : Bool :=
  match e.resp with
  | .ok _ => true
  | .error _ => false

/-! ## The object store and the BMC endpoints

The store is the external collaborator of the operator.  Its model follows the
Kubernetes API server as the controller-runtime client uses it:

* an object is addressed by namespace and name (a host by name alone);
* a merge patch carries the fields in which the caller's object differs from
  its base and overwrites exactly those fields of the stored object; a patch of
  the main resource leaves the status alone and a patch of the status
  subresource leaves everything but the status alone;
* the patch carries a resource version, and is then rejected with a conflict
  unless that version is the stored one, when it was built with the optimistic
  lock (the version of the base) or when the caller's object and the base
  differ in their version (the version of the caller's object);
* a write that changes the stored object advances its resource version, a
  write that changes nothing leaves the object as it is;
* a declarative apply creates the object when it is absent and otherwise sets
  the applied fields (owner references and spec), leaving status and
  finalizers alone; the object it returns carries the name and namespace it
  was applied under; field managers are not tracked, so an apply never
  conflicts;
* an object whose deletion timestamp is set and whose finalizers are gone is
  removed by the store in a step of its own, not by the patch.
-/

/-- The persisted objects, the keys under which `List` finds the claims, and
the BMC endpoints (by address). -/
structure World where
  hosts : String → Option BareMetalHost := fun _ => none
  claims : String × String → Option BareMetalHostClaim := fun _ => none
  pxes : String × String → Option PXE := fun _ => none
  dhcps : String × String → Option DHCP := fun _ => none
  secrets : String × String → Option Secret := fun _ => none
  claimKeys : List (String × String) := []
  bmcs : String → Option SystemInfo := fun _ => none

/-- One field of a merge patch: the field is in the patch iff the caller's
value differs from the base, and then replaces the stored value. -/
def pick {α : Type} [DecidableEq α] (base modified stored : α) : α :=
  if base = modified then stored else modified

/-- The version check of a merge patch. -/
def versionOk (lock : Bool) (base modified stored : Nat) : Bool :=
  if lock then base == stored else (base == modified || modified == stored)

/-- The metadata a merge patch can change. -/
def mergeMeta (base modified stored : ObjectMeta) : ObjectMeta :=
  { stored with
    Finalizers := pick base.Finalizers modified.Finalizers stored.Finalizers
    OwnerReferences := pick base.OwnerReferences modified.OwnerReferences stored.OwnerReferences }

def mergeHostSpec (base modified stored : BareMetalHostSpec) : BareMetalHostSpec :=
  { SystemID := pick base.SystemID modified.SystemID stored.SystemID
    FooUUID := pick base.FooUUID modified.FooUUID stored.FooUUID
    Power := pick base.Power modified.Power stored.Power
    ClaimRef := pick base.ClaimRef modified.ClaimRef stored.ClaimRef
    BMC := pick base.BMC modified.BMC stored.BMC
    BootMACAddress := pick base.BootMACAddress modified.BootMACAddress stored.BootMACAddress }

def mergeHostStatus (base modified stored : BareMetalHostStatus) : BareMetalHostStatus :=
  { Manufacturer := pick base.Manufacturer modified.Manufacturer stored.Manufacturer
    Model := pick base.Model modified.Model stored.Model
    SerialNumber := pick base.SerialNumber modified.SerialNumber stored.SerialNumber
    FirmwareVersion := pick base.FirmwareVersion modified.FirmwareVersion stored.FirmwareVersion
    PowerState := pick base.PowerState modified.PowerState stored.PowerState
    Health := pick base.Health modified.Health stored.Health
    SystemState := pick base.SystemState modified.SystemState stored.SystemState
    Phase := pick base.Phase modified.Phase stored.Phase
    State := pick base.State modified.State stored.State
    NetworkInterfaces :=
      pick base.NetworkInterfaces modified.NetworkInterfaces stored.NetworkInterfaces
    Processors := pick base.Processors modified.Processors stored.Processors }

def mergeClaimSpec (base modified stored : BareMetalHostClaimSpec) : BareMetalHostClaimSpec :=
  { Power := pick base.Power modified.Power stored.Power
    BareMetalHostRef := pick base.BareMetalHostRef modified.BareMetalHostRef stored.BareMetalHostRef
    IgnitionRef := pick base.IgnitionRef modified.IgnitionRef stored.IgnitionRef
    Image := pick base.Image modified.Image stored.Image }

def mergePXESpec (base modified stored : PXESpec) : PXESpec :=
  { SystemUUID := pick base.SystemUUID modified.SystemUUID stored.SystemUUID
    BareMetalHostClaimRef :=
      pick base.BareMetalHostClaimRef modified.BareMetalHostClaimRef stored.BareMetalHostClaimRef
    IgnitionRef := pick base.IgnitionRef modified.IgnitionRef stored.IgnitionRef
    Image := pick base.Image modified.Image stored.Image }

/-- Store a new version of a host: the resource version advances iff the
object changed. -/
def stampHost (stored new : BareMetalHost) : BareMetalHost :=
  if new = stored then stored
  else { new with ResourceVersion := stored.ResourceVersion + 1 }

def stampClaim (stored new : BareMetalHostClaim) : BareMetalHostClaim :=
  if new = stored then stored
  else { new with ResourceVersion := stored.ResourceVersion + 1 }

def stampPXE (stored new : PXE) : PXE :=
  if new = stored then stored
  else { new with ResourceVersion := stored.ResourceVersion + 1 }

def stampDHCP (stored new : DHCP) : DHCP :=
  if new = stored then stored
  else { new with ResourceVersion := stored.ResourceVersion + 1 }

def stampSecret (stored new : Secret) : Secret :=
  if new = stored then stored
  else { new with ResourceVersion := stored.ResourceVersion + 1 }

/-- Go `r.Get` of a host. -/
def World.getHost (w : World) (name : String) : Except Error BareMetalHost :=
  match w.hosts name with
  | some h => .ok h
  | none => .error .notFound

def World.getClaim (w : World) (ns name : String) : Except Error BareMetalHostClaim :=
  match w.claims (ns, name) with
  | some c => .ok c
  | none => .error .notFound

def World.getPXE (w : World) (ns name : String) : Except Error PXE :=
  match w.pxes (ns, name) with
  | some p => .ok p
  | none => .error .notFound

def World.getSecret (w : World) (ns name : String) : Except Error Secret :=
  match w.secrets (ns, name) with
  | some x => .ok x
  | none => .error .notFound

/-- Go `r.Patch(ctx, host, client.MergeFrom(base))`: metadata and spec. -/
def World.patchHost (w : World) (base modified : BareMetalHost) (lock : Bool) :
    Except Error BareMetalHost × World :=
  match w.hosts modified.Name with
  | none => (.error .notFound, w)
  | some stored =>
    if versionOk lock base.ResourceVersion modified.ResourceVersion stored.ResourceVersion then
      let new := stampHost stored
        { stored with
          toObjectMeta := mergeMeta base.toObjectMeta modified.toObjectMeta stored.toObjectMeta
          Spec := mergeHostSpec base.Spec modified.Spec stored.Spec }
      (.ok new, { w with hosts := Function.update w.hosts modified.Name (some new) })
    else (.error .conflict, w)

/-- Go `r.Status().Patch(ctx, host, client.MergeFrom(base))`: the status only. -/
def World.patchHostStatus (w : World) (base modified : BareMetalHost) :
    Except Error BareMetalHost × World :=
  match w.hosts modified.Name with
  | none => (.error .notFound, w)
  | some stored =>
    if versionOk false base.ResourceVersion modified.ResourceVersion stored.ResourceVersion then
      let new := stampHost stored
        { stored with Status := mergeHostStatus base.Status modified.Status stored.Status }
      (.ok new, { w with hosts := Function.update w.hosts modified.Name (some new) })
    else (.error .conflict, w)

def World.patchClaim (w : World) (base modified : BareMetalHostClaim) (lock : Bool) :
    Except Error BareMetalHostClaim × World :=
  match w.claims (modified.Namespace, modified.Name) with
  | none => (.error .notFound, w)
  | some stored =>
    if versionOk lock base.ResourceVersion modified.ResourceVersion stored.ResourceVersion then
      let new := stampClaim stored
        { stored with
          toObjectMeta := mergeMeta base.toObjectMeta modified.toObjectMeta stored.toObjectMeta
          Spec := mergeClaimSpec base.Spec modified.Spec stored.Spec }
      (.ok new,
        { w with claims := Function.update w.claims (modified.Namespace, modified.Name) (some new) })
    else (.error .conflict, w)

def World.patchClaimStatus (w : World) (base modified : BareMetalHostClaim) :
    Except Error BareMetalHostClaim × World :=
  match w.claims (modified.Namespace, modified.Name) with
  | none => (.error .notFound, w)
  | some stored =>
    if versionOk false base.ResourceVersion modified.ResourceVersion stored.ResourceVersion then
      let new := stampClaim stored
        { stored with
          Status := { Phase := pick base.Status.Phase modified.Status.Phase stored.Status.Phase } }
      (.ok new,
        { w with claims := Function.update w.claims (modified.Namespace, modified.Name) (some new) })
    else (.error .conflict, w)

def World.patchPXE (w : World) (base modified : PXE) (lock : Bool) : Except Error PXE × World :=
  match w.pxes (modified.Namespace, modified.Name) with
  | none => (.error .notFound, w)
  | some stored =>
    if versionOk lock base.ResourceVersion modified.ResourceVersion stored.ResourceVersion then
      let new := stampPXE stored
        { stored with
          toObjectMeta := mergeMeta base.toObjectMeta modified.toObjectMeta stored.toObjectMeta
          Spec := mergePXESpec base.Spec modified.Spec stored.Spec }
      (.ok new,
        { w with pxes := Function.update w.pxes (modified.Namespace, modified.Name) (some new) })
    else (.error .conflict, w)

def World.patchPXEStatus (w : World) (base modified : PXE) : Except Error PXE × World :=
  match w.pxes (modified.Namespace, modified.Name) with
  | none => (.error .notFound, w)
  | some stored =>
    if versionOk false base.ResourceVersion modified.ResourceVersion stored.ResourceVersion then
      let new := stampPXE stored
        { stored with
          Status := { State := pick base.Status.State modified.Status.State stored.Status.State } }
      (.ok new,
        { w with pxes := Function.update w.pxes (modified.Namespace, modified.Name) (some new) })
    else (.error .conflict, w)

def World.patchDHCPStatus (w : World) (base modified : DHCP) : Except Error DHCP × World :=
  match w.dhcps (modified.Namespace, modified.Name) with
  | none => (.error .notFound, w)
  | some stored =>
    if versionOk false base.ResourceVersion modified.ResourceVersion stored.ResourceVersion then
      let new := stampDHCP stored
        { stored with
          Status := { State := pick base.Status.State modified.Status.State stored.Status.State } }
      (.ok new,
        { w with dhcps := Function.update w.dhcps (modified.Namespace, modified.Name) (some new) })
    else (.error .conflict, w)

/-- Go `r.Patch(ctx, pxe, client.Apply, owner, ...)`. -/
def World.applyPXE (w : World) (pxe : PXE) : Except Error PXE × World :=
  match w.pxes (pxe.Namespace, pxe.Name) with
  | none =>
    let new : PXE :=
      { pxe with ResourceVersion := 1, Finalizers := [], DeletionTimestamp := none, Status := {} }
    (.ok new, { w with pxes := Function.update w.pxes (pxe.Namespace, pxe.Name) (some new) })
  | some stored =>
    let new := stampPXE stored
      { stored with
        Name := pxe.Name, Namespace := pxe.Namespace
        OwnerReferences := pxe.OwnerReferences, Spec := pxe.Spec }
    (.ok new, { w with pxes := Function.update w.pxes (pxe.Namespace, pxe.Name) (some new) })

def World.applyDHCP (w : World) (dhcp : DHCP) : Except Error DHCP × World :=
  match w.dhcps (dhcp.Namespace, dhcp.Name) with
  | none =>
    let new : DHCP :=
      { dhcp with ResourceVersion := 1, Finalizers := [], DeletionTimestamp := none, Status := {} }
    (.ok new, { w with dhcps := Function.update w.dhcps (dhcp.Namespace, dhcp.Name) (some new) })
  | some stored =>
    let new := stampDHCP stored
      { stored with
        Name := dhcp.Name, Namespace := dhcp.Namespace
        OwnerReferences := dhcp.OwnerReferences, Spec := dhcp.Spec }
    (.ok new, { w with dhcps := Function.update w.dhcps (dhcp.Namespace, dhcp.Name) (some new) })

def World.applySecret (w : World) (x : Secret) : Except Error Secret × World :=
  match w.secrets (x.Namespace, x.Name) with
  | none =>
    let new : Secret :=
      { x with ResourceVersion := 1, Finalizers := [], DeletionTimestamp := none }
    (.ok new, { w with secrets := Function.update w.secrets (x.Namespace, x.Name) (some new) })
  | some stored =>
    let new := stampSecret stored
      { stored with
        Name := x.Name, Namespace := x.Namespace
        OwnerReferences := x.OwnerReferences, Data := x.Data }
    (.ok new, { w with secrets := Function.update w.secrets (x.Namespace, x.Name) (some new) })

/-- Go `r.Delete`: deleting an object that is not there is a not-found error. -/
def World.deleteSecret (w : World) (ns name : String) : Except Error Unit × World :=
  match w.secrets (ns, name) with
  | none => (.error .notFound, w)
  | some _ => (.ok (), { w with secrets := Function.update w.secrets (ns, name) none })

/-- Connecting to a BMC endpoint succeeds iff there is one at the address. -/
def World.connectBMC (w : World) (systemID address : String) : Except Error BMCClient :=
  match w.bmcs address with
  | some _ => .ok ⟨systemID, address⟩
  | none => .error .unavailable

def World.getSystemInfo (w : World) (c : BMCClient) : Except Error SystemInfo :=
  match w.bmcs c.address with
  | some info => .ok info
  | none => .error .unavailable

/-- A power command sets the power state the endpoint reports. -/
def World.setPower (w : World) (c : BMCClient) (state : String) : Except Error Unit × World :=
  match w.bmcs c.address with
  | some info =>
    (.ok (), { w with bmcs := Function.update w.bmcs c.address (some { info with PowerState := state }) })
  | none => (.error .unavailable, w)

/-- The answer of the collaborators to a call, and the state after it. -/
def exec : (c : Call) → World → Except Error (Resp c) × World
  | .getHost name, w => (w.getHost name, w)
  | .getClaim ns name, w => (w.getClaim ns name, w)
  | .getPXE ns name, w => (w.getPXE ns name, w)
  | .getSecret ns name, w => (w.getSecret ns name, w)
  | .listClaims, w => (.ok (w.claimKeys.filterMap w.claims), w)
  | .patchHost base modified lock, w => w.patchHost base modified lock
  | .patchClaim base modified lock, w => w.patchClaim base modified lock
  | .patchPXE base modified lock, w => w.patchPXE base modified lock
  | .patchHostStatus base modified, w => w.patchHostStatus base modified
  | .patchClaimStatus base modified, w => w.patchClaimStatus base modified
  | .patchPXEStatus base modified, w => w.patchPXEStatus base modified
  | .patchDHCPStatus base modified, w => w.patchDHCPStatus base modified
  | .applyPXE pxe _, w => w.applyPXE pxe
  | .applyDHCP dhcp _, w => w.applyDHCP dhcp
  | .applySecret x _, w => w.applySecret x
  | .deleteSecret ns name, w => w.deleteSecret ns name
  | .newRedfishLocalBMC systemID address, w => (w.connectBMC systemID address, w)
  | .newRedfishBMC systemID address _ _ _, w => (w.connectBMC systemID address, w)
  | .bmcLogout _, w => (.ok (), w)
  | .bmcGetSystemInfo c, w => (w.getSystemInfo c, w)
  | .bmcSetPXEBootOnce _ _, w => (.ok (), w)
  | .bmcPowerOn c, w => w.setPower c OnPowerState
  | .bmcPowerOff c, w => w.setPower c OffPowerState

/-- The environment of a run: the world and the schedule of injected
failures.  Each call consumes one entry of the schedule; `true` makes the call
fail without effect, `false` (or an exhausted schedule) lets the collaborator
answer. -/
def handle : (c : Call) → World × List Bool → Except Error (Resp c) × (World × List Bool)
  | _, (w, true :: faults) => (.error .unavailable, (w, faults))
  | c, (w, false :: faults) => ((exec c w).1, ((exec c w).2, faults))
  | c, (w, []) => ((exec c w).1, ((exec c w).2, []))

/-- Run a reconciler on a world under a schedule of injected failures. -/
def run {α : Type} (faults : List Bool) (p : Prog α) (w : World) : Outcome (World × List Bool) α :=
  p.interp handle (w, faults)

/-! ## `clientutils` (onmetal/controller-utils): finalizer patches

`PatchEnsureFinalizer` returns at once when the object has the finalizer;
otherwise it appends it (`controllerutil.AddFinalizer`) and patches the object
with an optimistically locked merge patch.  `PatchEnsureNoFinalizer` is its
mirror image.  Both report whether they modified the object, together with the
object as the caller holds it afterwards. -/

def PatchEnsureFinalizerClaim (claim : BareMetalHostClaim) (finalizer : String) :
    Prog (Except Error (Bool × BareMetalHostClaim)) :=
  if finalizer ∈ claim.Finalizers then .ret (.ok (false, claim))
  else
    .call (.patchClaim claim { claim with Finalizers := claim.Finalizers ++ [finalizer] } true)
      fun r =>
        match r with
        | .error err => .ret (.error err)
        | .ok claim => .ret (.ok (true, claim))

def PatchEnsureFinalizerHost (host : BareMetalHost) (finalizer : String) :
    Prog (Except Error (Bool × BareMetalHost)) :=
  if finalizer ∈ host.Finalizers then .ret (.ok (false, host))
  else
    .call (.patchHost host { host with Finalizers := host.Finalizers ++ [finalizer] } true)
      fun r =>
        match r with
        | .error err => .ret (.error err)
        | .ok host => .ret (.ok (true, host))

def PatchEnsureNoFinalizerClaim (claim : BareMetalHostClaim) (finalizer : String) :
    Prog (Except Error (Bool × BareMetalHostClaim)) :=
  if finalizer ∈ claim.Finalizers then
    .call (.patchClaim claim
        { claim with Finalizers := claim.Finalizers.filter (fun f => f != finalizer) } true)
      fun r =>
        match r with
        | .error err => .ret (.error err)
        | .ok claim => .ret (.ok (true, claim))
  else .ret (.ok (false, claim))

def PatchEnsureNoFinalizerHost (host : BareMetalHost) (finalizer : String) :
    Prog (Except Error (Bool × BareMetalHost)) :=
  if finalizer ∈ host.Finalizers then
    .call (.patchHost host
        { host with Finalizers := host.Finalizers.filter (fun f => f != finalizer) } true)
      fun r =>
        match r with
        | .error err => .ret (.error err)
        | .ok host => .ret (.ok (true, host))
  else .ret (.ok (false, host))

/-! ## The claim reconciler (`baremetalhostclaim_controller.go`) -/

/-- The method `applyPXEConfiguration`: apply the PXE object of the claim with forced
field ownership, then patch its status to `Created`.  The PXE spec field that
receives `host.Spec.FooUUID` is declared as `SystemUUID` in `pxe_types.go`.
`controllerutil.SetOwnerReference` fails only for a claim type unknown to the
scheme, which is fixed at start-up; it is taken to succeed and shows as the
owner reference of the applied object. -/
def BareMetalHostClaimReconciler.applyPXEConfiguration (claim : BareMetalHostClaim)
    (host : BareMetalHost) : Prog (Except Error Unit) :=
  let pxe : PXE :=
    { Namespace := claim.Namespace
      Name := claim.Name
      OwnerReferences := [{ Kind := "BareMetalHostClaim", Name := claim.Name, UID := claim.UID }]
      Spec :=
        { BareMetalHostClaimRef := { Name := claim.Name }
          IgnitionRef := claim.Spec.IgnitionRef
          Image := claim.Spec.Image
          SystemUUID := host.Spec.FooUUID } }
  .call (.applyPXE pxe true) fun r =>
    match r with
    | .error err => .ret (.error (.wrap "failed to apply PXE configuration" err))
    | .ok pxe =>
      .call (.patchPXEStatus pxe { pxe with Status := { pxe.Status with State := PXEStateCreated } })
        fun r =>
          match r with
          | .error err => .ret (.error (.wrap "failed to apply PXE configuration" err))
          | .ok _ => .ret (.ok ())

/-- The method `applyDHCPConfiguration`: apply the DHCP object of the claim with forced
field ownership, then patch its status to `Created`. -/
def BareMetalHostClaimReconciler.applyDHCPConfiguration (claim : BareMetalHostClaim) :
    Prog (Except Error Unit) :=
  let dhcp : DHCP :=
    { Namespace := claim.Namespace
      Name := claim.Name
      OwnerReferences := [{ Kind := "BareMetalHostClaim", Name := claim.Name, UID := claim.UID }]
      Spec := { BareMetalHostRef := claim.Spec.BareMetalHostRef } }
  .call (.applyDHCP dhcp true) fun r =>
    match r with
    | .error err => .ret (.error (.wrap "failed to apply DHCP configuration" err))
    | .ok dhcp =>
      .call
        (.patchDHCPStatus dhcp { dhcp with Status := { dhcp.Status with State := DHCPStateCreated } })
        fun r =>
          match r with
          | .error err => .ret (.error (.wrap "failed to patch DHCP configuration status" err))
          | .ok _ => .ret (.ok ())

/-- The end of `reconcile` (lines 187-193): patch the claim status to Bound. -/
def BareMetalHostClaimReconciler.reconcileStatus (claim : BareMetalHostClaim) :
    Prog (Except Error Unit) :=
  .call (.patchClaimStatus claim { claim with Status := { claim.Status with Phase := PhaseBound } })
    fun r =>
      match r with
      | .error err => .ret (.error err)
      | .ok _ => .ret (.ok ())

/-- The power sequencing of `reconcile` (lines 162-185), followed by the
status patch: only power on the machine if the PXE configuration is ready. -/
def BareMetalHostClaimReconciler.reconcilePower (claim : BareMetalHostClaim)
    (host : BareMetalHost) : Prog (Except Error Unit) :=
  if host.Spec.ClaimRef ≠ none then
    if claim.Spec.Power = PowerStateOn ∧ claim.Spec.IgnitionRef ≠ none then
      .call (.getPXE claim.Namespace claim.Name) fun r =>
        match r with
        | .error err => .ret (.error (.wrap "failed to get PXE configuration for claim" err))
        | .ok pxeConfig =>
          if pxeConfig.Status.State = PXEStateReady then
            .call (.patchHost host { host with Spec := { host.Spec with Power := claim.Spec.Power } }
                false) fun r =>
              match r with
              | .error err =>
                .ret (.error (.wrap ("faield to patch the power status on host " ++ host.Name) err))
              | .ok _ => BareMetalHostClaimReconciler.reconcileStatus claim
          else BareMetalHostClaimReconciler.reconcileStatus claim
    else
      .call (.patchHost host { host with Spec := { host.Spec with Power := claim.Spec.Power } }
          false) fun r =>
        match r with
        | .error err =>
          .ret (.error (.wrap ("faield to patch the power status on host " ++ host.Name) err))
        | .ok _ => BareMetalHostClaimReconciler.reconcileStatus claim
  else BareMetalHostClaimReconciler.reconcileStatus claim

/-- The reference a claim leaves on the host it binds (lines 150-155). -/
def claimRefOf (claim : BareMetalHostClaim) : ObjectReference :=
  { Kind := "BareMetalHostClaim"
    Namespace := claim.Namespace
    Name := claim.Name
    UID := claim.UID }

/-- The binding step of `reconcile` (lines 147-160), followed by the power
sequencing: set the claim reference of the host if it has none. -/
def BareMetalHostClaimReconciler.reconcileClaimRef (claim : BareMetalHostClaim)
    (host : BareMetalHost) : Prog (Except Error Unit) :=
  if host.Spec.ClaimRef = none then
    .call (.patchHost host
        { host with Spec := { host.Spec with ClaimRef := some (claimRefOf claim) } } false) fun r =>
      match r with
      | .error err =>
        .ret (.error (.wrap ("failed to patch claimRef on host " ++ host.Name) err))
      | .ok host => BareMetalHostClaimReconciler.reconcilePower claim host
  else BareMetalHostClaimReconciler.reconcilePower claim host

/-- The part of `reconcile` once the host is read and not claimed by somebody else (lines
128-160): host finalizer, PXE and DHCP configuration, then the binding. -/
def BareMetalHostClaimReconciler.reconcileHost (claim : BareMetalHostClaim)
    (host : BareMetalHost) : Prog (Except Error Unit) :=
  (PatchEnsureFinalizerHost host BareMetalHostClaimFinalizer).bind fun r =>
    match r with
    | .error err => .ret (.error err)
    | .ok (true, _) => .ret (.ok ())
    | .ok (false, host) =>
      (BareMetalHostClaimReconciler.applyPXEConfiguration claim host).bind fun r =>
        match r with
        | .error err => .ret (.error (.wrap "failed to apply PXE configuration" err))
        | .ok _ =>
          (BareMetalHostClaimReconciler.applyDHCPConfiguration claim).bind fun r =>
            match r with
            | .error err => .ret (.error (.wrap "failed to apply DHCP configuration" err))
            | .ok _ => BareMetalHostClaimReconciler.reconcileClaimRef claim host

/-- The method `BareMetalHostClaimReconciler.reconcile` (lines 116-194). -/
def BareMetalHostClaimReconciler.reconcile (claim : BareMetalHostClaim) :
    Prog (Except Error Unit) :=
  (PatchEnsureFinalizerClaim claim BareMetalHostClaimFinalizer).bind fun r =>
    match r with
    | .error err => .ret (.error err)
    | .ok (true, _) => .ret (.ok ())
    | .ok (false, claim) =>
      .call (.getHost claim.Spec.BareMetalHostRef.Name) fun r =>
        match r with
        | .error err => .ret (.error (.wrap "failed to get host for claim" err))
        | .ok host =>
          if host.Spec.ClaimRef.any (fun ref => ref.UID != claim.UID) then
            .ret (.error (.msg ("failed to claim host " ++ host.Name ++
              " as it is already in claimed by somebody else")))
          else BareMetalHostClaimReconciler.reconcileHost claim host

/-- The part of `delete` once the host status is patched (lines 102-113): remove the
finalizer of the host, then the finalizer of the claim. -/
def BareMetalHostClaimReconciler.deleteFinalizers (claim : BareMetalHostClaim)
    (host : BareMetalHost) : Prog (Except Error Unit) :=
  (PatchEnsureNoFinalizerHost host BareMetalHostClaimFinalizer).bind fun r =>
    match r with
    | .error err => .ret (.error (.wrap "failed to remove finalizer from host" err))
    | .ok _ =>
      (PatchEnsureNoFinalizerClaim claim BareMetalHostClaimFinalizer).bind fun r =>
        match r with
        | .error err => .ret (.error err)
        | .ok _ => .ret (.ok ())

/-- The method `BareMetalHostClaimReconciler.delete` (lines 80-114). -/
def BareMetalHostClaimReconciler.delete (claim : BareMetalHostClaim) :
    Prog (Except Error Unit) :=
  .call (.getHost claim.Spec.BareMetalHostRef.Name) fun r =>
    match r with
    | .error err => .ret (.error (.wrap "failed to get host for claim" err))
    | .ok hostBase =>
      .call (.patchHost hostBase { hostBase with Spec := { hostBase.Spec with ClaimRef := none } }
          false) fun r =>
        match r with
        | .error err => .ret (.error (.wrap "failed to remove claimRef from host" err))
        | .ok host =>
          .call (.patchHostStatus hostBase
              { host with Status := { host.Status with State := StateTainted } }) fun r =>
            match r with
            | .error err => .ret (.error (.wrap "failed to patch host status" err))
            | .ok host => BareMetalHostClaimReconciler.deleteFinalizers claim host

/-- The method `BareMetalHostClaimReconciler.reconcileExists` (lines 73-78). -/
def BareMetalHostClaimReconciler.reconcileExists (claim : BareMetalHostClaim) :
    Prog (Except Error Unit) :=
  if claim.DeletionTimestamp ≠ none then BareMetalHostClaimReconciler.delete claim
  else BareMetalHostClaimReconciler.reconcile claim

/-- The method `BareMetalHostClaimReconciler.Reconcile` (lines 63-71). -/
def BareMetalHostClaimReconciler.Reconcile (ns name : String) : Prog (Except Error Unit) :=
  .call (.getClaim ns name) fun r =>
    match r with
    | .error err => .ret (if err.IsNotFound then .ok () else .error err)
    | .ok claim => BareMetalHostClaimReconciler.reconcileExists claim

/-! ## The host reconciler (`baremetalhost_controller.go`) -/

/-- The third step of `ensurePowerState` (lines 116-122): power off. -/
def BareMetalHostReconciler.ensurePowerOff (bmcClient : BMCClient) (host : BareMetalHost) :
    Prog (Except Error Unit) :=
  if host.Spec.Power = PowerStateOff ∧ host.Status.PowerState = OnPowerState then
    .call (.bmcPowerOff bmcClient) fun r =>
      match r with
      | .error err => .ret (.error (.wrap ("failed to change power state to " ++ PowerStateOff) err))
      | .ok _ => .ret (.ok ())
  else .ret (.ok ())

/-- The second step of `ensurePowerState` (lines 110-114), then the third:
power on. -/
def BareMetalHostReconciler.ensurePowerOn (bmcClient : BMCClient) (host : BareMetalHost) :
    Prog (Except Error Unit) :=
  if host.Spec.Power = PowerStateOn ∧ host.Status.PowerState = OffPowerState then
    .call (.bmcPowerOn bmcClient) fun r =>
      match r with
      | .error err => .ret (.error (.wrap ("failed to change power state to " ++ PowerStateOn) err))
      | .ok _ => BareMetalHostReconciler.ensurePowerOff bmcClient host
  else BareMetalHostReconciler.ensurePowerOff bmcClient host

/-- The method `BareMetalHostReconciler.ensurePowerState` (lines 102-123). -/
def BareMetalHostReconciler.ensurePowerState (bmcClient : BMCClient) (host : BareMetalHost) :
    Prog (Except Error Unit) :=
  if host.Status.State = StateInitial then
    .call (.bmcSetPXEBootOnce bmcClient host.Spec.SystemID) fun r =>
      match r with
      | .error err => .ret (.error (.wrap "failed to set boot PXE once boot order for host" err))
      | .ok _ => BareMetalHostReconciler.ensurePowerOn bmcClient host
  else BareMetalHostReconciler.ensurePowerOn bmcClient host

/-- The entry `updateHostNICsFromSystemInfo` writes for a NIC of the system
info (lines 285-289 and 296-300). -/
def toNetworkInterface (newNic : BMCNetworkInterface) : NetworkInterface :=
  { ID := newNic.ID
    MACAddress := newNic.MACAddress
    PermanentMACAddress := newNic.PermanentMACAddress }

/-- The inner loop of `updateHostNICsFromSystemInfo` (lines 282-293): replace
the first entry that has the ID of `newNic` and stop; `none` when no entry has
it (`updated` stays false). -/
def updateExistingNIC (newNic : BMCNetworkInterface) :
    List NetworkInterface → Option (List NetworkInterface)
  | [] => none
  | existingNic :: rest =>
    if newNic.ID = existingNic.ID then some (toNetworkInterface newNic :: rest)
    else (updateExistingNIC newNic rest).map (fun rest => existingNic :: rest)

/-- One round of the outer loop (lines 279-302): update in place, else append. -/
def mergeNIC (nics : List NetworkInterface) (newNic : BMCNetworkInterface) :
    List NetworkInterface :=
  match updateExistingNIC newNic nics with
  | some updated => updated
  | none => nics ++ [toNetworkInterface newNic]

/-- The function `updateHostNICsFromSystemInfo` (lines 278-303). -/
def updateHostNICsFromSystemInfo (info : SystemInfo) (host : BareMetalHost) : BareMetalHost :=
  { host with
    Status :=
      { host.Status with
        NetworkInterfaces := info.NetworkInterfaces.foldl mergeNIC host.Status.NetworkInterfaces } }

/-! ## Observations on calls, events and worlds -/

/-- The call writes to the object store. -/
def Call.isWrite : Call → Bool
  | .patchHost _ _ _ => true
  | .patchClaim _ _ _ => true
  | .patchPXE _ _ _ => true
  | .patchHostStatus _ _ => true
  | .patchClaimStatus _ _ => true
  | .patchPXEStatus _ _ => true
  | .patchDHCPStatus _ _ => true
  | .applyPXE _ _ => true
  | .applyDHCP _ _ => true
  | .applySecret _ _ => true
  | .deleteSecret _ _ => true
  | _ => false

/-- The call writes to a host object. -/
def Call.touchesHosts : Call → Bool
  | .patchHost _ _ _ => true
  | .patchHostStatus _ _ => true
  | _ => false

/-- The call writes to a claim object. -/
def Call.touchesClaims : Call → Bool
  | .patchClaim _ _ _ => true
  | .patchClaimStatus _ _ => true
  | _ => false

/-- The call is a patch of a host whose merge patch contains `spec.power`. -/
def Call.writesHostPower : Call → Bool
  | .patchHost base modified _ => base.Spec.Power != modified.Spec.Power
  | _ => false

/-- The event is a read of a PXE object that returned it at state Ready. -/
def Event.readsReadyPXE : Event → Bool
  | ⟨.getPXE _ _, .ok pxe⟩ => pxe.Status.State == PXEStateReady
  | _ => false

/-- Every host is stored under its own name. -/
def World.HostsNamed (w : World) : Prop :=
  ∀ name host, w.hosts name = some host → host.Name = name

/-- The desired power of the host stored under a name. -/
def World.hostPower (w : World) (name : String) : Option PowerState :=
  (w.hosts name).map fun host => host.Spec.Power

/-- The claim reference of the host stored under a name. -/
def World.hostClaimRef (w : World) (name : String) : Option (Option ObjectReference) :=
  (w.hosts name).map fun host => host.Spec.ClaimRef

/-! ## Sample objects

A claim with provisioning content and desired power On, the host bound to it,
and a world that holds both together with the PXE object of the claim. -/

/-- A claim that carries its finalizer, wants power On and references
provisioning content. -/
def sampleClaim : BareMetalHostClaim :=
  { Name := "c1", Namespace := "ns", UID := "u1", ResourceVersion := 1
    Finalizers := [BareMetalHostClaimFinalizer]
    Spec := { Power := PowerStateOn, BareMetalHostRef := ⟨"h1"⟩, IgnitionRef := some ⟨"ign"⟩ } }

/-- The host `h1`, carrying the claim finalizer and bound to `sampleClaim`. -/
def sampleHost : BareMetalHost :=
  { Name := "h1", ResourceVersion := 1, Finalizers := [BareMetalHostClaimFinalizer]
    Spec := { Power := PowerStateOff, ClaimRef := some (claimRefOf sampleClaim) }
    Status := { State := StateReserved, Phase := PhaseBound } }

/-- A world with `sampleClaim`, `sampleHost` and the PXE object of the claim at
state Created. -/
def sampleWorld : World :=
  { hosts := fun name => if name = "h1" then some sampleHost else none
    claims := fun key => if key = ("ns", "c1") then some sampleClaim else none
    pxes := fun key =>
      if key = ("ns", "c1") then
        some { Name := "c1", Namespace := "ns", ResourceVersion := 2
               Status := { State := PXEStateCreated } }
      else none
    claimKeys := [("ns", "c1")] }

/-- A second claim for the host `h1`, with an identity of its own. -/
def otherClaim : BareMetalHostClaim :=
  { Name := "c2", Namespace := "ns", UID := "u2", ResourceVersion := 1
    Finalizers := [BareMetalHostClaimFinalizer]
    Spec := { Power := PowerStateOn, BareMetalHostRef := ⟨"h1"⟩ } }

/-- The call is a patch of a host whose merge patch contains `spec.claimRef`. -/
def Call.writesHostClaimRef : Call → Bool
  | .patchHost base modified _ => base.Spec.ClaimRef != modified.Spec.ClaimRef
  | _ => false

/-- A sequence of claim reconcile passes, each for a claim of its own and
under a failure schedule of its own. -/
def reconcileAll (steps : List (BareMetalHostClaim × List Bool)) (w : World) : World :=
  steps.foldl (fun w step => (run step.2 (BareMetalHostClaimReconciler.reconcile step.1) w).state.1) w

/-- The host `h1` before any claim binds it: it carries the claim finalizer
and has no claim reference. -/
def freeHost : BareMetalHost :=
  { Name := "h1", ResourceVersion := 1, Finalizers := [BareMetalHostClaimFinalizer]
    Spec := { Power := PowerStateOff }
    Status := { State := StateAvailable, Phase := PhaseUnbound } }

/-- A world with the unclaimed host `h1` and the claim `otherClaim` for it. -/
def freeWorld : World :=
  { hosts := fun name => if name = "h1" then some freeHost else none
    claims := fun key => if key = ("ns", "c2") then some otherClaim else none
    claimKeys := [("ns", "c2")] }

/-- The call is one of the host-side calls of claim deletion: the lookup of the
host or a write to it. -/
def Call.isHostSide : Call → Bool
  | .getHost _ => true
  | c => c.touchesHosts

/-- The first write of claim deletion (line 90): the merge patch that clears
the claim reference of the host. -/
@[reducible] def clearClaimRefCall (hostBase : BareMetalHost) : Call :=
  .patchHost hostBase { hostBase with Spec := { hostBase.Spec with ClaimRef := none } } false

/-- The second write of claim deletion (line 97): the status patch that sets
the state of the host to Tainted, computed against the host as first read. -/
@[reducible] def taintCall (hostBase host : BareMetalHost) : Call :=
  .patchHostStatus hostBase { host with Status := { host.Status with State := StateTainted } }

/-- The patch that removes the claim-protection finalizer from the host. -/
@[reducible] def hostFinalizerCall (host : BareMetalHost) : Call :=
  .patchHost host
    { host with Finalizers := host.Finalizers.filter (fun f => f != BareMetalHostClaimFinalizer) }
    true

/-- The patch that removes the finalizer of the claim itself. -/
@[reducible] def claimFinalizerCall (claim : BareMetalHostClaim) : Call :=
  .patchClaim claim
    { claim with
      Finalizers := claim.Finalizers.filter (fun f => f != BareMetalHostClaimFinalizer) }
    true

/-- The claim `sampleClaim` once its deletion is requested. -/
def doomedClaim : BareMetalHostClaim :=
  { sampleClaim with DeletionTimestamp := some 100 }

/-- The world of `sampleWorld` with the claim under deletion. -/
def doomedWorld : World :=
  { sampleWorld with claims := fun key => if key = ("ns", "c1") then some doomedClaim else none }

/-- The call reads a PXE object. -/
def Call.readsPXE : Call → Bool
  | .getPXE _ _ => true
  | _ => false

/-- The world of `sampleWorld` once the PXE reconciler has brought the PXE
object of the claim to state Ready. -/
def readyWorld : World :=
  { sampleWorld with
    pxes := fun key =>
      if key = ("ns", "c1") then
        some { Name := "c1", Namespace := "ns", ResourceVersion := 3
               Spec := { BareMetalHostClaimRef := ⟨"c1"⟩, IgnitionRef := some ⟨"ign"⟩ }
               Status := { State := PXEStateReady } }
      else none }

/-- The state of the PXE object stored under a key. -/
def World.pxeState (w : World) (ns name : String) : Option PXEState :=
  (w.pxes (ns, name)).map fun pxe => pxe.Status.State

/-- The call is a power command to the BMC. -/
def Call.isPowerCommand : Call → Bool
  | .bmcPowerOn _ => true
  | .bmcPowerOff _ => true
  | _ => false

/-- A BMC client for the system of the host `h1`. -/
def sampleBMC : BMCClient := { systemId := "sys-1", address := "bmc.h1" }

/-- A world whose BMC endpoint `bmc.h1` reports a powered-off system. -/
def bmcWorld : World :=
  { bmcs := fun address => if address = "bmc.h1" then some { PowerState := OffPowerState } else none }

/-- A host that wants power On and was observed powered off. -/
def offHost : BareMetalHost :=
  { Name := "h1"
    Spec := { SystemID := "sys-1", Power := PowerStateOn }
    Status := { State := StateAvailable, PowerState := OffPowerState } }

/-- A host with the NICs `eth0` and `eth1`. -/
def nicHost : BareMetalHost :=
  { Name := "h1"
    Status :=
      { NetworkInterfaces :=
          [{ ID := "eth0", MACAddress := "aa:00" }, { ID := "eth1", MACAddress := "aa:01" }] } }

/-- A system info that reports a new MAC address for `eth1` and the NIC
`eth2`. -/
def nicInfo : SystemInfo :=
  { NetworkInterfaces :=
      [{ ID := "eth1", MACAddress := "bb:01" }, { ID := "eth2", MACAddress := "bb:02" }] }

/-! ## The host reconciler: target state, status and the BMC client -/

/-- The method `isHostReady` (lines 174-182): a placeholder that answers true. -/
def BareMetalHostReconciler.isHostReady (_host : BareMetalHost) : Bool := true

/-- The switch of `determineTargetHostStatus` (lines 158-171) with the
readiness check it calls as an argument.  A Go `case` does not fall through:
when the check fails in `StateInitial` the switch is left and the final
`return StateInitial` answers. -/
def BareMetalHostReconciler.determineTargetHostStatusWith
    (isHostReady : BareMetalHost → Bool) (host : BareMetalHost) : HostState :=
  if host.Status.State = StateInitial then
    if isHostReady host then StateAvailable else StateInitial
  else if host.Status.State = StateAvailable then StateAvailable
  else if host.Status.State = StateTainted then StateInitial
  else StateInitial

/-- The method `determineTargetHostStatus` (lines 158-171). -/
def BareMetalHostReconciler.determineTargetHostStatus (host : BareMetalHost) : HostState :=
  BareMetalHostReconciler.determineTargetHostStatusWith BareMetalHostReconciler.isHostReady host

/-- The method `initializeHost` (lines 305-319); the result is the host as the
caller holds it after the patch. -/
def BareMetalHostReconciler.initializeHost (host : BareMetalHost) (state : HostState) :
    Prog (Except Error BareMetalHost) :=
  let hostBase := host
  let host :=
    if host.Spec.ClaimRef = none ∧ state = StateInitial then
      { host with Spec := { host.Spec with Power := PowerStateOff } }
    else host
  .call (.patchHost hostBase host false) fun r =>
    match r with
    | .error err => .ret (.error err)
    | .ok host => .ret (.ok host)

/-- The assignments of `ensureHostStatus` (lines 194-203) to the host in memory. -/
def BareMetalHostReconciler.targetStatus (host : BareMetalHost) (targetHostState : HostState) :
    BareMetalHost :=
  let host := { host with Status := { host.Status with State := targetHostState } }
  let host :=
    if host.Spec.ClaimRef ≠ none then
      { host with Status := { host.Status with Phase := PhaseBound, State := StateReserved } }
    else host
  if host.Spec.ClaimRef = none then
    { host with Status := { host.Status with Phase := PhaseUnbound } }
  else host

/-- The tail of `ensureHostStatus` (lines 193-211): the status patch. -/
def BareMetalHostReconciler.patchTargetStatus (host : BareMetalHost)
    (targetHostState : HostState) : Prog (Except Error (HostState × HostState)) :=
  let hostBase := host
  let host := BareMetalHostReconciler.targetStatus host targetHostState
  .call (.patchHostStatus hostBase host) fun r =>
    match r with
    | .error err => .ret (.error err)
    | .ok _ => .ret (.ok (StateInitial, StateInitial))

/-- The method `ensureHostStatus` (lines 184-212). -/
def BareMetalHostReconciler.ensureHostStatus (host : BareMetalHost) :
    Prog (Except Error (HostState × HostState)) :=
  let targetHostState := BareMetalHostReconciler.determineTargetHostStatus host
  if targetHostState = StateInitial then
    (BareMetalHostReconciler.initializeHost host targetHostState).bind fun r =>
      match r with
      | .error err => .ret (.error err)
      | .ok host => BareMetalHostReconciler.patchTargetStatus host targetHostState
  else BareMetalHostReconciler.patchTargetStatus host targetHostState

/-- The entry `updateHostStatusFromSystemInfo` writes for a processor of the
system info (lines 234-244 and 252-262). -/
def toProcessor (newProcessor : BMCProcessor) : Processor :=
  { ID := newProcessor.ID
    ProcessorType := newProcessor.ProcessorType
    ProcessorArchitecture := newProcessor.ProcessorArchitecture
    InstructionSet := newProcessor.InstructionSet
    Manufacturer := newProcessor.Manufacturer
    Model := newProcessor.Model
    MHz := newProcessor.MaxSpeedMHz
    Cores := newProcessor.TotalCores
    Threads := newProcessor.TotalThreads }

/-- The inner loop over the processors (lines 231-248): replace the first entry
that has the ID of `newProcessor` and stop. -/
def updateExistingProcessor (newProcessor : BMCProcessor) :
    List Processor → Option (List Processor)
  | [] => none
  | existingProcessor :: rest =>
    if newProcessor.ID = existingProcessor.ID then some (toProcessor newProcessor :: rest)
    else (updateExistingProcessor newProcessor rest).map (fun rest => existingProcessor :: rest)

/-- One round of the outer loop over the processors (lines 228-264). -/
def mergeProcessor (processors : List Processor) (newProcessor : BMCProcessor) :
    List Processor :=
  match updateExistingProcessor newProcessor processors with
  | some updated => updated
  | none => processors ++ [toProcessor newProcessor]

/-- The assignments of `updateHostStatusFromSystemInfo` (lines 217-264) to the
host in memory. -/
def hostWithSystemInfo (info : SystemInfo) (host : BareMetalHost) : BareMetalHost :=
  let host :=
    { host with
      Status :=
        { host.Status with
          Manufacturer := info.Manufacturer
          Model := info.Model
          Health := info.Status.Health
          SystemState := info.Status.State
          PowerState := info.PowerState } }
  let host := updateHostNICsFromSystemInfo info host
  { host with
    Status :=
      { host.Status with
        Processors := info.Processors.foldl mergeProcessor host.Status.Processors } }

/-- The method `updateHostStatusFromSystemInfo` (lines 214-272); the result is
the host as the caller holds it after the status patch. -/
def BareMetalHostReconciler.updateHostStatusFromSystemInfo (host : BareMetalHost)
    (bmcClient : BMCClient) : Prog (Except Error BareMetalHost) :=
  .call (.bmcGetSystemInfo bmcClient) fun r =>
    match r with
    | .error err => .ret (.error (.wrap "failed to get system info" err))
    | .ok info =>
      let hostBase := host
      let host := hostWithSystemInfo info host
      .call (.patchHostStatus hostBase host) fun r =>
        match r with
        | .error err => .ret (.error (.wrap "failed to update host status" err))
        | .ok host => .ret (.ok host)

/-- The `BMCTypeRedfish` case of `createBMCClient` (lines 135-151). -/
def BareMetalHostReconciler.createRedfishBMCClient (basicAuth : Bool) (host : BareMetalHost) :
    Prog (Except Error BMCClient) :=
  .call (.getSecret host.Spec.BMC.SecretRef.Namespace host.Spec.BMC.SecretRef.Name) fun r =>
    match r with
    | .error err => .ret (.error (.wrap "failed to get BMC access secret for host" err))
    | .ok bmcSecret =>
      match bmcSecret.Data.lookup "username" with
      | none => .ret (.error (.msg "no username provided in BMC access secret"))
      | some username =>
        match bmcSecret.Data.lookup "password" with
        | none => .ret (.error (.msg "no password provided in BMC access secret"))
        | some password =>
          .call (.newRedfishBMC host.Spec.SystemID host.Spec.BMC.Address username password
              basicAuth) fun r =>
            match r with
            | .error err => .ret (.error (.wrap "failed to create redfish client" err))
            | .ok bmcClient => .ret (.ok bmcClient)

/-- The method `createBMCClient` (lines 125-156); `basicAuth` is the field
`BasicAuth` of the reconciler. -/
def BareMetalHostReconciler.createBMCClient (basicAuth : Bool) (host : BareMetalHost) :
    Prog (Except Error BMCClient) :=
  if host.Spec.BMC.Typ = BMCTypeRedfishLocal then
    .call (.newRedfishLocalBMC host.Spec.SystemID host.Spec.BMC.Address) fun r =>
      match r with
      | .error err => .ret (.error (.wrap "failed to create redfish local client" err))
      | .ok bmcClient => .ret (.ok bmcClient)
  else if host.Spec.BMC.Typ = BMCTypeRedfish then
    BareMetalHostReconciler.createRedfishBMCClient basicAuth host
  else .ret (.error (.msg ("BMC type " ++ host.Spec.BMC.Typ ++ " is not supported")))

/-- The body of `reconcile` after the BMC client is there (lines 78-98). -/
def BareMetalHostReconciler.reconcileWithClient (bmcClient : BMCClient) (host : BareMetalHost) :
    Prog (Except Error Unit) :=
  (BareMetalHostReconciler.updateHostStatusFromSystemInfo host bmcClient).bind fun r =>
    match r with
    | .error err => .ret (.error err)
    | .ok host =>
      (BareMetalHostReconciler.ensurePowerState bmcClient host).bind fun r =>
        match r with
        | .error err => .ret (.error err)
        | .ok _ =>
          (BareMetalHostReconciler.ensureHostStatus host).bind fun r =>
            match r with
            | .error err => .ret (.error err)
            | .ok _ => .ret (.ok ())

/-- The method `BareMetalHostReconciler.reconcile` (lines 70-100).  The
deferred `Logout` runs when the function returns, whatever it returns. -/
def BareMetalHostReconciler.reconcile (basicAuth : Bool) (host : BareMetalHost) :
    Prog (Except Error Unit) :=
  (BareMetalHostReconciler.createBMCClient basicAuth host).bind fun r =>
    match r with
    | .error err => .ret (.error (.wrap "failed to create BMC client" err))
    | .ok bmcClient =>
      (BareMetalHostReconciler.reconcileWithClient bmcClient host).bind fun r =>
        .call (.bmcLogout bmcClient) fun _ => .ret r

/-- The method `BareMetalHostReconciler.delete` (lines 63-68): it only logs. -/
def BareMetalHostReconciler.delete (_host : BareMetalHost) : Prog (Except Error Unit) :=
  .ret (.ok ())

/-- The method `BareMetalHostReconciler.reconcileExists` (lines 56-61). -/
def BareMetalHostReconciler.reconcileExists (basicAuth : Bool) (host : BareMetalHost) :
    Prog (Except Error Unit) :=
  if host.DeletionTimestamp ≠ none then BareMetalHostReconciler.delete host
  else BareMetalHostReconciler.reconcile basicAuth host

/-- The method `BareMetalHostReconciler.Reconcile` (lines 47-54). -/
def BareMetalHostReconciler.Reconcile (basicAuth : Bool) (name : String) :
    Prog (Except Error Unit) :=
  .call (.getHost name) fun r =>
    match r with
    | .error err => .ret (if err.IsNotFound then .ok () else .error err)
    | .ok host => BareMetalHostReconciler.reconcileExists basicAuth host

/-! ## The watch on hosts (`enqueueBareMetalHostClaimsByRefs`) -/

/-- Go `reconcile.Request`: the namespaced name of the object to reconcile. -/
structure Request where
  Namespace : String
  Name : String
  deriving DecidableEq, Repr, Inhabited

/-- The loop of the map function (lines 285-292) and the `return req` after it
(line 294): `req` is the slice built so far.  The `return req` of line 290 is
inside the `if`, so the first claim that refers to the host ends the loop. -/
def enqueueLoop (host : BareMetalHost) (req : List Request) :
    List BareMetalHostClaim → List Request
  | [] => req
  | claim :: rest =>
    if claim.Spec.BareMetalHostRef.Name = host.Name then
      req ++ [{ Namespace := claim.Namespace, Name := claim.Name }]
    else enqueueLoop host req rest

/-- The map function of `enqueueBareMetalHostClaimsByRefs` (lines 275-295). -/
def BareMetalHostClaimReconciler.enqueueBareMetalHostClaimsByRefs (host : BareMetalHost) :
    Prog (List Request) :=
  .call .listClaims fun r =>
    match r with
    | .error _ => .ret []
    | .ok claimList => .ret (enqueueLoop host [] claimList)

/-! ## The PXE reconciler (`pxe_controller.go`) -/

/-- How a Go function call ends: it returns a value, or it panics (here: the
runtime error of reading a field through a nil pointer). -/
inductive Completion (α : Type) where
  | returned (value : α)
  | panicked (reason : String)
  deriving DecidableEq, Repr

def PatchEnsureFinalizerPXE (pxe : PXE) (finalizer : String) :
    Prog (Except Error (Bool × PXE)) :=
  if finalizer ∈ pxe.Finalizers then .ret (.ok (false, pxe))
  else
    .call (.patchPXE pxe { pxe with Finalizers := pxe.Finalizers ++ [finalizer] } true)
      fun r =>
        match r with
        | .error err => .ret (.error err)
        | .ok pxe => .ret (.ok (true, pxe))

/-- The tail of `PXEReconciler.reconcile` (lines 113-136): apply the secret of
the PXE service, then patch the status to `Ready`. -/
def PXEReconciler.reconcileSecret (PXEServiceNamespace : String) (pxeConfig : PXE)
    (ignitionSecret : Secret) : Prog (Completion (Except Error Unit)) :=
  let pxeSecret : Secret :=
    { Namespace := PXEServiceNamespace
      Name := "ipxe-" ++ pxeConfig.Spec.SystemUUID
      Data := ignitionSecret.Data }
  .call (.applySecret pxeSecret false) fun r =>
    match r with
    | .error err =>
      .ret (.returned (.error
        (.wrap ("failed applying PXE secret in " ++ PXEServiceNamespace ++ " namespace") err)))
    | .ok _ =>
      let pxeConfigBase := pxeConfig
      let pxeConfig := { pxeConfig with Status := { pxeConfig.Status with State := PXEStateReady } }
      .call (.patchPXEStatus pxeConfigBase pxeConfig) fun r =>
        match r with
        | .error err => .ret (.returned (.error err))
        | .ok _ => .ret (.returned (.ok ()))

/-- The method `PXEReconciler.reconcile` (lines 91-137).  `IgnitionRef` is a
pointer: line 106 reads `pxeConfig.Spec.IgnitionRef.Name` without a nil check,
which panics when the reference is nil. -/
def PXEReconciler.reconcile (PXEServiceNamespace : String) (pxeConfig : PXE) :
    Prog (Completion (Except Error Unit)) :=
  (PatchEnsureFinalizerPXE pxeConfig PXEFinalizer).bind fun r =>
    match r with
    | .error err => .ret (.returned (.error err))
    | .ok (true, _) => .ret (.returned (.ok ()))
    | .ok (false, pxeConfig) =>
      if pxeConfig.Spec.BareMetalHostClaimRef.Name ≠ "" then
        .call (.getClaim pxeConfig.Namespace pxeConfig.Spec.BareMetalHostClaimRef.Name) fun r =>
          match r with
          | .error err => .ret (.returned (.error err))
          | .ok _ =>
            match pxeConfig.Spec.IgnitionRef with
            | none => .ret (.panicked "invalid memory address or nil pointer dereference")
            | some ignitionRef =>
              .call (.getSecret pxeConfig.Namespace ignitionRef.Name) fun r =>
                match r with
                | .error err => .ret (.returned (.error err))
                | .ok ignitionSecret =>
                  PXEReconciler.reconcileSecret PXEServiceNamespace pxeConfig ignitionSecret
      else .ret (.returned (.ok ()))

/-- The host `h1` right after the claim `otherClaim` was bound to it: the claim
reference and the desired power are set, the status is still the one of the
unclaimed host (Available, Unbound). -/
def boundHost : BareMetalHost :=
  { freeHost with
    Spec := { freeHost.Spec with ClaimRef := some (claimRefOf otherClaim), Power := PowerStateOn } }

/-- The world `freeWorld` with the host bound to the claim. -/
def boundWorld : World :=
  { freeWorld with hosts := fun name => if name = "h1" then some boundHost else none }

/-- The call is a `SetPXEBootOnce` command. -/
def Call.isSetPXEBootOnce : Call → Bool
  | .bmcSetPXEBootOnce _ _ => true
  | _ => false

/-- An unclaimed host at state Initial that wants power On, with a local BMC at
`bmc.h1`. -/
def initialHost : BareMetalHost :=
  { Name := "h1", ResourceVersion := 1
    Spec :=
      { SystemID := "sys-1", Power := PowerStateOn
        BMC := { Typ := BMCTypeRedfishLocal, Address := "bmc.h1" } }
    Status := { State := StateInitial } }

/-- A world with the host `initialHost`, whose BMC endpoint reports a
powered-off system. -/
def initialWorld : World :=
  { hosts := fun name => if name = "h1" then some initialHost else none
    bmcs := fun address => if address = "bmc.h1" then some { PowerState := OffPowerState } else none }

/-- The host as the store holds it after a successful host reconcile of `host`:
the claim reference is unchanged; a claimed host is Reserved and Bound; an
unclaimed host is at the target state and Unbound; the desired power is forced
to Off if the host is unclaimed and the target state is Initial, and otherwise
unchanged. -/
def HostReconciled (host host' : BareMetalHost) : Prop :=
  host'.Name = host.Name ∧ host'.Spec.ClaimRef = host.Spec.ClaimRef ∧
  (host.Spec.ClaimRef ≠ none →
    host'.Status.State = StateReserved ∧ host'.Status.Phase = PhaseBound) ∧
  (host.Spec.ClaimRef = none →
    host'.Status.State = BareMetalHostReconciler.determineTargetHostStatus host ∧
    host'.Status.Phase = PhaseUnbound) ∧
  host'.Spec.Power =
    if host.Spec.ClaimRef = none ∧
        BareMetalHostReconciler.determineTargetHostStatus host = StateInitial
    then PowerStateOff else host.Spec.Power


/-- Every call the program can issue, whatever the answers, satisfies `P`. -/
def Prog.AllCalls {α : Type} (P : Call → Prop) : Prog α → Prop
  | .ret _ => True
  | .call c k => P c ∧ ∀ r, (k r).AllCalls P

/-- The call is a status patch of a host. -/
def Call.isHostStatusPatch : Call → Bool
  | .patchHostStatus _ _ => true
  | _ => false

/-- The status of the host stored under a name. -/
def World.hostStatus (w : World) (name : String) : Option BareMetalHostStatus :=
  (w.hosts name).map fun host => host.Status

/-- The spec invariant on a stored host: the phase is Bound iff there is a
claim reference. -/
def PhaseMatchesClaimRef (host : BareMetalHost) : Prop :=
  host.Status.Phase = PhaseBound ↔ host.Spec.ClaimRef ≠ none

instance (host : BareMetalHost) : Decidable (PhaseMatchesClaimRef host) := by
  unfold PhaseMatchesClaimRef; infer_instance

/-- The host `h1` bound to the sample claim, with a local BMC at `bmc.h1`. -/
def managedHost : BareMetalHost :=
  { sampleHost with
    Spec :=
      { sampleHost.Spec with
        SystemID := "sys-1", BMC := { Typ := BMCTypeRedfishLocal, Address := "bmc.h1" } } }

/-- The world `doomedWorld` with the host `managedHost` and its BMC endpoint. -/
def managedWorld : World :=
  { doomedWorld with
    hosts := fun name => if name = "h1" then some managedHost else none
    bmcs := fun address => if address = "bmc.h1" then some { PowerState := OffPowerState } else none }

/-- The host `initialHost` as it is created, before any reconcile: its state is
empty. -/
def freshHost : BareMetalHost :=
  { initialHost with Status := {} }

/-- The world `initialWorld` with the host as created; its BMC endpoint reports
a powered-off system with one processor, so that the first status written for
the host carries the processor list the API requires. -/
def freshWorld : World :=
  { initialWorld with
    hosts := fun name => if name = "h1" then some freshHost else none
    bmcs := fun address =>
      if address = "bmc.h1" then
        some { PowerState := OffPowerState, Processors := [{ ID := "cpu0" }] }
      else none }

/-! ## The PXE reconciler: deletion and the entry point -/

def PatchEnsureNoFinalizerPXE (pxe : PXE) (finalizer : String) :
    Prog (Except Error (Bool × PXE)) :=
  if finalizer ∈ pxe.Finalizers then
    .call (.patchPXE pxe
        { pxe with Finalizers := pxe.Finalizers.filter (fun f => f != finalizer) } true)
      fun r =>
        match r with
        | .error err => .ret (.error err)
        | .ok pxe => .ret (.ok (true, pxe))
  else .ret (.ok (false, pxe))

/-- The method `PXEReconciler.delete` (lines 73-89). -/
def PXEReconciler.delete (PXEServiceNamespace : String) (pxeConfig : PXE) :
    Prog (Except Error Unit) :=
  .call (.deleteSecret PXEServiceNamespace ("ipxe-" ++ pxeConfig.Spec.SystemUUID)) fun r =>
    match r with
    | .error err => .ret (.error (.wrap "failed to remove PXE secret" err))
    | .ok _ =>
      (PatchEnsureNoFinalizerPXE pxeConfig PXEFinalizer).bind fun r =>
        match r with
        | .error err => .ret (.error err)
        | .ok _ => .ret (.ok ())

/-- The method `PXEReconciler.reconcileExists` (lines 66-71). -/
def PXEReconciler.reconcileExists (PXEServiceNamespace : String) (config : PXE) :
    Prog (Completion (Except Error Unit)) :=
  if config.DeletionTimestamp ≠ none then
    (PXEReconciler.delete PXEServiceNamespace config).bind fun r => .ret (.returned r)
  else PXEReconciler.reconcile PXEServiceNamespace config

/-- The method `PXEReconciler.Reconcile` (lines 56-64). -/
def PXEReconciler.Reconcile (PXEServiceNamespace : String) (ns name : String) :
    Prog (Completion (Except Error Unit)) :=
  .call (.getPXE ns name) fun r =>
    match r with
    | .error err => .ret (.returned (if err.IsNotFound then .ok () else .error err))
    | .ok pxeConfig => PXEReconciler.reconcileExists PXEServiceNamespace pxeConfig

/-! ## Sample scenarios for the watch and the PXE reconciler -/

/-- A world with the unclaimed host `h1` and two claims that refer to it. -/
def twoClaimsWorld : World :=
  { hosts := fun name => if name = "h1" then some freeHost else none
    claims := fun key =>
      if key = ("ns", "c1") then some sampleClaim
      else if key = ("ns", "c2") then some otherClaim else none
    claimKeys := [("ns", "c1"), ("ns", "c2")] }

/-- The world `sampleWorld` with the ignition secret `ign` of the claim. -/
def ignitionWorld : World :=
  { sampleWorld with
    secrets := fun key =>
      if key = ("ns", "ign") then
        some { Name := "ign", Namespace := "ns", ResourceVersion := 1
               Data := [("ignition", [123, 125])] }
      else none }

/-- The host `sampleHost` with the system UUID `uuid-1` and, in its status, the
one processor its BMC reported. -/
def uuidHost : BareMetalHost :=
  { sampleHost with
    Spec := { sampleHost.Spec with FooUUID := "uuid-1" }
    Status := { sampleHost.Status with Processors := [{ ID := "cpu0" }] } }

/-- The world `ignitionWorld` with the host `uuidHost`: the PXE object of the
claim gets the system UUID `uuid-1`, and its boot secret the name
`ipxe-uuid-1`. -/
def uuidWorld : World :=
  { ignitionWorld with hosts := fun name => if name = "h1" then some uuidHost else none }

/-- The claim `sampleClaim` as the store holds it after a completed claim
reconcile: Bound, at the next resource version. -/
def boundClaim : BareMetalHostClaim :=
  { sampleClaim with ResourceVersion := 2, Status := { Phase := PhaseBound } }

/-- The world after the claim reconcile of `sampleClaim` on `uuidWorld`,
followed by two passes of the PXE reconciler on the PXE object of the claim
(the first adds the finalizer, the second applies the secret
`pxe-system/ipxe-uuid-1` and patches the status to Ready). -/
def convergedWorld : World :=
  let w1 := (run [] (BareMetalHostClaimReconciler.reconcile sampleClaim) uuidWorld).state.1
  let w2 := (run [] (PXEReconciler.Reconcile "pxe-system" "ns" "c1") w1).state.1
  (run [] (PXEReconciler.Reconcile "pxe-system" "ns" "c1") w2).state.1

/-- The PXE object the claim reconciler has applied for `otherClaim`, which has
no ignition reference, after the PXE reconciler added its finalizer. -/
def bareClaimPXE : PXE :=
  { Name := "c2", Namespace := "ns", ResourceVersion := 3
    Finalizers := [PXEFinalizer]
    OwnerReferences := []
    Spec := { BareMetalHostClaimRef := ⟨"c2"⟩, IgnitionRef := none }
    Status := { State := PXEStateCreated } }

/-- The world after the claim reconcile of `otherClaim` (no ignition
reference) on `freeWorld`, followed by the pass of the PXE reconciler that adds
the finalizer to the PXE object of the claim. -/
def bareClaimWorld : World :=
  let w1 := (run [] (BareMetalHostClaimReconciler.reconcile otherClaim) freeWorld).state.1
  (run [] (PXEReconciler.Reconcile "pxe-system" "ns" "c2") w1).state.1

/-- The PXE object `applyPXEConfiguration` applies for a claim and its host
(lines 197-216). -/
def claimPXE (claim : BareMetalHostClaim) (host : BareMetalHost) : PXE :=
  { Namespace := claim.Namespace
    Name := claim.Name
    OwnerReferences := [{ Kind := "BareMetalHostClaim", Name := claim.Name, UID := claim.UID }]
    Spec :=
      { BareMetalHostClaimRef := { Name := claim.Name }
        IgnitionRef := claim.Spec.IgnitionRef
        Image := claim.Spec.Image
        SystemUUID := host.Spec.FooUUID } }

/-- The DHCP object `applyDHCPConfiguration` applies for a claim (lines
232-248). -/
def claimDHCP (claim : BareMetalHostClaim) : DHCP :=
  { Namespace := claim.Namespace
    Name := claim.Name
    OwnerReferences := [{ Kind := "BareMetalHostClaim", Name := claim.Name, UID := claim.UID }]
    Spec := { BareMetalHostRef := claim.Spec.BareMetalHostRef } }

/-- The store state a completed claim reconcile leaves for a claim and its
host: the claim is Bound and has its finalizer; the host has the finalizer, is
bound to the claim and, unless the power-on is withheld until the PXE object is
Ready, has the desired power of the claim; the PXE and DHCP objects of the
claim are there as applied, at state Created. -/
def ClaimConverged (w : World) (claim : BareMetalHostClaim) (host : BareMetalHost) : Prop :=
  w.claims (claim.Namespace, claim.Name) = some claim ∧
  BareMetalHostClaimFinalizer ∈ claim.Finalizers ∧ claim.Status.Phase = PhaseBound ∧
  w.hosts claim.Spec.BareMetalHostRef.Name = some host ∧
  host.Name = claim.Spec.BareMetalHostRef.Name ∧
  BareMetalHostClaimFinalizer ∈ host.Finalizers ∧
  (∃ ref, host.Spec.ClaimRef = some ref ∧ ref.UID = claim.UID) ∧
  (¬ (claim.Spec.Power = PowerStateOn ∧ claim.Spec.IgnitionRef ≠ none) →
    host.Spec.Power = claim.Spec.Power) ∧
  (∃ pxe, w.pxes (claim.Namespace, claim.Name) = some pxe ∧
    pxe.Name = claim.Name ∧ pxe.Namespace = claim.Namespace ∧
    pxe.OwnerReferences = (claimPXE claim host).OwnerReferences ∧
    pxe.Spec = (claimPXE claim host).Spec ∧ pxe.Status.State = PXEStateCreated) ∧
  ∃ dhcp, w.dhcps (claim.Namespace, claim.Name) = some dhcp ∧
    dhcp.Name = claim.Name ∧ dhcp.Namespace = claim.Namespace ∧
    dhcp.OwnerReferences = (claimDHCP claim).OwnerReferences ∧
    dhcp.Spec = (claimDHCP claim).Spec ∧ dhcp.Status.State = DHCPStateCreated

/-! ## Sample objects for the host states and claim deletion -/

/-- The unclaimed host `h1` at state Maintenance. -/
def maintenanceHost : BareMetalHost :=
  { freeHost with Status := { freeHost.Status with State := StateMaintenance } }

/-- The world `freeWorld` with the host at state Maintenance. -/
def maintenanceWorld : World :=
  { freeWorld with hosts := fun name => if name = "h1" then some maintenanceHost else none }

/-- The world `doomedWorld` without any host: the host the claim under deletion
refers to is gone. -/
def hostlessWorld : World :=
  { doomedWorld with hosts := fun _ => none }

/-- The host `h1` bound to the claim `otherClaim`, not to the claim under
deletion. -/
def foreignHost : BareMetalHost :=
  { sampleHost with Spec := { sampleHost.Spec with ClaimRef := some (claimRefOf otherClaim) } }

/-- The world `doomedWorld` with the host bound to another claim. -/
def foreignWorld : World :=
  { doomedWorld with hosts := fun name => if name = "h1" then some foreignHost else none }

/-! ## Observations and sample objects for the PXE reconciler -/

/-- The key (namespace, name) of the secret a call writes or deletes. -/
def Call.writtenSecretKey : Call → Option (String × String)
  | .applySecret secret _ => some (secret.Namespace, secret.Name)
  | .deleteSecret ns name => some (ns, name)
  | _ => none

/-- The call is a patch of a PXE object (metadata and spec). -/
def Call.isPXEPatch : Call → Bool
  | .patchPXE _ _ _ => true
  | _ => false

/-- The PXE object of the claim `c1`, with its finalizer, claim reference and
ignition reference. -/
def ignitionPXE : PXE :=
  { Name := "c1", Namespace := "ns", ResourceVersion := 4
    Finalizers := [PXEFinalizer]
    Spec :=
      { SystemUUID := "uuid-1", BareMetalHostClaimRef := ⟨"c1"⟩, IgnitionRef := some ⟨"ign"⟩ }
    Status := { State := PXEStateCreated } }

/-- The world `ignitionWorld` with the PXE object `ignitionPXE`. -/
def ignitionPXEWorld : World :=
  { ignitionWorld with pxes := fun key => if key = ("ns", "c1") then some ignitionPXE else none }

/-- The PXE object `bareClaimPXE` under deletion. -/
def doomedPXE : PXE :=
  { bareClaimPXE with DeletionTimestamp := some 100 }

/-- A world that stores `doomedPXE` and no secret: the boot secret of the object
was never created. -/
def doomedPXEWorld : World :=
  { freeWorld with pxes := fun key => if key = ("ns", "c2") then some doomedPXE else none }

/-- The world after the PXE reconcile of `ignitionPXE` on `ignitionPXEWorld`:
the boot secret of the object is there. -/
def servedWorld : World :=
  (run [] (PXEReconciler.reconcile "pxe-system" ignitionPXE) ignitionPXEWorld).state.1

/-! ## Racing reconciles

Each call of a reconciler is one request to the store, and the store serves
requests one at a time.  Two reconciles that run at the same time are therefore
two programs whose calls interleave on one world. -/

/-- One step of a program on the world: its next call, if it has one, is
answered by the collaborators. -/
def Prog.step {α : Type} (p : Prog α) (w : World) : Prog α × (World × List Event) :=
  match p with
  | .ret a => (.ret a, (w, []))
  | .call c k => (k (exec c w).1, ((exec c w).2, [⟨c, (exec c w).1⟩]))

/-- Two programs racing on one world.  Each entry of the schedule names the
program that issues its next call (`true`: the first, `false`: the second); when
the schedule is used up the first program runs to its end, then the second. -/
def race {α β : Type} : List Bool → Prog α → Prog β → World → Outcome World (α × β)
  | [], p, q, w =>
    ⟨((p.interp exec w).value, (q.interp exec (p.interp exec w).state).value),
      (q.interp exec (p.interp exec w).state).state,
      (p.interp exec w).trace ++ (q.interp exec (p.interp exec w).state).trace⟩
  | true :: sched, p, q, w =>
    ⟨(race sched (p.step w).1 q (p.step w).2.1).value,
      (race sched (p.step w).1 q (p.step w).2.1).state,
      (p.step w).2.2 ++ (race sched (p.step w).1 q (p.step w).2.1).trace⟩
  | false :: sched, p, q, w =>
    ⟨(race sched p (q.step w).1 (q.step w).2.1).value,
      (race sched p (q.step w).1 (q.step w).2.1).state,
      (q.step w).2.2 ++ (race sched p (q.step w).1 (q.step w).2.1).trace⟩

/-- The phase of the claim stored under a key. -/
def World.claimPhase (w : World) (ns name : String) : Option Phase :=
  (w.claims (ns, name)).map fun claim => claim.Status.Phase

/-! ## Observations for the order of writes in the claim reconcile -/

/-- The call applies a PXE or a DHCP object. -/
def Call.isApply : Call → Bool
  | .applyPXE _ _ => true
  | .applyDHCP _ _ => true
  | _ => false

/-- The patch that adds the finalizer to the claim. -/
@[reducible] def addClaimFinalizerCall (claim : BareMetalHostClaim) : Call :=
  .patchClaim claim { claim with Finalizers := claim.Finalizers ++ [BareMetalHostClaimFinalizer] }
    true

/-- The patch that adds the claim finalizer to the host. -/
@[reducible] def addHostFinalizerCall (host : BareMetalHost) : Call :=
  .patchHost host { host with Finalizers := host.Finalizers ++ [BareMetalHostClaimFinalizer] } true

/-- The status patch of `applyPXEConfiguration`. -/
@[reducible] def pxeCreatedCall (pxe : PXE) : Call :=
  .patchPXEStatus pxe { pxe with Status := { pxe.Status with State := PXEStateCreated } }

/-- The status patch of `applyDHCPConfiguration`. -/
@[reducible] def dhcpCreatedCall (dhcp : DHCP) : Call :=
  .patchDHCPStatus dhcp { dhcp with Status := { dhcp.Status with State := DHCPStateCreated } }

/-- A host whose NIC list names `eth0` twice. -/
def repeatedNicHost : BareMetalHost :=
  { Name := "h1"
    Status :=
      { NetworkInterfaces :=
          [{ ID := "eth0", MACAddress := "aa:00" }, { ID := "eth0", MACAddress := "aa:09" }] } }

/-- A system info that reports `eth1` twice, with different MAC addresses, and
`eth0` once. -/
def repeatedNicInfo : SystemInfo :=
  { NetworkInterfaces :=
      [{ ID := "eth1", MACAddress := "bb:01" }, { ID := "eth0", MACAddress := "bb:00" },
        { ID := "eth1", MACAddress := "bb:02" }] }

/-! # Verification

Lemmas on running programs, then one theorem for each claim of the
specification. -/

open BareMetalHostClaimReconciler
open BareMetalHostReconciler (ensurePowerOff ensurePowerOn ensurePowerState)

section Interp
variable {σ α β : Type} (h : (c : Call) → σ → Except Error (Resp c) × σ)

theorem interp_bind (p : Prog α) (f : α → Prog β) (s : σ) :
    (p.bind f).interp h s =
      ⟨((f (p.interp h s).value).interp h (p.interp h s).state).value,
        ((f (p.interp h s).value).interp h (p.interp h s).state).state,
        (p.interp h s).trace ++ ((f (p.interp h s).value).interp h (p.interp h s).state).trace⟩ := by
  induction p generalizing s with
  | ret a => rfl
  | call c k ih => simp only [Prog.bind, Prog.interp, ih, List.cons_append]

theorem forall_trace_ret (P : Event → Prop) (a : α) (s : σ) :
    (∀ e ∈ ((Prog.ret a).interp h s).trace, P e) ↔ True := by
  simp [Prog.interp]

theorem forall_trace_call (P : Event → Prop) (c : Call) (k : Except Error (Resp c) → Prog α)
    (s : σ) :
    (∀ e ∈ ((Prog.call c k).interp h s).trace, P e) ↔
      P ⟨c, (h c s).1⟩ ∧ ∀ e ∈ ((k (h c s).1).interp h (h c s).2).trace, P e := by
  simp [Prog.interp]

theorem forall_trace_bind (P : Event → Prop) (p : Prog α) (f : α → Prog β) (s : σ) :
    (∀ e ∈ ((p.bind f).interp h s).trace, P e) ↔
      (∀ e ∈ (p.interp h s).trace, P e) ∧
        ∀ e ∈ ((f (p.interp h s).value).interp h (p.interp h s).state).trace, P e := by
  simp only [interp_bind, List.forall_mem_append]

/-- A relation between states that every permitted call maintains holds
between the initial and the final state of a run that issues only permitted
calls. -/
theorem interp_frame (R : σ → σ → Prop) (C : Event → Prop)
    (hstep : ∀ c s s0, R s0 s → C ⟨c, (h c s).1⟩ → R s0 (h c s).2) (p : Prog α) (s0 s : σ)
    (h0 : R s0 s) (hC : ∀ e ∈ (p.interp h s).trace, C e) : R s0 (p.interp h s).state := by
  induction p generalizing s with
  | ret a => exact h0
  | call c k ih =>
    rw [forall_trace_call] at hC
    exact ih _ _ (hstep c s s0 h0 hC.1) hC.2

end Interp

section C1
variable {σ : Type} (h : (c : Call) → σ → Except Error (Resp c) × σ)

theorem reconcileStatus_no_power_write (s : σ) (claim : BareMetalHostClaim) :
    ∀ e ∈ ((reconcileStatus claim).interp h s).trace, e.call.writesHostPower = false := by
  simp only [reconcileStatus, forall_trace_call]
  refine ⟨rfl, ?_⟩
  split <;> simp only [forall_trace_ret]

theorem reconcilePower_no_power_write (s : σ) (claim : BareMetalHostClaim) (host : BareMetalHost)
    (hp : claim.Spec.Power = PowerStateOn) (hi : claim.Spec.IgnitionRef ≠ none)
    (hr : ∀ e ∈ ((reconcilePower claim host).interp h s).trace, e.readsReadyPXE = false) :
    ∀ e ∈ ((reconcilePower claim host).interp h s).trace, e.call.writesHostPower = false := by
  unfold reconcilePower at hr ⊢
  simp only [hp, hi, ne_eq, not_false_eq_true, and_self, if_true] at hr ⊢
  by_cases hc : host.Spec.ClaimRef = none
  · simp only [hc, not_true_eq_false, if_false]
    exact reconcileStatus_no_power_write h s claim
  · simp only [hc, not_false_eq_true, if_true, forall_trace_call] at hr ⊢
    refine ⟨rfl, ?_⟩
    obtain ⟨hr1, -⟩ := hr
    revert hr1
    generalize h (Call.getPXE claim.Namespace claim.Name) s = r
    obtain ⟨r, s'⟩ := r
    cases r with
    | error e => simp [forall_trace_ret]
    | ok pxe =>
      intro hr1
      have : ¬ pxe.Status.State = PXEStateReady := by simpa [Event.readsReadyPXE] using hr1
      simp only [this, if_false]
      exact reconcileStatus_no_power_write h s' claim

theorem reconcileClaimRef_no_power_write (s : σ) (claim : BareMetalHostClaim)
    (host : BareMetalHost)
    (hp : claim.Spec.Power = PowerStateOn) (hi : claim.Spec.IgnitionRef ≠ none)
    (hr : ∀ e ∈ ((reconcileClaimRef claim host).interp h s).trace, e.readsReadyPXE = false) :
    ∀ e ∈ ((reconcileClaimRef claim host).interp h s).trace, e.call.writesHostPower = false := by
  unfold reconcileClaimRef at hr ⊢
  by_cases hc : host.Spec.ClaimRef = none
  · simp only [hc, if_true, forall_trace_call] at hr ⊢
    refine ⟨by simp [Call.writesHostPower], ?_⟩
    obtain ⟨-, hr2⟩ := hr
    revert hr2
    generalize h (Call.patchHost _ _ _) s = r
    obtain ⟨r, s'⟩ := r
    cases r with
    | error e => simp [forall_trace_ret]
    | ok host' => exact reconcilePower_no_power_write h s' claim host' hp hi
  · simp only [hc, if_false] at hr ⊢
    exact reconcilePower_no_power_write h s claim host hp hi hr

end C1

section SubProcs
variable {σ : Type} (h : (c : Call) → σ → Except Error (Resp c) × σ)

theorem applyPXEConfiguration_calls (s : σ) (claim : BareMetalHostClaim) (host : BareMetalHost) :
    ∀ e ∈ ((applyPXEConfiguration claim host).interp h s).trace,
      e.call.touchesHosts = false ∧ e.call.touchesClaims = false := by
  simp only [applyPXEConfiguration, forall_trace_call]
  refine ⟨⟨rfl, rfl⟩, ?_⟩
  split
  · simp only [forall_trace_ret]
  · simp only [forall_trace_call]
    refine ⟨⟨rfl, rfl⟩, ?_⟩
    split <;> simp only [forall_trace_ret]

theorem applyDHCPConfiguration_calls (s : σ) (claim : BareMetalHostClaim) :
    ∀ e ∈ ((applyDHCPConfiguration claim).interp h s).trace,
      e.call.touchesHosts = false ∧ e.call.touchesClaims = false := by
  simp only [applyDHCPConfiguration, forall_trace_call]
  refine ⟨⟨rfl, rfl⟩, ?_⟩
  split
  · simp only [forall_trace_ret]
  · simp only [forall_trace_call]
    refine ⟨⟨rfl, rfl⟩, ?_⟩
    split <;> simp only [forall_trace_ret]

theorem writesHostPower_of_not_touchesHosts (c : Call) (hc : c.touchesHosts = false) :
    c.writesHostPower = false := by
  cases c <;> first | rfl | simp [Call.touchesHosts] at hc

theorem PatchEnsureFinalizerHost_no_power_write (s : σ) (host : BareMetalHost) (f : String) :
    ∀ e ∈ ((PatchEnsureFinalizerHost host f).interp h s).trace, e.call.writesHostPower = false := by
  unfold PatchEnsureFinalizerHost
  split
  · simp only [forall_trace_ret]
  · simp only [forall_trace_call]
    refine ⟨by simp [Call.writesHostPower], ?_⟩
    split <;> simp only [forall_trace_ret]

theorem PatchEnsureFinalizerClaim_calls (s : σ) (claim : BareMetalHostClaim) (f : String) :
    ∀ e ∈ ((PatchEnsureFinalizerClaim claim f).interp h s).trace, e.call.touchesHosts = false := by
  unfold PatchEnsureFinalizerClaim
  split
  · simp only [forall_trace_ret]
  · simp only [forall_trace_call]
    refine ⟨rfl, ?_⟩
    split <;> simp only [forall_trace_ret]

/-- The claim handed on by `PatchEnsureFinalizer` when it did not modify it is
the claim passed in. -/
theorem PatchEnsureFinalizerClaim_unmodified (s : σ) (claim claim' : BareMetalHostClaim)
    (f : String)
    (hv : ((PatchEnsureFinalizerClaim claim f).interp h s).value = .ok (false, claim')) :
    claim' = claim := by
  unfold PatchEnsureFinalizerClaim at hv
  split at hv
  · simp only [Prog.interp] at hv
    injection hv with hv
    injection hv with _ hv
    exact hv.symm
  · simp only [Prog.interp] at hv
    split at hv <;> simp [Prog.interp] at hv

theorem reconcileHost_no_power_write (s : σ) (claim : BareMetalHostClaim) (host : BareMetalHost)
    (hp : claim.Spec.Power = PowerStateOn) (hi : claim.Spec.IgnitionRef ≠ none)
    (hr : ∀ e ∈ ((reconcileHost claim host).interp h s).trace, e.readsReadyPXE = false) :
    ∀ e ∈ ((reconcileHost claim host).interp h s).trace, e.call.writesHostPower = false := by
  unfold reconcileHost at hr ⊢
  rw [forall_trace_bind] at hr ⊢
  refine ⟨PatchEnsureFinalizerHost_no_power_write h s host _, ?_⟩
  replace hr := hr.2
  revert hr
  generalize ((PatchEnsureFinalizerHost host BareMetalHostClaimFinalizer).interp h s) = o1
  obtain ⟨v1, s1, -⟩ := o1
  rcases v1 with e | ⟨_ | _, host1⟩ <;> simp only [forall_trace_ret, implies_true]
  intro hr
  rw [forall_trace_bind] at hr ⊢
  refine ⟨fun e he =>
    writesHostPower_of_not_touchesHosts _ (applyPXEConfiguration_calls h s1 claim host1 e he).1, ?_⟩
  replace hr := hr.2
  revert hr
  generalize ((applyPXEConfiguration claim host1).interp h s1) = o2
  obtain ⟨v2, s2, -⟩ := o2
  rcases v2 with e | _ <;> simp only [forall_trace_ret, implies_true]
  intro hr
  rw [forall_trace_bind] at hr ⊢
  refine ⟨fun e he =>
    writesHostPower_of_not_touchesHosts _ (applyDHCPConfiguration_calls h s2 claim e he).1, ?_⟩
  replace hr := hr.2
  revert hr
  generalize ((applyDHCPConfiguration claim).interp h s2) = o3
  obtain ⟨v3, s3, -⟩ := o3
  rcases v3 with e | _ <;> simp only [forall_trace_ret, implies_true]
  exact reconcileClaimRef_no_power_write h s3 claim host1 hp hi

end SubProcs

section C1top
variable {σ : Type} (h : (c : Call) → σ → Except Error (Resp c) × σ)

theorem reconcile_no_power_write (s : σ) (claim : BareMetalHostClaim)
    (hp : claim.Spec.Power = PowerStateOn) (hi : claim.Spec.IgnitionRef ≠ none)
    (hr : ∀ e ∈ ((reconcile claim).interp h s).trace, e.readsReadyPXE = false) :
    ∀ e ∈ ((reconcile claim).interp h s).trace, e.call.writesHostPower = false := by
  unfold reconcile at hr ⊢
  rw [forall_trace_bind] at hr ⊢
  refine ⟨fun e he =>
    writesHostPower_of_not_touchesHosts _ (PatchEnsureFinalizerClaim_calls h s claim _ e he), ?_⟩
  replace hr := hr.2
  have hu := fun claim' => PatchEnsureFinalizerClaim_unmodified h s claim claim'
    BareMetalHostClaimFinalizer
  revert hr hu
  generalize ((PatchEnsureFinalizerClaim claim BareMetalHostClaimFinalizer).interp h s) = o1
  obtain ⟨v1, s1, -⟩ := o1
  rcases v1 with e | ⟨_ | _, claim1⟩ <;> simp only [forall_trace_ret, implies_true]
  intro hr hu
  obtain rfl := hu claim1 rfl
  simp only [forall_trace_call] at hr ⊢
  refine ⟨rfl, ?_⟩
  replace hr := hr.2
  revert hr
  generalize h (Call.getHost _) s1 = r
  obtain ⟨r, s2⟩ := r
  cases r with
  | error e => simp [forall_trace_ret]
  | ok host =>
    simp only
    split
    · simp [forall_trace_ret]
    · exact reconcileHost_no_power_write h s2 claim1 host hp hi

end C1top

/-! ### Effect of the store on hosts -/

@[simp] theorem stampHost_Spec (stored new : BareMetalHost) :
    (stampHost stored new).Spec = new.Spec := by
  unfold stampHost
  split
  · next h => rw [h]
  · rfl

@[simp] theorem stampHost_Status (stored new : BareMetalHost) :
    (stampHost stored new).Status = new.Status := by
  unfold stampHost
  split
  · next h => rw [h]
  · rfl

@[simp] theorem stampHost_Name (stored new : BareMetalHost) :
    (stampHost stored new).Name = new.Name := by
  unfold stampHost
  split
  · next h => rw [h]
  · rfl

@[simp] theorem stampHost_Finalizers (stored new : BareMetalHost) :
    (stampHost stored new).Finalizers = new.Finalizers := by
  unfold stampHost
  split
  · next h => rw [h]
  · rfl

theorem exec_hostPower (c : Call) (w : World) (hc : c.writesHostPower = false) (name : String) :
    (exec c w).2.hostPower name = w.hostPower name := by
  cases c <;> try rfl
  case patchHost base modified lock =>
    simp only [Call.writesHostPower, bne_eq_false_iff_eq, bne_iff_ne, ne_eq, Bool.not_eq_true, not_not] at hc
    simp only [exec, World.patchHost]
    cases hs : w.hosts modified.Name with
    | none => rfl
    | some stored =>
      simp only
      split
      · simp only [World.hostPower, Function.update_apply]
        split
        · next hn => simp [hn, hs, mergeHostSpec, pick, hc]
        · rfl
      · rfl
  case patchHostStatus base modified =>
    simp only [exec, World.patchHostStatus]
    cases hs : w.hosts modified.Name with
    | none => rfl
    | some stored =>
      simp only
      split
      · simp only [World.hostPower, Function.update_apply]
        split
        · next hn => simp [hn, hs]
        · rfl
      · rfl
  all_goals
    simp only [exec, World.patchClaim, World.patchClaimStatus, World.patchPXE, World.patchPXEStatus,
      World.patchDHCPStatus, World.deleteSecret, World.setPower, World.applyPXE, World.applyDHCP,
      World.applySecret]
    split <;> first | rfl | (split <;> rfl)

theorem handle_hostPower (c : Call) (s : World × List Bool)
    (hc : c.writesHostPower = false) (name : String) :
    (handle c s).2.1.hostPower name = s.1.hostPower name := by
  obtain ⟨w, faults⟩ := s
  rcases faults with _ | ⟨_ | _, faults⟩
  · exact exec_hostPower c w hc name
  · exact exec_hostPower c w hc name
  · rfl

theorem run_hostPower {α : Type} (p : Prog α) (w : World) (faults : List Bool)
    (hp : ∀ e ∈ (run faults p w).trace, e.call.writesHostPower = false) (name : String) :
    (run faults p w).state.1.hostPower name = w.hostPower name :=
  interp_frame handle (fun s0 s => s.1.hostPower name = s0.1.hostPower name)
    (fun e => e.call.writesHostPower = false)
    (fun c s _ h0 hc => (handle_hostPower c s hc name).trans h0) p (w, faults) (w, faults) rfl hp

/-- C1: for a claim with `spec.power = On` and an ignition reference, a
reconcile in which no read of the PXE object returns state Ready issues no
host patch that contains `spec.power` (against any environment), and on the
object store the desired power of every host keeps its previous value
(whatever calls fail).  The host need not even be bound to the claim. -/
theorem C1_power_on_withheld {σ : Type} (h : (c : Call) → σ → Except Error (Resp c) × σ) (s : σ)
    (w : World) (faults : List Bool) (claim : BareMetalHostClaim)
    (hp : claim.Spec.Power = PowerStateOn) (hi : claim.Spec.IgnitionRef ≠ none) :
    ((∀ e ∈ ((reconcile claim).interp h s).trace, e.readsReadyPXE = false) →
      ∀ e ∈ ((reconcile claim).interp h s).trace, e.call.writesHostPower = false) ∧
    ((∀ e ∈ (run faults (reconcile claim) w).trace, e.readsReadyPXE = false) →
      ∀ name, (run faults (reconcile claim) w).state.1.hostPower name = w.hostPower name) :=
  ⟨reconcile_no_power_write h s claim hp hi, fun hr name =>
    run_hostPower _ w faults (reconcile_no_power_write handle (w, faults) claim hp hi hr) name⟩

theorem C1_power_on_withheld_witness :
    sampleClaim.Spec.Power = PowerStateOn ∧ sampleClaim.Spec.IgnitionRef ≠ none ∧
    (∀ e ∈ (run [] (reconcile sampleClaim) sampleWorld).trace, e.readsReadyPXE = false) ∧
    (run [] (reconcile sampleClaim) sampleWorld).state.1.hostPower "h1" = some PowerStateOff :=
  ⟨by decide, by decide, by decide,
    ((C1_power_on_withheld handle (sampleWorld, []) sampleWorld [] sampleClaim (by decide)
      (by decide)).2 (by decide) "h1").trans (by decide)⟩

/-- C2: when the claim carries its finalizer and the referenced host has a
claim reference with another UID, reconcile returns an error, leaves the whole
world as it was and issues no write (whatever calls fail). -/
theorem C2_conflict_no_write (w : World) (faults : List Bool) (claim : BareMetalHostClaim)
    (host : BareMetalHost) (ref : ObjectReference)
    (hfin : BareMetalHostClaimFinalizer ∈ claim.Finalizers)
    (hhost : w.hosts claim.Spec.BareMetalHostRef.Name = some host)
    (href : host.Spec.ClaimRef = some ref) (huid : ref.UID ≠ claim.UID) :
    (∃ err, (run faults (reconcile claim) w).value = .error err) ∧
      (run faults (reconcile claim) w).state.1 = w ∧
      ∀ e ∈ (run faults (reconcile claim) w).trace, e.call.isWrite = false := by
  rcases faults with _ | ⟨_ | _, faults⟩ <;>
    simp [run, reconcile, PatchEnsureFinalizerClaim, hfin, Prog.bind, Prog.interp, handle, exec,
      World.getHost, hhost, href, huid, Call.isWrite]

theorem C2_conflict_no_write_witness :
    (∃ err, (run [] (reconcile otherClaim) sampleWorld).value = .error err) ∧
      (run [] (reconcile otherClaim) sampleWorld).state.1 = sampleWorld ∧
      ∀ e ∈ (run [] (reconcile otherClaim) sampleWorld).trace, e.call.isWrite = false :=
  C2_conflict_no_write sampleWorld [] otherClaim sampleHost (claimRefOf sampleClaim)
    (by decide) (by decide) (by decide) (by decide)

/-! ### Frame lemmas for hosts -/

theorem exec_hosts (c : Call) (w : World) (hc : c.touchesHosts = false) :
    (exec c w).2.hosts = w.hosts := by
  cases c <;> first | rfl | (simp [Call.touchesHosts] at hc; done) | skip
  all_goals
    simp only [exec, World.patchClaim, World.patchClaimStatus, World.patchPXE, World.patchPXEStatus,
      World.patchDHCPStatus, World.deleteSecret, World.setPower, World.applyPXE, World.applyDHCP,
      World.applySecret]
    split <;> first | rfl | (split <;> rfl)

theorem handle_hosts (c : Call) (s : World × List Bool) (hc : c.touchesHosts = false) :
    (handle c s).2.1.hosts = s.1.hosts := by
  obtain ⟨w, faults⟩ := s
  rcases faults with _ | ⟨_ | _, faults⟩
  · exact exec_hosts c w hc
  · exact exec_hosts c w hc
  · rfl

/-- A run that issues no write to a host leaves the hosts as they were. -/
theorem interp_hosts {α : Type} (p : Prog α) (s : World × List Bool)
    (hp : ∀ e ∈ (p.interp handle s).trace, e.call.touchesHosts = false) :
    (p.interp handle s).state.1.hosts = s.1.hosts :=
  interp_frame handle (fun s0 s => s.1.hosts = s0.1.hosts) (fun e => e.call.touchesHosts = false)
    (fun c s _ h0 hc => (handle_hosts c s hc).trans h0) p s s rfl hp

theorem exec_hostClaimRef (c : Call) (w : World) (hc : c.writesHostClaimRef = false)
    (name : String) : (exec c w).2.hostClaimRef name = w.hostClaimRef name := by
  cases c <;> try rfl
  case patchHost base modified lock =>
    simp only [Call.writesHostClaimRef, bne_eq_false_iff_eq] at hc
    simp only [exec, World.patchHost]
    cases hs : w.hosts modified.Name with
    | none => rfl
    | some stored =>
      simp only
      split
      · simp only [World.hostClaimRef, Function.update_apply]
        split
        · next hn => simp [hn, hs, mergeHostSpec, pick, hc]
        · rfl
      · rfl
  case patchHostStatus base modified =>
    simp only [exec, World.patchHostStatus]
    cases hs : w.hosts modified.Name with
    | none => rfl
    | some stored =>
      simp only
      split
      · simp only [World.hostClaimRef, Function.update_apply]
        split
        · next hn => simp [hn, hs]
        · rfl
      · rfl
  all_goals
    simp only [exec, World.patchClaim, World.patchClaimStatus, World.patchPXE, World.patchPXEStatus,
      World.patchDHCPStatus, World.deleteSecret, World.setPower, World.applyPXE, World.applyDHCP,
      World.applySecret]
    split <;> first | rfl | (split <;> rfl)

theorem handle_hostClaimRef (c : Call) (s : World × List Bool)
    (hc : c.writesHostClaimRef = false) (name : String) :
    (handle c s).2.1.hostClaimRef name = s.1.hostClaimRef name := by
  obtain ⟨w, faults⟩ := s
  rcases faults with _ | ⟨_ | _, faults⟩
  · exact exec_hostClaimRef c w hc name
  · exact exec_hostClaimRef c w hc name
  · rfl

/-- A run that issues no patch of `spec.claimRef` leaves every claim
reference as it was. -/
theorem interp_hostClaimRef {α : Type} (p : Prog α) (s : World × List Bool)
    (hp : ∀ e ∈ (p.interp handle s).trace, e.call.writesHostClaimRef = false) (name : String) :
    (p.interp handle s).state.1.hostClaimRef name = s.1.hostClaimRef name :=
  interp_frame handle (fun s0 s => s.1.hostClaimRef name = s0.1.hostClaimRef name)
    (fun e => e.call.writesHostClaimRef = false)
    (fun c s _ h0 hc => (handle_hostClaimRef c s hc name).trans h0) p s s rfl hp

theorem exec_HostsNamed (c : Call) (w : World) (hw : w.HostsNamed) : (exec c w).2.HostsNamed := by
  cases c <;> try exact hw
  case patchHost base modified lock =>
    simp only [exec, World.patchHost]
    cases hs : w.hosts modified.Name with
    | none => exact hw
    | some stored =>
      simp only
      split
      · intro name host
        simp only [Function.update_apply]
        split
        · next hn =>
          intro hh
          injection hh with hh
          subst hh
          simpa [mergeMeta, hn] using hw _ _ hs
        · exact hw name host
      · exact hw
  case patchHostStatus base modified =>
    simp only [exec, World.patchHostStatus]
    cases hs : w.hosts modified.Name with
    | none => exact hw
    | some stored =>
      simp only
      split
      · intro name host
        simp only [Function.update_apply]
        split
        · next hn =>
          intro hh
          injection hh with hh
          subst hh
          simpa [hn] using hw _ _ hs
        · exact hw name host
      · exact hw
  all_goals
    simp only [exec, World.patchClaim, World.patchClaimStatus, World.patchPXE, World.patchPXEStatus,
      World.patchDHCPStatus, World.deleteSecret, World.setPower, World.applyPXE, World.applyDHCP,
      World.applySecret]
    first | exact hw | (split <;> first | exact hw | (split <;> exact hw))

theorem handle_HostsNamed (c : Call) (s : World × List Bool) (hw : s.1.HostsNamed) :
    (handle c s).2.1.HostsNamed := by
  obtain ⟨w, faults⟩ := s
  rcases faults with _ | ⟨_ | _, faults⟩
  · exact exec_HostsNamed c w hw
  · exact exec_HostsNamed c w hw
  · exact hw

/-- Every run keeps the hosts stored under their names. -/
theorem interp_HostsNamed {α : Type} (p : Prog α) (s : World × List Bool) (hw : s.1.HostsNamed) :
    (p.interp handle s).state.1.HostsNamed :=
  interp_frame handle (fun _ s => s.1.HostsNamed) (fun _ => True)
    (fun c s _ h0 _ => handle_HostsNamed c s h0) p s s hw (fun _ _ => trivial)

/-! ### The claim reference under claim reconcile -/

theorem writesHostClaimRef_of_not_touchesHosts (c : Call) (hc : c.touchesHosts = false) :
    c.writesHostClaimRef = false := by
  cases c <;> first | rfl | simp [Call.touchesHosts] at hc

section ClaimRefTrace
variable {σ : Type} (h : (c : Call) → σ → Except Error (Resp c) × σ)

theorem reconcileStatus_calls (s : σ) (claim : BareMetalHostClaim) :
    ∀ e ∈ ((reconcileStatus claim).interp h s).trace, e.call.touchesHosts = false := by
  simp only [reconcileStatus, forall_trace_call]
  refine ⟨rfl, ?_⟩
  split <;> simp only [forall_trace_ret]

theorem reconcilePower_no_claimRef_write (s : σ) (claim : BareMetalHostClaim)
    (host : BareMetalHost) :
    ∀ e ∈ ((reconcilePower claim host).interp h s).trace, e.call.writesHostClaimRef = false := by
  have hst : ∀ s, ∀ e ∈ ((reconcileStatus claim).interp h s).trace,
      e.call.writesHostClaimRef = false := fun s e he =>
    writesHostClaimRef_of_not_touchesHosts _ (reconcileStatus_calls h s claim e he)
  unfold reconcilePower
  split
  · split
    · simp only [forall_trace_call]
      refine ⟨rfl, ?_⟩
      split
      · simp only [forall_trace_ret]
      · split
        · simp only [forall_trace_call]
          refine ⟨by simp [Call.writesHostClaimRef], ?_⟩
          split
          · simp only [forall_trace_ret]
          · exact hst _
        · exact hst _
    · simp only [forall_trace_call]
      refine ⟨by simp [Call.writesHostClaimRef], ?_⟩
      split
      · simp only [forall_trace_ret]
      · exact hst _
  · exact hst _

theorem PatchEnsureFinalizerHost_no_claimRef_write (s : σ) (host : BareMetalHost) (f : String) :
    ∀ e ∈ ((PatchEnsureFinalizerHost host f).interp h s).trace,
      e.call.writesHostClaimRef = false := by
  unfold PatchEnsureFinalizerHost
  split
  · simp only [forall_trace_ret]
  · simp only [forall_trace_call]
    refine ⟨by simp [Call.writesHostClaimRef], ?_⟩
    split <;> simp only [forall_trace_ret]

/-- When `PatchEnsureFinalizer` reports no modification, it issued no call and
hands on the host passed in. -/
theorem PatchEnsureFinalizerHost_unmodified (s : σ) (host host' : BareMetalHost) (f : String)
    (hv : ((PatchEnsureFinalizerHost host f).interp h s).value = .ok (false, host')) :
    host' = host ∧ ((PatchEnsureFinalizerHost host f).interp h s).state = s := by
  unfold PatchEnsureFinalizerHost at hv ⊢
  split at hv
  · next hf =>
    simp only [Prog.interp] at hv
    injection hv with hv
    injection hv with _ hv
    simp [hf, Prog.interp, hv.symm]
  · simp only [Prog.interp] at hv
    split at hv <;> simp [Prog.interp] at hv

end ClaimRefTrace

theorem reconcilePower_hostClaimRef (s : World × List Bool) (claim : BareMetalHostClaim)
    (host : BareMetalHost) (name : String) :
    ((reconcilePower claim host).interp handle s).state.1.hostClaimRef name =
      s.1.hostClaimRef name :=
  interp_hostClaimRef _ s (reconcilePower_no_claimRef_write handle s claim host) name

/-- The binding step on a world that stores the host as the reconciler holds
it: a claim reference stays, or it was absent and now identifies the claim. -/
theorem reconcileClaimRef_hostClaimRef (w : World) (faults : List Bool)
    (claim : BareMetalHostClaim) (host : BareMetalHost) (hst : w.hosts host.Name = some host)
    (name : String) :
    ((reconcileClaimRef claim host).interp handle (w, faults)).state.1.hostClaimRef name =
        w.hostClaimRef name ∨
      (w.hostClaimRef name = some none ∧
        ((reconcileClaimRef claim host).interp handle (w, faults)).state.1.hostClaimRef name =
          some (some (claimRefOf claim))) := by
  unfold reconcileClaimRef
  by_cases hc : host.Spec.ClaimRef = none
  · simp only [hc, if_true, Prog.interp]
    have key : ∀ faults',
        ((Prog.call (Call.patchHost host
            { host with Spec := { host.Spec with ClaimRef := some (claimRefOf claim) } } false)
          (fun r =>
            match r with
            | .error err =>
              Prog.ret (Except.error (.wrap ("failed to patch claimRef on host " ++ host.Name) err))
            | .ok host => reconcilePower claim host)).interp handle
          (w, false :: faults')).state.1.hostClaimRef name = w.hostClaimRef name ∨
        (w.hostClaimRef name = some none ∧
          ((Prog.call (Call.patchHost host
            { host with Spec := { host.Spec with ClaimRef := some (claimRefOf claim) } } false)
          (fun r =>
            match r with
            | .error err =>
              Prog.ret (Except.error (.wrap ("failed to patch claimRef on host " ++ host.Name) err))
            | .ok host => reconcilePower claim host)).interp handle
          (w, false :: faults')).state.1.hostClaimRef name = some (some (claimRefOf claim))) := by
      intro faults'
      simp only [Prog.interp, handle, exec, World.patchHost, hst, versionOk, beq_self_eq_true,
        Bool.true_or, Bool.false_eq_true, if_false, if_true]
      rw [reconcilePower_hostClaimRef]
      simp only [World.hostClaimRef, Function.update_apply]
      by_cases hn : name = host.Name
      · right
        subst hn
        simp [hst, hc, mergeHostSpec, pick]
      · left
        simp [hn]
    rcases faults with _ | ⟨_ | _, faults⟩
    · exact key []
    · exact key faults
    · left; rfl
  · simp only [hc, if_false]
    left
    exact reconcilePower_hostClaimRef (w, faults) claim host name

/-- A call either fails by injection, without effect, or is answered by the
collaborator. -/
theorem handle_cases (c : Call) (w : World) (faults : List Bool) :
    handle c (w, faults) = (.error .unavailable, (w, faults.tail)) ∨
      handle c (w, faults) = ((exec c w).1, ((exec c w).2, faults.tail)) := by
  rcases faults with _ | ⟨_ | _, faults⟩
  · right; rfl
  · right; rfl
  · left; rfl

theorem reconcileHost_hostClaimRef (w : World) (faults : List Bool)
    (claim : BareMetalHostClaim) (host : BareMetalHost) (hst : w.hosts host.Name = some host)
    (name : String) :
    ((reconcileHost claim host).interp handle (w, faults)).state.1.hostClaimRef name =
        w.hostClaimRef name ∨
      (w.hostClaimRef name = some none ∧
        ((reconcileHost claim host).interp handle (w, faults)).state.1.hostClaimRef name =
          some (some (claimRefOf claim))) := by
  unfold reconcileHost
  simp only [interp_bind]
  have h1 := interp_hostClaimRef _ (w, faults)
    (PatchEnsureFinalizerHost_no_claimRef_write handle (w, faults) host BareMetalHostClaimFinalizer)
    name
  have hu := fun host' =>
    PatchEnsureFinalizerHost_unmodified handle (w, faults) host host' BareMetalHostClaimFinalizer
  revert h1 hu
  generalize ((PatchEnsureFinalizerHost host BareMetalHostClaimFinalizer).interp handle
    (w, faults)) = o1
  obtain ⟨v1, ⟨w1, f1⟩, t1⟩ := o1
  intro h1 hu
  rcases v1 with e | ⟨_ | _, host1⟩
  · left; exact h1
  · obtain ⟨rfl, hs⟩ := hu host1 rfl
    simp only [Prod.mk.injEq] at hs
    obtain ⟨rfl, rfl⟩ := hs
    simp only [interp_bind]
    have h2 := interp_hosts (applyPXEConfiguration claim host1) (w1, f1)
      (fun e he => (applyPXEConfiguration_calls handle (w1, f1) claim host1 e he).1)
    revert h2
    generalize ((applyPXEConfiguration claim host1).interp handle (w1, f1)) = o2
    obtain ⟨v2, ⟨w2, f2⟩, t2⟩ := o2
    intro h2
    simp only at h2
    rcases v2 with e | _
    · left
      simp only [Prog.interp, World.hostClaimRef, h2]
    · simp only [interp_bind]
      have h3 := interp_hosts (applyDHCPConfiguration claim) (w2, f2)
        (fun e he => (applyDHCPConfiguration_calls handle (w2, f2) claim e he).1)
      revert h3
      generalize ((applyDHCPConfiguration claim).interp handle (w2, f2)) = o3
      obtain ⟨v3, ⟨w3, f3⟩, t3⟩ := o3
      intro h3
      simp only at h3
      have h32 : w3.hosts = w1.hosts := h3.trans h2
      rcases v3 with e | _
      · left
        simp only [Prog.interp, World.hostClaimRef, h32]
      · have := reconcileClaimRef_hostClaimRef w3 f3 claim host1 (by rw [h32]; exact hst) name
        simpa only [World.hostClaimRef, h32] using this
  · left; exact h1

theorem reconcile_hostClaimRef (w : World) (faults : List Bool) (claim : BareMetalHostClaim)
    (hw : w.HostsNamed) (name : String) :
    (run faults (reconcile claim) w).state.1.hostClaimRef name = w.hostClaimRef name ∨
      (w.hostClaimRef name = some none ∧
        (run faults (reconcile claim) w).state.1.hostClaimRef name =
          some (some (claimRefOf claim))) := by
  unfold run reconcile
  simp only [interp_bind]
  have h1 := interp_hosts (PatchEnsureFinalizerClaim claim BareMetalHostClaimFinalizer) (w, faults)
    (PatchEnsureFinalizerClaim_calls handle (w, faults) claim BareMetalHostClaimFinalizer)
  have hu := fun claim' =>
    PatchEnsureFinalizerClaim_unmodified handle (w, faults) claim claim' BareMetalHostClaimFinalizer
  revert h1 hu
  generalize ((PatchEnsureFinalizerClaim claim BareMetalHostClaimFinalizer).interp handle
    (w, faults)) = o1
  obtain ⟨v1, ⟨w1, f1⟩, t1⟩ := o1
  intro h1 hu
  simp only at h1
  rcases v1 with e | ⟨_ | _, claim1⟩
  · left
    simp only [Prog.interp, World.hostClaimRef, h1]
  · obtain rfl := hu claim1 rfl
    simp only [Prog.interp]
    rcases handle_cases (Call.getHost claim1.Spec.BareMetalHostRef.Name) w1 f1 with hh | hh
    · left
      simp only [hh, Prog.interp, World.hostClaimRef, h1]
    · simp only [hh, exec, World.getHost]
      cases hg : w1.hosts claim1.Spec.BareMetalHostRef.Name with
      | none =>
        left
        simp only [Prog.interp, World.hostClaimRef, h1]
      | some host =>
        simp only
        split
        · left
          simp only [Prog.interp, World.hostClaimRef, h1]
        · have hn : host.Name = claim1.Spec.BareMetalHostRef.Name := hw _ _ (by rw [← h1]; exact hg)
          have hst : w1.hosts host.Name = some host := by rw [hn]; exact hg
          have := reconcileHost_hostClaimRef w1 f1.tail claim1 host hst name
          simpa only [World.hostClaimRef, h1] using this
  · left
    simp only [Prog.interp, World.hostClaimRef, h1]

theorem sampleWorld_HostsNamed : sampleWorld.HostsNamed := by
  intro name host hh
  simp only [sampleWorld] at hh
  split at hh
  · next hn =>
    injection hh with hh
    rw [← hh, hn]
    rfl
  · cases hh

theorem freeWorld_HostsNamed : freeWorld.HostsNamed := by
  intro name host hh
  simp only [freeWorld] at hh
  split at hh
  · next hn =>
    injection hh with hh
    rw [← hh, hn]
    rfl
  · cases hh

/-- C3: on a store that keeps each host under its name, one claim reconcile
(whatever calls fail) leaves the claim reference of every host as it was, or
the reference was nil and now names the reconciling claim (namespace, name,
UID); hence a reference that is set stays the same along every sequence of
claim reconcile passes of any claims. -/
theorem C3_claimRef_written_once (w : World) (hw : w.HostsNamed) :
    (∀ (faults : List Bool) (claim : BareMetalHostClaim) (name : String),
      (run faults (reconcile claim) w).state.1.hostClaimRef name = w.hostClaimRef name ∨
        (w.hostClaimRef name = some none ∧
          (run faults (reconcile claim) w).state.1.hostClaimRef name =
            some (some
              { Kind := "BareMetalHostClaim", Namespace := claim.Namespace, Name := claim.Name,
                UID := claim.UID }))) ∧
    ∀ (steps : List (BareMetalHostClaim × List Bool)) (name : String) (ref : ObjectReference),
      w.hostClaimRef name = some (some ref) →
        (reconcileAll steps w).hostClaimRef name = some (some ref) := by
  refine ⟨fun faults claim name => reconcile_hostClaimRef w faults claim hw name, ?_⟩
  intro steps
  induction steps generalizing w with
  | nil => exact fun _ _ h => h
  | cons step steps ih =>
    intro name ref href
    refine ih _ (interp_HostsNamed (reconcile step.1) (w, step.2) hw) name ref ?_
    rcases reconcile_hostClaimRef w step.2 step.1 hw name with h | ⟨h, -⟩
    · exact h.trans href
    · rw [href] at h
      cases h

theorem C3_claimRef_written_once_witness :
    freeWorld.HostsNamed ∧ freeWorld.hostClaimRef "h1" = some none ∧
    (run [] (reconcile otherClaim) freeWorld).state.1.hostClaimRef "h1" =
      some (some (claimRefOf otherClaim)) ∧
    (reconcileAll [(sampleClaim, []), (otherClaim, [false, true])]
      (run [] (reconcile otherClaim) freeWorld).state.1).hostClaimRef "h1" =
      some (some (claimRefOf otherClaim)) :=
  ⟨freeWorld_HostsNamed, by decide, by decide,
    (C3_claimRef_written_once _
      (interp_HostsNamed (reconcile otherClaim) (freeWorld, []) freeWorld_HostsNamed)).2
      [(sampleClaim, []), (otherClaim, [false, true])] "h1" (claimRefOf otherClaim) (by decide)⟩

/-! ### Frame lemmas for claims -/

theorem exec_claims (c : Call) (w : World) (hc : c.touchesClaims = false) :
    (exec c w).2.claims = w.claims := by
  cases c <;> first | rfl | (simp [Call.touchesClaims] at hc; done) | skip
  all_goals
    simp only [exec, World.patchHost, World.patchHostStatus, World.patchPXE, World.patchPXEStatus,
      World.patchDHCPStatus, World.deleteSecret, World.setPower, World.applyPXE, World.applyDHCP,
      World.applySecret]
    split <;> first | rfl | (split <;> rfl)

theorem handle_claims (c : Call) (s : World × List Bool) (hc : c.touchesClaims = false) :
    (handle c s).2.1.claims = s.1.claims := by
  obtain ⟨w, faults⟩ := s
  rcases handle_cases c w faults with h | h
  · rw [h]
  · rw [h]; exact exec_claims c w hc

/-- A run that issues no write to a claim leaves the claims as they were. -/
theorem interp_claims {α : Type} (p : Prog α) (s : World × List Bool)
    (hp : ∀ e ∈ (p.interp handle s).trace, e.call.touchesClaims = false) :
    (p.interp handle s).state.1.claims = s.1.claims :=
  interp_frame handle (fun s0 s => s.1.claims = s0.1.claims) (fun e => e.call.touchesClaims = false)
    (fun c s _ h0 hc => (handle_claims c s hc).trans h0) p s s rfl hp

/-! ### Claim deletion -/

@[simp] theorem touchesClaims_getHost (name : String) :
    (Call.getHost name).touchesClaims = false := rfl

@[simp] theorem touchesClaims_patchHost (base modified : BareMetalHost) (lock : Bool) :
    (Call.patchHost base modified lock).touchesClaims = false := rfl

@[simp] theorem touchesClaims_patchHostStatus (base modified : BareMetalHost) :
    (Call.patchHostStatus base modified).touchesClaims = false := rfl

@[simp] theorem touchesClaims_patchClaim (base modified : BareMetalHostClaim) (lock : Bool) :
    (Call.patchClaim base modified lock).touchesClaims = true := rfl

@[simp] theorem isHostSide_getHost (name : String) : (Call.getHost name).isHostSide = true := rfl

@[simp] theorem isHostSide_patchHost (base modified : BareMetalHost) (lock : Bool) :
    (Call.patchHost base modified lock).isHostSide = true := rfl

@[simp] theorem isHostSide_patchHostStatus (base modified : BareMetalHost) :
    (Call.patchHostStatus base modified).isHostSide = true := rfl

@[simp] theorem isHostSide_patchClaim (base modified : BareMetalHostClaim) (lock : Bool) :
    (Call.patchClaim base modified lock).isHostSide = false := rfl

section Delete
variable {σ : Type} (h : (c : Call) → σ → Except Error (Resp c) × σ)

/-- The calls of the finalizer removals at the end of `delete`: the claim is
patched only after the patch of the host finalizer succeeded (or the host had
none); a failed host patch ends with an error before any claim patch. -/
theorem deleteFinalizers_trace (s : σ) (claim : BareMetalHostClaim) (host : BareMetalHost) :
    ((∃ e ∈ ((deleteFinalizers claim host).interp h s).trace, e.call.touchesClaims = true) →
      ∃ r, (BareMetalHostClaimFinalizer ∉ host.Finalizers ∧
          ((deleteFinalizers claim host).interp h s).trace = [⟨claimFinalizerCall claim, r⟩]) ∨
        ∃ host', ((deleteFinalizers claim host).interp h s).trace =
            [⟨hostFinalizerCall host, .ok host'⟩, ⟨claimFinalizerCall claim, r⟩]) ∧
    ((∃ e ∈ ((deleteFinalizers claim host).interp h s).trace,
        e.call.isHostSide = true ∧ e.succeeded = false) →
      (∃ err, ((deleteFinalizers claim host).interp h s).value = .error err) ∧
        ∀ e ∈ ((deleteFinalizers claim host).interp h s).trace, e.call.touchesClaims = false) := by
  have hclaim : ∀ s' : σ,
      ((PatchEnsureNoFinalizerClaim claim BareMetalHostClaimFinalizer).interp h s').trace = [] ∨
      ∃ r, ((PatchEnsureNoFinalizerClaim claim BareMetalHostClaimFinalizer).interp h s').trace =
        [⟨claimFinalizerCall claim, r⟩] := by
    intro s'
    unfold PatchEnsureNoFinalizerClaim
    split
    · right
      simp only [Prog.interp]
      split <;> exact ⟨_, rfl⟩
    · left; rfl
  unfold deleteFinalizers
  simp only [interp_bind]
  unfold PatchEnsureNoFinalizerHost
  by_cases hf : BareMetalHostClaimFinalizer ∈ host.Finalizers
  · simp only [hf, if_true, Prog.interp]
    generalize h (Call.patchHost _ _ _) s = r
    obtain ⟨r, s1⟩ := r
    cases r with
    | error err =>
      simp [Prog.interp, Event.succeeded]
    | ok host' =>
      simp only [Prog.interp, interp_bind, List.nil_append, List.cons_append]
      rcases hclaim s1 with ht | ⟨r, ht⟩
      · generalize ((PatchEnsureNoFinalizerClaim claim BareMetalHostClaimFinalizer).interp h s1) = o
          at ht ⊢
        obtain ⟨v, s2, t⟩ := o
        simp only at ht
        subst ht
        cases v <;> simp [Prog.interp, Event.succeeded]
      · generalize ((PatchEnsureNoFinalizerClaim claim BareMetalHostClaimFinalizer).interp h s1) = o
          at ht ⊢
        obtain ⟨v, s2, t⟩ := o
        simp only at ht
        subst ht
        cases v <;> simp [Prog.interp, Event.succeeded, hf]
  · simp only [hf, if_false, Prog.interp, interp_bind, List.nil_append, not_false_eq_true,
      true_and]
    rcases hclaim s with ht | ⟨r, ht⟩
    · generalize ((PatchEnsureNoFinalizerClaim claim BareMetalHostClaimFinalizer).interp h s) = o
        at ht ⊢
      obtain ⟨v, s2, t⟩ := o
      simp only at ht
      subst ht
      cases v <;> simp [Prog.interp]
    · generalize ((PatchEnsureNoFinalizerClaim claim BareMetalHostClaimFinalizer).interp h s) = o
        at ht ⊢
      obtain ⟨v, s2, t⟩ := o
      simp only at ht
      subst ht
      cases v <;> simp [Prog.interp]

end Delete

theorem delete_trace {σ : Type} (h : (c : Call) → σ → Except Error (Resp c) × σ) (s : σ)
    (claim : BareMetalHostClaim) :
    ((∃ e ∈ ((delete claim).interp h s).trace, e.call.touchesClaims = true) →
      ∃ hostBase host host1 r,
        (BareMetalHostClaimFinalizer ∉ host1.Finalizers ∧
          ((delete claim).interp h s).trace =
            [⟨.getHost claim.Spec.BareMetalHostRef.Name, .ok hostBase⟩,
              ⟨clearClaimRefCall hostBase, .ok host⟩, ⟨taintCall hostBase host, .ok host1⟩,
              ⟨claimFinalizerCall claim, r⟩]) ∨
        ∃ host2, ((delete claim).interp h s).trace =
            [⟨.getHost claim.Spec.BareMetalHostRef.Name, .ok hostBase⟩,
              ⟨clearClaimRefCall hostBase, .ok host⟩, ⟨taintCall hostBase host, .ok host1⟩,
              ⟨hostFinalizerCall host1, .ok host2⟩, ⟨claimFinalizerCall claim, r⟩]) ∧
    ((∃ e ∈ ((delete claim).interp h s).trace, e.call.isHostSide = true ∧ e.succeeded = false) →
      (∃ err, ((delete claim).interp h s).value = .error err) ∧
        ∀ e ∈ ((delete claim).interp h s).trace, e.call.touchesClaims = false) := by
  unfold delete
  simp only [Prog.interp]
  generalize h (Call.getHost _) s = r0
  obtain ⟨r0, s0⟩ := r0
  cases r0 with
  | error err => simp [Prog.interp, Event.succeeded]
  | ok hostBase =>
    simp only [Prog.interp]
    generalize h (Call.patchHost _ _ _) s0 = r1
    obtain ⟨r1, s1⟩ := r1
    cases r1 with
    | error err => simp [Prog.interp, Event.succeeded]
    | ok host =>
      simp only [Prog.interp]
      generalize h (Call.patchHostStatus _ _) s1 = r2
      obtain ⟨r2, s2⟩ := r2
      cases r2 with
      | error err => simp [Prog.interp, Event.succeeded]
      | ok host1 =>
        simp only
        have hd := deleteFinalizers_trace h s2 claim host1
        generalize ((deleteFinalizers claim host1).interp h s2) = o at hd ⊢
        obtain ⟨v, s3, t⟩ := o
        simp only at hd
        obtain ⟨hd1, hd2⟩ := hd
        constructor
        · intro he
          simp only [List.mem_cons, exists_eq_or_imp, touchesClaims_getHost,
            touchesClaims_patchHost, touchesClaims_patchHostStatus, Bool.false_eq_true,
            false_or] at he
          obtain ⟨r, hr⟩ := hd1 he
          refine ⟨hostBase, host, host1, r, ?_⟩
          rcases hr with ⟨hf, rfl⟩ | ⟨host2, rfl⟩
          · exact Or.inl ⟨hf, rfl⟩
          · exact Or.inr ⟨host2, rfl⟩
        · intro he
          simp only [List.mem_cons, exists_eq_or_imp, Event.succeeded, isHostSide_getHost,
            isHostSide_patchHost, isHostSide_patchHostStatus, Bool.true_eq_false, and_false,
            false_or] at he
          obtain ⟨hv, ht⟩ := hd2 he
          refine ⟨hv, ?_⟩
          simpa using ht

/-- C4: in claim deletion (against any environment) a patch of the claim is
issued only as the last call, after the host lookup, the patch clearing the
claim reference, the status patch to Tainted and (when the host carries the
finalizer) the patch removing the host finalizer have succeeded in that order;
when a host-side call fails, delete returns an error and issues no patch of
the claim, so that on the object store the claims are as they were. -/
theorem C4_claim_finalizer_last {σ : Type} (h : (c : Call) → σ → Except Error (Resp c) × σ)
    (s : σ) (w : World) (faults : List Bool) (claim : BareMetalHostClaim) :
    ((∃ e ∈ ((delete claim).interp h s).trace, e.call.touchesClaims = true) →
      ∃ hostBase host host1 r,
        (BareMetalHostClaimFinalizer ∉ host1.Finalizers ∧
          ((delete claim).interp h s).trace =
            [⟨.getHost claim.Spec.BareMetalHostRef.Name, .ok hostBase⟩,
              ⟨clearClaimRefCall hostBase, .ok host⟩, ⟨taintCall hostBase host, .ok host1⟩,
              ⟨claimFinalizerCall claim, r⟩]) ∨
        ∃ host2, ((delete claim).interp h s).trace =
            [⟨.getHost claim.Spec.BareMetalHostRef.Name, .ok hostBase⟩,
              ⟨clearClaimRefCall hostBase, .ok host⟩, ⟨taintCall hostBase host, .ok host1⟩,
              ⟨hostFinalizerCall host1, .ok host2⟩, ⟨claimFinalizerCall claim, r⟩]) ∧
    ((∃ e ∈ ((delete claim).interp h s).trace, e.call.isHostSide = true ∧ e.succeeded = false) →
      (∃ err, ((delete claim).interp h s).value = .error err) ∧
        ∀ e ∈ ((delete claim).interp h s).trace, e.call.touchesClaims = false) ∧
    ((∃ e ∈ (run faults (delete claim) w).trace,
        e.call.isHostSide = true ∧ e.succeeded = false) →
      (∃ err, (run faults (delete claim) w).value = .error err) ∧
        (run faults (delete claim) w).state.1.claims = w.claims) :=
  ⟨(delete_trace h s claim).1, (delete_trace h s claim).2, fun hf =>
    ⟨((delete_trace handle (w, faults) claim).2 hf).1,
      interp_claims _ (w, faults) ((delete_trace handle (w, faults) claim).2 hf).2⟩⟩

theorem C4_claim_finalizer_last_witness :
    (∃ e ∈ (run [false, false, true] (delete doomedClaim) doomedWorld).trace,
      e.call.isHostSide = true ∧ e.succeeded = false) ∧
    (∃ err, (run [false, false, true] (delete doomedClaim) doomedWorld).value = .error err) ∧
    (run [false, false, true] (delete doomedClaim) doomedWorld).state.1.claims ("ns", "c1") =
      some doomedClaim ∧
    (∃ e ∈ (run [] (delete doomedClaim) doomedWorld).trace, e.call.touchesClaims = true) :=
  ⟨by decide,
    ((C4_claim_finalizer_last handle (doomedWorld, []) doomedWorld [false, false, true]
      doomedClaim).2.2 (by decide)).1,
    by
      rw [((C4_claim_finalizer_last handle (doomedWorld, []) doomedWorld [false, false, true]
        doomedClaim).2.2 (by decide)).2]
      rfl,
    by decide⟩

/-! ### Successful writes -/

@[simp] theorem stampClaim_Finalizers (stored new : BareMetalHostClaim) :
    (stampClaim stored new).Finalizers = new.Finalizers := by
  unfold stampClaim
  split
  · next h => rw [h]
  · rfl

@[simp] theorem stampClaim_Status (stored new : BareMetalHostClaim) :
    (stampClaim stored new).Status = new.Status := by
  unfold stampClaim
  split
  · next h => rw [h]
  · rfl

@[simp] theorem stampClaim_Spec (stored new : BareMetalHostClaim) :
    (stampClaim stored new).Spec = new.Spec := by
  unfold stampClaim
  split
  · next h => rw [h]
  · rfl

theorem not_mem_filter_finalizer (l : List String) (f : String) :
    f ∉ l.filter (fun g => g != f) := by
  simp [List.mem_filter]

theorem pick_self {α : Type} [DecidableEq α] (a b : α) : pick a b a = b := by
  unfold pick
  split
  · next h => exact h
  · rfl

theorem pick_same {α : Type} [DecidableEq α] (a b : α) : pick a a b = b := by
  simp [pick]

/-- A merge patch of a host that the store holds, with a version the store
accepts, succeeds; the new object has the patched metadata and spec and the
stored status. -/
theorem patchHost_ok (w : World) (base modified stored : BareMetalHost) (lock : Bool)
    (hs : w.hosts modified.Name = some stored)
    (hv : versionOk lock base.ResourceVersion modified.ResourceVersion stored.ResourceVersion =
      true) :
    ∃ new, w.patchHost base modified lock =
        (.ok new, { w with hosts := Function.update w.hosts modified.Name (some new) }) ∧
      new.Name = stored.Name ∧
      new.Spec = mergeHostSpec base.Spec modified.Spec stored.Spec ∧
      new.Status = stored.Status ∧
      new.Finalizers = pick base.Finalizers modified.Finalizers stored.Finalizers := by
  simp only [World.patchHost, hs, hv, if_true]
  refine ⟨_, rfl, ?_, ?_, ?_, ?_⟩
  · simp [mergeMeta]
  · simp
  · simp
  · simp [mergeMeta]

/-- A status patch of a host that the store holds, with a version the store
accepts, succeeds; the new object has the patched status and is otherwise the
stored one. -/
theorem patchHostStatus_ok (w : World) (base modified stored : BareMetalHost)
    (hs : w.hosts modified.Name = some stored)
    (hv : versionOk false base.ResourceVersion modified.ResourceVersion stored.ResourceVersion =
      true) :
    ∃ new, w.patchHostStatus base modified =
        (.ok new, { w with hosts := Function.update w.hosts modified.Name (some new) }) ∧
      new.Name = stored.Name ∧
      new.Spec = stored.Spec ∧
      new.Status = mergeHostStatus base.Status modified.Status stored.Status ∧
      new.Finalizers = stored.Finalizers := by
  simp only [World.patchHostStatus, hs, hv, if_true]
  refine ⟨_, rfl, ?_, ?_, ?_, ?_⟩ <;> simp

theorem patchClaim_ok (w : World) (base modified stored : BareMetalHostClaim) (lock : Bool)
    (hs : w.claims (modified.Namespace, modified.Name) = some stored)
    (hv : versionOk lock base.ResourceVersion modified.ResourceVersion stored.ResourceVersion =
      true) :
    ∃ new, w.patchClaim base modified lock =
        (.ok new,
          { w with
            claims := Function.update w.claims (modified.Namespace, modified.Name) (some new) }) ∧
      new.Spec = mergeClaimSpec base.Spec modified.Spec stored.Spec ∧
      new.Status = stored.Status ∧
      new.Finalizers = pick base.Finalizers modified.Finalizers stored.Finalizers := by
  simp only [World.patchClaim, hs, hv, if_true]
  refine ⟨_, rfl, ?_, ?_, ?_⟩
  · simp
  · simp
  · simp [mergeMeta]

theorem patchClaimStatus_ok (w : World) (base modified stored : BareMetalHostClaim)
    (hs : w.claims (modified.Namespace, modified.Name) = some stored)
    (hv : versionOk false base.ResourceVersion modified.ResourceVersion stored.ResourceVersion =
      true) :
    ∃ new, w.patchClaimStatus base modified =
        (.ok new,
          { w with
            claims := Function.update w.claims (modified.Namespace, modified.Name) (some new) }) ∧
      new.Spec = stored.Spec ∧
      new.Status.Phase = pick base.Status.Phase modified.Status.Phase stored.Status.Phase ∧
      new.Finalizers = stored.Finalizers := by
  simp only [World.patchClaimStatus, hs, hv, if_true]
  refine ⟨_, rfl, ?_, ?_, ?_⟩ <;> simp

theorem versionOk_same (lock : Bool) (v : Nat) : versionOk lock v v v = true := by
  cases lock <;> simp [versionOk]

theorem versionOk_unchanged (v v' : Nat) : versionOk false v v v' = true := by
  simp [versionOk]

/-- The finalizer removals at the end of `delete`, with no failure, on a world
that stores the host and the claim as the reconciler holds them. -/
theorem deleteFinalizers_success (w : World) (claim : BareMetalHostClaim) (host : BareMetalHost)
    (hc : w.claims (claim.Namespace, claim.Name) = some claim)
    (hh : w.hosts host.Name = some host) :
    ((deleteFinalizers claim host).interp handle (w, [])).value = .ok () ∧
    (∀ e ∈ ((deleteFinalizers claim host).interp handle (w, [])).trace, e.succeeded = true) ∧
    (∃ host', ((deleteFinalizers claim host).interp handle (w, [])).state.1.hosts host.Name =
        some host' ∧
      host'.Spec = host.Spec ∧ host'.Status = host.Status ∧
      BareMetalHostClaimFinalizer ∉ host'.Finalizers) ∧
    ∃ claim', ((deleteFinalizers claim host).interp handle (w, [])).state.1.claims
        (claim.Namespace, claim.Name) = some claim' ∧
      BareMetalHostClaimFinalizer ∉ claim'.Finalizers := by
  -- the claim patch, on any world that still stores the claim
  have hclaim : ∀ w1 : World, w1.claims (claim.Namespace, claim.Name) = some claim →
      ∃ v w2 t, (PatchEnsureNoFinalizerClaim claim BareMetalHostClaimFinalizer).interp handle
          (w1, []) = ⟨.ok v, (w2, []), t⟩ ∧ w2.hosts = w1.hosts ∧
        (∀ e ∈ t, e.succeeded = true) ∧
        ∃ claim', w2.claims (claim.Namespace, claim.Name) = some claim' ∧
          BareMetalHostClaimFinalizer ∉ claim'.Finalizers := by
    intro w1 hc1
    unfold PatchEnsureNoFinalizerClaim
    by_cases hf : BareMetalHostClaimFinalizer ∈ claim.Finalizers
    · obtain ⟨new, e1, -, -, f1⟩ := patchClaim_ok w1 claim
        { claim with
          Finalizers := claim.Finalizers.filter (fun f => f != BareMetalHostClaimFinalizer) }
        claim true hc1 (versionOk_same _ _)
      simp only [hf, if_true, Prog.interp, handle, exec, e1]
      refine ⟨_, _, _, rfl, rfl, ?_, new, ?_, ?_⟩
      · simp [Event.succeeded]
      · simp
      · rw [f1, pick_self]
        exact not_mem_filter_finalizer _ _
    · simp only [hf, if_false, Prog.interp]
      exact ⟨_, _, _, rfl, rfl, by simp, claim, hc1, hf⟩
  unfold deleteFinalizers
  simp only [interp_bind]
  unfold PatchEnsureNoFinalizerHost
  by_cases hf : BareMetalHostClaimFinalizer ∈ host.Finalizers
  · obtain ⟨new, e1, n1, sp1, st1, f1⟩ := patchHost_ok w host
      { host with Finalizers := host.Finalizers.filter (fun f => f != BareMetalHostClaimFinalizer) }
      host true hh (versionOk_same _ _)
    obtain ⟨v, w2, t, hrun, hc1, hc3, claim', hc4, hc5⟩ :=
      hclaim { w with hosts := Function.update w.hosts host.Name (some new) } hc
    simp only [hf, if_true, Prog.interp, handle, exec, e1, interp_bind, hrun]
    refine ⟨trivial, ?_, ⟨new, ?_, ?_, st1, ?_⟩, claim', hc4, hc5⟩
    · simpa [Event.succeeded] using hc3
    · simp [hc1]
    · rw [sp1]; simp [mergeHostSpec, pick]
    · rw [f1, pick_self]
      exact not_mem_filter_finalizer _ _
  · obtain ⟨v, w2, t, hrun, hc1, hc3, claim', hc4, hc5⟩ := hclaim w hc
    simp only [hf, if_false, Prog.interp, interp_bind, hrun]
    refine ⟨trivial, ?_, ⟨host, ?_, rfl, rfl, hf⟩, claim', hc4, hc5⟩
    · simpa using hc3
    · rw [hc1]; exact hh

theorem versionOk_fresh (base modified : Nat) : versionOk false base modified modified = true := by
  simp [versionOk]

/-- Claim deletion with no failure, on a world that stores the claim and the
host it references. -/
theorem delete_success (w : World) (claim : BareMetalHostClaim) (host : BareMetalHost)
    (hc : w.claims (claim.Namespace, claim.Name) = some claim)
    (hh : w.hosts claim.Spec.BareMetalHostRef.Name = some host)
    (hn : host.Name = claim.Spec.BareMetalHostRef.Name) :
    (run [] (delete claim) w).value = .ok () ∧
    (∀ e ∈ (run [] (delete claim) w).trace, e.succeeded = true) ∧
    (∃ host', (run [] (delete claim) w).state.1.hosts claim.Spec.BareMetalHostRef.Name =
        some host' ∧
      host'.Spec.ClaimRef = none ∧ host'.Status.State = StateTainted ∧
      BareMetalHostClaimFinalizer ∉ host'.Finalizers) ∧
    ∃ claim', (run [] (delete claim) w).state.1.claims (claim.Namespace, claim.Name) =
        some claim' ∧
      BareMetalHostClaimFinalizer ∉ claim'.Finalizers := by
  have hh' : w.hosts host.Name = some host := by rw [hn]; exact hh
  obtain ⟨new1, e1, n1, sp1, st1, -⟩ := patchHost_ok w host
    { host with Spec := { host.Spec with ClaimRef := none } } host false hh' (versionOk_same _ _)
  have hs1 : ({ w with hosts := Function.update w.hosts host.Name (some new1) } : World).hosts
      new1.Name = some new1 := by
    show Function.update w.hosts host.Name (some new1) new1.Name = some new1
    rw [n1, Function.update_same]
  obtain ⟨new2, e2, n2, sp2, st2, -⟩ := patchHostStatus_ok
    { w with hosts := Function.update w.hosts host.Name (some new1) } host
    { new1 with Status := { new1.Status with State := StateTainted } } new1 hs1
    (versionOk_fresh _ _)
  have hs2 : ({ w with
      hosts := Function.update (Function.update w.hosts host.Name (some new1)) new1.Name
        (some new2) } : World).hosts new2.Name = some new2 := by
    show Function.update (Function.update w.hosts host.Name (some new1)) new1.Name (some new2)
      new2.Name = some new2
    rw [n2, Function.update_same]
  obtain ⟨hv, ht, ⟨host', hhost, hsp, hst, hfin⟩, claim', hcl, hcf⟩ :=
    deleteFinalizers_success
      { w with
        hosts := Function.update (Function.update w.hosts host.Name (some new1)) new1.Name
          (some new2) } claim new2 hc hs2
  unfold run delete
  simp only [Prog.interp, handle, exec, World.getHost, hh, e1, e2]
  refine ⟨hv, ?_, ⟨host', ?_, ?_, ?_, hfin⟩, claim', hcl, hcf⟩
  · simpa [Event.succeeded] using ht
  · have hkey : claim.Spec.BareMetalHostRef.Name = new2.Name := by rw [n2, n1, hn]
    rw [hkey]; exact hhost
  · rw [hsp, sp2, sp1]; simp [mergeHostSpec, pick]
  · rw [hst, st2, st1]; simp [mergeHostStatus, pick_self]

/-- C5: for a claim with a deletion timestamp that the store holds, together
with the host it references (under its name), claim deletion without failure
returns success with every call succeeding, and leaves the host with no claim
reference, state Tainted and no claim-protection finalizer, and the claim
without its finalizer.  This holds whatever the claim reference of the host
was, in particular when it identifies the claim. -/
theorem C5_delete_releases_host (w : World) (claim : BareMetalHostClaim) (host : BareMetalHost)
    (hd : claim.DeletionTimestamp ≠ none)
    (hc : w.claims (claim.Namespace, claim.Name) = some claim)
    (hh : w.hosts claim.Spec.BareMetalHostRef.Name = some host)
    (hn : host.Name = claim.Spec.BareMetalHostRef.Name) :
    (run [] (reconcileExists claim) w).value = .ok () ∧
    (∀ e ∈ (run [] (reconcileExists claim) w).trace, e.succeeded = true) ∧
    (∃ host', (run [] (reconcileExists claim) w).state.1.hosts claim.Spec.BareMetalHostRef.Name =
        some host' ∧
      host'.Spec.ClaimRef = none ∧ host'.Status.State = StateTainted ∧
      BareMetalHostClaimFinalizer ∉ host'.Finalizers) ∧
    ∃ claim', (run [] (reconcileExists claim) w).state.1.claims (claim.Namespace, claim.Name) =
        some claim' ∧
      BareMetalHostClaimFinalizer ∉ claim'.Finalizers := by
  have : reconcileExists claim = delete claim := by simp [reconcileExists, hd]
  rw [this]
  exact delete_success w claim host hc hh hn

theorem C5_delete_releases_host_witness :
    doomedWorld.hostClaimRef "h1" = some (some (claimRefOf doomedClaim)) ∧
    (run [] (reconcileExists doomedClaim) doomedWorld).value = .ok () ∧
    (∃ host', (run [] (reconcileExists doomedClaim) doomedWorld).state.1.hosts "h1" = some host' ∧
      host'.Spec.ClaimRef = none ∧ host'.Status.State = StateTainted ∧
      BareMetalHostClaimFinalizer ∉ host'.Finalizers) ∧
    ∃ claim', (run [] (reconcileExists doomedClaim) doomedWorld).state.1.claims ("ns", "c1") =
        some claim' ∧
      BareMetalHostClaimFinalizer ∉ claim'.Finalizers :=
  have h := C5_delete_releases_host doomedWorld doomedClaim sampleHost (by decide) (by decide)
    (by decide) (by decide)
  ⟨by decide, h.1, h.2.2.1, h.2.2.2⟩

/-! ### The successful claim reconcile -/

@[simp] theorem stampPXE_Name (stored new : PXE) : (stampPXE stored new).Name = new.Name := by
  unfold stampPXE
  split
  · next h => rw [h]
  · rfl

@[simp] theorem stampPXE_Namespace (stored new : PXE) :
    (stampPXE stored new).Namespace = new.Namespace := by
  unfold stampPXE
  split
  · next h => rw [h]
  · rfl

@[simp] theorem stampPXE_Status (stored new : PXE) : (stampPXE stored new).Status = new.Status := by
  unfold stampPXE
  split
  · next h => rw [h]
  · rfl

@[simp] theorem stampDHCP_Name (stored new : DHCP) : (stampDHCP stored new).Name = new.Name := by
  unfold stampDHCP
  split
  · next h => rw [h]
  · rfl

@[simp] theorem stampDHCP_Namespace (stored new : DHCP) :
    (stampDHCP stored new).Namespace = new.Namespace := by
  unfold stampDHCP
  split
  · next h => rw [h]
  · rfl

/-- The object an apply returns is stored under the applied name. -/
theorem applyPXE_ok (w : World) (pxe : PXE) :
    ∃ new, w.applyPXE pxe =
        (.ok new, { w with pxes := Function.update w.pxes (pxe.Namespace, pxe.Name) (some new) }) ∧
      new.Namespace = pxe.Namespace ∧ new.Name = pxe.Name := by
  unfold World.applyPXE
  cases w.pxes (pxe.Namespace, pxe.Name) with
  | none => exact ⟨_, rfl, rfl, rfl⟩
  | some stored => exact ⟨_, rfl, stampPXE_Namespace _ _, stampPXE_Name _ _⟩

theorem applyDHCP_ok (w : World) (dhcp : DHCP) :
    ∃ new, w.applyDHCP dhcp =
        (.ok new,
          { w with dhcps := Function.update w.dhcps (dhcp.Namespace, dhcp.Name) (some new) }) ∧
      new.Namespace = dhcp.Namespace ∧ new.Name = dhcp.Name := by
  unfold World.applyDHCP
  cases w.dhcps (dhcp.Namespace, dhcp.Name) with
  | none => exact ⟨_, rfl, rfl, rfl⟩
  | some stored => exact ⟨_, rfl, stampDHCP_Namespace _ _, stampDHCP_Name _ _⟩

/-- A status patch of a PXE object that the store holds as the caller does
succeeds and sets the state the caller chose. -/
theorem patchPXEStatus_ok (w : World) (pxe : PXE) (state : PXEState)
    (hs : w.pxes (pxe.Namespace, pxe.Name) = some pxe) :
    ∃ new, w.patchPXEStatus pxe { pxe with Status := { pxe.Status with State := state } } =
        (.ok new, { w with pxes := Function.update w.pxes (pxe.Namespace, pxe.Name) (some new) }) ∧
      new.Status.State = state := by
  simp only [World.patchPXEStatus, hs, versionOk_unchanged, if_true]
  exact ⟨_, rfl, by simp [pick_self]⟩

theorem patchDHCPStatus_ok (w : World) (dhcp : DHCP) (state : DHCPState)
    (hs : w.dhcps (dhcp.Namespace, dhcp.Name) = some dhcp) :
    ∃ new, w.patchDHCPStatus dhcp { dhcp with Status := { dhcp.Status with State := state } } =
        (.ok new,
          { w with dhcps := Function.update w.dhcps (dhcp.Namespace, dhcp.Name) (some new) }) := by
  simp only [World.patchDHCPStatus, hs, versionOk_unchanged, if_true]
  exact ⟨_, rfl⟩

/-- Without failure `applyPXEConfiguration` succeeds, touches neither hosts
nor claims, reads no PXE object, and leaves the PXE object of the claim at
state Created. -/
theorem applyPXEConfiguration_success (w : World) (claim : BareMetalHostClaim)
    (host : BareMetalHost) :
    ∃ w' t, (applyPXEConfiguration claim host).interp handle (w, []) = ⟨.ok (), (w', []), t⟩ ∧
      w'.hosts = w.hosts ∧ w'.claims = w.claims ∧
      (∀ e ∈ t, e.succeeded = true ∧ e.call.readsPXE = false) ∧
      ∃ pxe, w'.pxes (claim.Namespace, claim.Name) = some pxe ∧
        pxe.Status.State = PXEStateCreated := by
  unfold applyPXEConfiguration
  simp only
  obtain ⟨new, e1, ns1, n1⟩ := applyPXE_ok w
    { Namespace := claim.Namespace
      Name := claim.Name
      OwnerReferences := [{ Kind := "BareMetalHostClaim", Name := claim.Name, UID := claim.UID }]
      Spec :=
        { BareMetalHostClaimRef := { Name := claim.Name }
          IgnitionRef := claim.Spec.IgnitionRef
          Image := claim.Spec.Image
          SystemUUID := host.Spec.FooUUID } }
  simp only at ns1 n1 e1
  obtain ⟨new2, e2, st2⟩ := patchPXEStatus_ok
    { w with pxes := Function.update w.pxes (claim.Namespace, claim.Name) (some new) } new
    PXEStateCreated (by
      show Function.update w.pxes (claim.Namespace, claim.Name) (some new)
        (new.Namespace, new.Name) = some new
      rw [ns1, n1, Function.update_same])
  rw [ns1, n1] at e2
  simp only [Prog.interp, handle, exec, e1, e2]
  refine ⟨_, _, rfl, rfl, rfl, ?_, new2, ?_, st2⟩
  · simp [Event.succeeded, Call.readsPXE]
  · simp

theorem applyDHCPConfiguration_success (w : World) (claim : BareMetalHostClaim) :
    ∃ w' t, (applyDHCPConfiguration claim).interp handle (w, []) = ⟨.ok (), (w', []), t⟩ ∧
      w'.hosts = w.hosts ∧ w'.claims = w.claims ∧ w'.pxes = w.pxes ∧
      (∀ e ∈ t, e.succeeded = true ∧ e.call.readsPXE = false) := by
  unfold applyDHCPConfiguration
  simp only
  obtain ⟨new, e1, ns1, n1⟩ := applyDHCP_ok w
    { Namespace := claim.Namespace
      Name := claim.Name
      OwnerReferences := [{ Kind := "BareMetalHostClaim", Name := claim.Name, UID := claim.UID }]
      Spec := { BareMetalHostRef := claim.Spec.BareMetalHostRef } }
  simp only at ns1 n1 e1
  obtain ⟨new2, e2⟩ := patchDHCPStatus_ok
    { w with dhcps := Function.update w.dhcps (claim.Namespace, claim.Name) (some new) } new
    DHCPStateCreated (by
      show Function.update w.dhcps (claim.Namespace, claim.Name) (some new)
        (new.Namespace, new.Name) = some new
      rw [ns1, n1, Function.update_same])
  rw [ns1, n1] at e2
  simp only [Prog.interp, handle, exec, e1, e2]
  refine ⟨_, _, rfl, rfl, rfl, rfl, ?_⟩
  simp [Event.succeeded, Call.readsPXE]

section InterpEq
variable {σ α : Type} (h : (c : Call) → σ → Except Error (Resp c) × σ)

theorem interp_ret (a : α) (s : σ) : (Prog.ret a).interp h s = ⟨a, s, []⟩ := rfl

theorem interp_call (c : Call) (k : Except Error (Resp c) → Prog α) (s : σ) :
    (Prog.call c k).interp h s =
      ⟨((k (h c s).1).interp h (h c s).2).value, ((k (h c s).1).interp h (h c s).2).state,
        ⟨c, (h c s).1⟩ :: ((k (h c s).1).interp h (h c s).2).trace⟩ := rfl

end InterpEq

theorem reconcileStatus_success (w : World) (claim : BareMetalHostClaim)
    (hc : w.claims (claim.Namespace, claim.Name) = some claim) :
    ∃ w' t, (reconcileStatus claim).interp handle (w, []) = ⟨.ok (), (w', []), t⟩ ∧
      w'.hosts = w.hosts ∧ w'.pxes = w.pxes ∧
      (∀ e ∈ t, e.succeeded = true ∧ e.call.readsPXE = false) ∧
      ∃ claim', w'.claims (claim.Namespace, claim.Name) = some claim' ∧
        claim'.Status.Phase = PhaseBound := by
  obtain ⟨new, e1, -, ph, -⟩ := patchClaimStatus_ok w claim
    { claim with Status := { claim.Status with Phase := PhaseBound } } claim hc
    (versionOk_same _ _)
  unfold reconcileStatus
  simp only [Prog.interp, handle, exec, e1]
  refine ⟨_, _, rfl, rfl, rfl, ?_, new, ?_, ?_⟩
  · simp [Event.succeeded, Call.readsPXE]
  · simp
  · rw [ph, pick_self]

/-- C6: a claim without ignition reference and an unclaimed host, both with
the claim finalizer and both held by the store (the host under its name): the
claim reconcile without failure returns success with every call succeeding and
without reading a PXE object; afterwards the claim reference of the host names
the claim (namespace, name, UID), the desired power of the host is the one of
the claim, and the phase of the claim is Bound. -/
theorem C6_bind_and_power (w : World) (claim : BareMetalHostClaim) (host : BareMetalHost)
    (hig : claim.Spec.IgnitionRef = none)
    (hfin : BareMetalHostClaimFinalizer ∈ claim.Finalizers)
    (hhf : BareMetalHostClaimFinalizer ∈ host.Finalizers)
    (hcr : host.Spec.ClaimRef = none)
    (hc : w.claims (claim.Namespace, claim.Name) = some claim)
    (hh : w.hosts claim.Spec.BareMetalHostRef.Name = some host)
    (hn : host.Name = claim.Spec.BareMetalHostRef.Name) :
    (run [] (reconcile claim) w).value = .ok () ∧
    (∀ e ∈ (run [] (reconcile claim) w).trace, e.succeeded = true ∧ e.call.readsPXE = false) ∧
    (∃ host', (run [] (reconcile claim) w).state.1.hosts claim.Spec.BareMetalHostRef.Name =
        some host' ∧
      host'.Spec.ClaimRef = some
        { Kind := "BareMetalHostClaim", Namespace := claim.Namespace, Name := claim.Name,
          UID := claim.UID } ∧
      host'.Spec.Power = claim.Spec.Power) ∧
    ∃ claim', (run [] (reconcile claim) w).state.1.claims (claim.Namespace, claim.Name) =
        some claim' ∧
      claim'.Status.Phase = PhaseBound := by
  obtain ⟨w1, t1, r1, hw1, cw1, ht1, -⟩ := applyPXEConfiguration_success w claim host
  obtain ⟨w2, t2, r2, hw2, cw2, -, ht2⟩ := applyDHCPConfiguration_success w1 claim
  have hh2 : w2.hosts host.Name = some host := by rw [hw2, hw1, hn]; exact hh
  obtain ⟨new1, e1, n1, sp1, -, -⟩ := patchHost_ok w2 host
    { host with Spec := { host.Spec with ClaimRef := some (claimRefOf claim) } } host false hh2
    (versionOk_same _ _)
  have hs1 : ({ w2 with hosts := Function.update w2.hosts host.Name (some new1) } : World).hosts
      new1.Name = some new1 := by
    show Function.update w2.hosts host.Name (some new1) new1.Name = some new1
    rw [n1, Function.update_same]
  obtain ⟨new2, e2, n2, sp2, -, -⟩ := patchHost_ok
    { w2 with hosts := Function.update w2.hosts host.Name (some new1) } new1
    { new1 with Spec := { new1.Spec with Power := claim.Spec.Power } } new1 false hs1
    (versionOk_same _ _)
  have hcr1 : new1.Spec.ClaimRef = some (claimRefOf claim) := by
    rw [sp1]; simp [mergeHostSpec, pick, hcr]
  obtain ⟨w3, t3, r3, hw3, -, ht3, claim', hcl, hph⟩ := reconcileStatus_success
    { w2 with
      hosts := Function.update (Function.update w2.hosts host.Name (some new1)) new1.Name
        (some new2) } claim (by rw [← cw1, ← cw2] at hc; exact hc)
  have hpow : (reconcilePower claim new1).interp handle
      ({ w2 with hosts := Function.update w2.hosts host.Name (some new1) }, []) =
      ⟨.ok (), (w3, []),
        ⟨.patchHost new1 { new1 with Spec := { new1.Spec with Power := claim.Spec.Power } } false,
          .ok new2⟩ :: t3⟩ := by
    have hc' : new1.Spec.ClaimRef ≠ none := by rw [hcr1]; exact Option.some_ne_none _
    unfold reconcilePower
    rw [if_pos hc', if_neg (by simp [hig])]
    simp only [interp_call, handle, exec, e2, r3]
  unfold run reconcile
  simp only [PatchEnsureFinalizerClaim, hfin, if_true, interp_ret, interp_call, handle, exec,
    World.getHost, hh, hcr, Option.any_none, Bool.false_eq_true, if_false, reconcileHost,
    PatchEnsureFinalizerHost, hhf, interp_bind, r1, r2, reconcileClaimRef, e1, hpow]
  refine ⟨trivial, ?_, ⟨new2, ?_, ?_, ?_⟩, claim', hcl, hph⟩
  · simp only [List.mem_cons, List.mem_append]
    rintro e (he | he | he | he | he | he | he | he)
    · cases he
    · subst he; exact ⟨rfl, rfl⟩
    · cases he
    · exact ht1 e he
    · exact ht2 e he
    · subst he; exact ⟨rfl, rfl⟩
    · subst he; exact ⟨rfl, rfl⟩
    · exact ht3 e he
  · rw [hw3, ← hn, ← n1]
    exact Function.update_same _ _ _
  · rw [sp2]; simpa [mergeHostSpec, pick] using hcr1
  · rw [sp2]; simp [mergeHostSpec, pick_self]

theorem C6_bind_and_power_witness :
    otherClaim.Spec.IgnitionRef = none ∧ freeHost.Spec.ClaimRef = none ∧
    freeHost.Spec.Power = PowerStateOff ∧ otherClaim.Spec.Power = PowerStateOn ∧
    (run [] (reconcile otherClaim) freeWorld).value = .ok () ∧
    (∃ host', (run [] (reconcile otherClaim) freeWorld).state.1.hosts "h1" = some host' ∧
      host'.Spec.ClaimRef = some
        { Kind := "BareMetalHostClaim", Namespace := "ns", Name := "c2", UID := "u2" } ∧
      host'.Spec.Power = PowerStateOn) ∧
    ∃ claim', (run [] (reconcile otherClaim) freeWorld).state.1.claims ("ns", "c2") =
        some claim' ∧
      claim'.Status.Phase = PhaseBound :=
  have h := C6_bind_and_power freeWorld otherClaim freeHost (by decide) (by decide) (by decide)
    (by decide) (by decide) (by decide) (by decide)
  ⟨by decide, by decide, by decide, by decide, h.1, h.2.2.1, h.2.2.2⟩

/-- C7 (the code departs from the claim): for a claim with ignition reference
and desired power On whose host is bound to it, the claim reconcile without
failure succeeds, yet it leaves every host as it was, so the desired power is
not set to On: `applyPXEConfiguration` has patched the PXE status to Created
before the state is read, whatever the state was when the pass started. -/
theorem C7_power_on_not_issued (w : World) (claim : BareMetalHostClaim) (host : BareMetalHost)
    (ref : ObjectReference)
    (hp : claim.Spec.Power = PowerStateOn) (hi : claim.Spec.IgnitionRef ≠ none)
    (hfin : BareMetalHostClaimFinalizer ∈ claim.Finalizers)
    (hhf : BareMetalHostClaimFinalizer ∈ host.Finalizers)
    (hcr : host.Spec.ClaimRef = some ref) (huid : ref.UID = claim.UID)
    (hc : w.claims (claim.Namespace, claim.Name) = some claim)
    (hh : w.hosts claim.Spec.BareMetalHostRef.Name = some host) :
    (run [] (reconcile claim) w).value = .ok () ∧
    (∀ e ∈ (run [] (reconcile claim) w).trace, e.succeeded = true) ∧
    (run [] (reconcile claim) w).state.1.hosts = w.hosts ∧
    (run [] (reconcile claim) w).state.1.pxeState claim.Namespace claim.Name =
      some PXEStateCreated := by
  obtain ⟨w1, t1, r1, hw1, cw1, ht1, pxe, hpxe, hst⟩ := applyPXEConfiguration_success w claim host
  obtain ⟨w2, t2, r2, hw2, cw2, pw2, ht2⟩ := applyDHCPConfiguration_success w1 claim
  obtain ⟨w3, t3, r3, hw3, hpx3, ht3, claim', -, -⟩ := reconcileStatus_success w2 claim
    (by rw [cw2, cw1]; exact hc)
  have hget : w2.getPXE claim.Namespace claim.Name = .ok pxe := by
    simp only [World.getPXE, pw2, hpxe]
  have hne : ¬ pxe.Status.State = PXEStateReady := by rw [hst]; decide
  have hpow : (reconcilePower claim host).interp handle (w2, []) =
      ⟨.ok (), (w3, []), ⟨.getPXE claim.Namespace claim.Name, .ok pxe⟩ :: t3⟩ := by
    have hc' : host.Spec.ClaimRef ≠ none := by rw [hcr]; exact Option.some_ne_none _
    unfold reconcilePower
    rw [if_pos hc', if_pos ⟨hp, hi⟩]
    simp only [interp_call, handle, exec, hget, hne, if_false, r3]
  unfold run reconcile
  simp only [PatchEnsureFinalizerClaim, hfin, if_true, interp_ret, interp_call, handle, exec,
    World.getHost, hh, hcr, Option.any_some, huid, bne_self_eq_false, Bool.false_eq_true, if_false,
    reconcileHost, PatchEnsureFinalizerHost, hhf, interp_bind, r1, r2, reconcileClaimRef,
    reduceCtorEq, hpow]
  refine ⟨trivial, ?_, by rw [hw3, hw2, hw1], ?_⟩
  · simp only [List.mem_cons, List.mem_append]
    rintro e (he | he | he | he | he | he | he)
    · cases he
    · subst he; rfl
    · cases he
    · exact (ht1 e he).1
    · exact (ht2 e he).1
    · subst he; rfl
    · exact (ht3 e he).1
  · simp only [World.pxeState, hpx3, pw2, hpxe, Option.map_some', hst]

theorem C7_power_on_not_issued_witness :
    readyWorld.pxeState "ns" "c1" = some PXEStateReady ∧
    readyWorld.hostClaimRef "h1" = some (some (claimRefOf sampleClaim)) ∧
    sampleClaim.Spec.Power = PowerStateOn ∧ sampleClaim.Spec.IgnitionRef ≠ none ∧
    (run [] (reconcile sampleClaim) readyWorld).value = .ok () ∧
    (∀ e ∈ (run [] (reconcile sampleClaim) readyWorld).trace, e.succeeded = true) ∧
    (run [] (reconcile sampleClaim) readyWorld).state.1.hostPower "h1" = some PowerStateOff ∧
    (run [] (reconcile sampleClaim) readyWorld).state.1.pxeState "ns" "c1" =
      some PXEStateCreated :=
  have h := C7_power_on_not_issued readyWorld sampleClaim sampleHost (claimRefOf sampleClaim)
    (by decide) (by decide) (by decide) (by decide) (by decide) (by decide) (by decide)
    (by decide)
  ⟨by decide, by decide, by decide, by decide, h.1, h.2.1, by decide, h.2.2.2⟩

/-! ### The host reconciler: power state -/

section PowerState
variable {σ : Type} (h : (c : Call) → σ → Except Error (Resp c) × σ)

theorem ensurePowerOff_trace (s : σ) (bmcClient : BMCClient) (host : BareMetalHost)
    (hok : ∀ e ∈ ((ensurePowerOff bmcClient host).interp h s).trace, e.succeeded = true) :
    ((∃ e ∈ ((ensurePowerOff bmcClient host).interp h s).trace, e.call = .bmcPowerOff bmcClient) ↔
      host.Spec.Power = PowerStateOff ∧ host.Status.PowerState = OnPowerState) ∧
    (∀ e ∈ ((ensurePowerOff bmcClient host).interp h s).trace, e.call ≠ .bmcPowerOn bmcClient) ∧
    ∀ e ∈ ((ensurePowerOff bmcClient host).interp h s).trace,
      e.call.isPowerCommand = true → e.call = .bmcPowerOff bmcClient := by
  unfold ensurePowerOff at hok ⊢
  by_cases hc : host.Spec.Power = PowerStateOff ∧ host.Status.PowerState = OnPowerState
  · rw [if_pos hc] at hok ⊢
    rw [interp_call] at hok ⊢
    rcases hr : h (Call.bmcPowerOff bmcClient) s with ⟨_ | _, s1⟩
    · simp [hr, interp_ret, Event.succeeded] at hok
    · simp only [hr, interp_ret, List.mem_singleton]
      refine ⟨⟨fun _ => hc, fun _ => ⟨_, rfl, rfl⟩⟩, ?_, ?_⟩
      · rintro e rfl
        exact Call.noConfusion
      · rintro e rfl _
        rfl
  · rw [if_neg hc]
    simp only [interp_ret, List.not_mem_nil, false_and, exists_false, false_iff, false_implies,
      implies_true, and_true]
    exact hc

theorem ensurePowerOn_trace (s : σ) (bmcClient : BMCClient) (host : BareMetalHost)
    (hok : ∀ e ∈ ((ensurePowerOn bmcClient host).interp h s).trace, e.succeeded = true) :
    ((∃ e ∈ ((ensurePowerOn bmcClient host).interp h s).trace, e.call = .bmcPowerOn bmcClient) ↔
      host.Spec.Power = PowerStateOn ∧ host.Status.PowerState = OffPowerState) ∧
    ((∃ e ∈ ((ensurePowerOn bmcClient host).interp h s).trace, e.call = .bmcPowerOff bmcClient) ↔
      host.Spec.Power = PowerStateOff ∧ host.Status.PowerState = OnPowerState) ∧
    ∀ e ∈ ((ensurePowerOn bmcClient host).interp h s).trace,
      e.call.isPowerCommand = true →
        e.call = .bmcPowerOn bmcClient ∨ e.call = .bmcPowerOff bmcClient := by
  unfold ensurePowerOn at hok ⊢
  by_cases hc : host.Spec.Power = PowerStateOn ∧ host.Status.PowerState = OffPowerState
  · have hoff : ¬ (host.Spec.Power = PowerStateOff ∧ host.Status.PowerState = OnPowerState) := by
      rintro ⟨h1, -⟩
      rw [hc.1] at h1
      exact absurd h1 (by decide)
    rw [if_pos hc] at hok ⊢
    rw [interp_call] at hok ⊢
    rcases hr : h (Call.bmcPowerOn bmcClient) s with ⟨_ | _, s1⟩
    · simp [hr, interp_ret, Event.succeeded] at hok
    · simp only [hr] at hok ⊢
      rw [List.forall_mem_cons] at hok
      obtain ⟨h1, h2, h3⟩ := ensurePowerOff_trace h s1 bmcClient host hok.2
      refine ⟨⟨fun _ => hc, fun _ => ⟨_, List.mem_cons_self _ _, rfl⟩⟩, ?_, ?_⟩
      · constructor
        · rintro ⟨e, he, hce⟩
          rcases List.mem_cons.1 he with rfl | he
          · cases hce
          · exact h1.1 ⟨e, he, hce⟩
        · intro hc'
          exact absurd hc' hoff
      · intro e he hp
        rcases List.mem_cons.1 he with rfl | he
        · exact Or.inl rfl
        · exact Or.inr (h3 e he hp)
  · rw [if_neg hc] at hok ⊢
    obtain ⟨h1, h2, h3⟩ := ensurePowerOff_trace h s bmcClient host hok
    refine ⟨?_, h1, fun e he hp => Or.inr (h3 e he hp)⟩
    constructor
    · rintro ⟨e, he, hce⟩
      exact absurd hce (h2 e he)
    · intro hc'
      exact absurd hc' hc

end PowerState

/-- C8: in a run of `ensurePowerState` (against any environment) in which
every call it issues succeeds, PowerOn is issued iff the desired power is On
and the observed power state is Off, PowerOff is issued iff the desired power
is Off and the observed power state is On, and no other power command is
issued. -/
theorem C8_power_commands {σ : Type} (h : (c : Call) → σ → Except Error (Resp c) × σ) (s : σ)
    (bmcClient : BMCClient) (host : BareMetalHost)
    (hok : ∀ e ∈ ((ensurePowerState bmcClient host).interp h s).trace, e.succeeded = true) :
    ((∃ e ∈ ((ensurePowerState bmcClient host).interp h s).trace,
        e.call = .bmcPowerOn bmcClient) ↔
      host.Spec.Power = PowerStateOn ∧ host.Status.PowerState = OffPowerState) ∧
    ((∃ e ∈ ((ensurePowerState bmcClient host).interp h s).trace,
        e.call = .bmcPowerOff bmcClient) ↔
      host.Spec.Power = PowerStateOff ∧ host.Status.PowerState = OnPowerState) ∧
    ∀ e ∈ ((ensurePowerState bmcClient host).interp h s).trace,
      e.call.isPowerCommand = true →
        e.call = .bmcPowerOn bmcClient ∨ e.call = .bmcPowerOff bmcClient := by
  unfold ensurePowerState at hok ⊢
  by_cases hc : host.Status.State = StateInitial
  · rw [if_pos hc] at hok ⊢
    rw [interp_call] at hok ⊢
    rcases hr : h (Call.bmcSetPXEBootOnce bmcClient host.Spec.SystemID) s with ⟨_ | _, s1⟩
    · simp [hr, interp_ret, Event.succeeded] at hok
    · simp only [hr] at hok ⊢
      rw [List.forall_mem_cons] at hok
      obtain ⟨h1, h2, h3⟩ := ensurePowerOn_trace h s1 bmcClient host hok.2
      refine ⟨⟨?_, fun hc' => ?_⟩, ⟨?_, fun hc' => ?_⟩, ?_⟩
      · rintro ⟨e, he, hce⟩
        rcases List.mem_cons.1 he with rfl | he
        · cases hce
        · exact h1.1 ⟨e, he, hce⟩
      · obtain ⟨e, he, hce⟩ := h1.2 hc'
        exact ⟨e, List.mem_cons_of_mem _ he, hce⟩
      · rintro ⟨e, he, hce⟩
        rcases List.mem_cons.1 he with rfl | he
        · cases hce
        · exact h2.1 ⟨e, he, hce⟩
      · obtain ⟨e, he, hce⟩ := h2.2 hc'
        exact ⟨e, List.mem_cons_of_mem _ he, hce⟩
      · intro e he hp
        rcases List.mem_cons.1 he with rfl | he
        · cases hp
        · exact h3 e he hp
  · rw [if_neg hc] at hok ⊢
    exact ensurePowerOn_trace h s bmcClient host hok

theorem C8_power_commands_witness :
    (∀ e ∈ (run [] (ensurePowerState sampleBMC offHost) bmcWorld).trace, e.succeeded = true) ∧
    (∃ e ∈ (run [] (ensurePowerState sampleBMC offHost) bmcWorld).trace,
      e.call = .bmcPowerOn sampleBMC) ∧
    ¬ ∃ e ∈ (run [] (ensurePowerState sampleBMC offHost) bmcWorld).trace,
      e.call = .bmcPowerOff sampleBMC :=
  have h := C8_power_commands handle (bmcWorld, []) sampleBMC offHost (by decide)
  ⟨by decide, h.1.2 (by decide), fun hoff => absurd (h.2.1.1 hoff) (by decide)⟩

/-! ### Merging the NICs of the system info -/

theorem mergeNIC_nil (n : BMCNetworkInterface) : mergeNIC [] n = [toNetworkInterface n] := rfl

theorem mergeNIC_cons_eq (x : NetworkInterface) (rest : List NetworkInterface)
    (n : BMCNetworkInterface) (h : n.ID = x.ID) :
    mergeNIC (x :: rest) n = toNetworkInterface n :: rest := by
  simp [mergeNIC, updateExistingNIC, h]

theorem mergeNIC_cons_ne (x : NetworkInterface) (rest : List NetworkInterface)
    (n : BMCNetworkInterface) (h : n.ID ≠ x.ID) :
    mergeNIC (x :: rest) n = x :: mergeNIC rest n := by
  simp only [mergeNIC, updateExistingNIC, h, if_false]
  cases updateExistingNIC n rest <;> rfl

theorem mergeNIC_length_le (nics : List NetworkInterface) (n : BMCNetworkInterface) :
    nics.length ≤ (mergeNIC nics n).length := by
  induction nics with
  | nil => simp [mergeNIC_nil]
  | cons x rest ih =>
    by_cases h : n.ID = x.ID
    · simp [mergeNIC_cons_eq _ _ _ h]
    · simpa [mergeNIC_cons_ne _ _ _ h] using ih

/-- One merge keeps the ID at every position of the list. -/
theorem mergeNIC_getElem?_ID (nics : List NetworkInterface) (n : BMCNetworkInterface) (i : Nat)
    (hi : i < nics.length) :
    ((mergeNIC nics n)[i]?).map (fun x => x.ID) = (nics[i]?).map (fun x => x.ID) := by
  induction nics generalizing i with
  | nil => simp at hi
  | cons x rest ih =>
    by_cases h : n.ID = x.ID
    · rw [mergeNIC_cons_eq _ _ _ h]
      cases i with
      | zero => simp [toNetworkInterface, h]
      | succ j => simp
    · rw [mergeNIC_cons_ne _ _ _ h]
      cases i with
      | zero => simp
      | succ j =>
        simp only [List.getElem?_cons_succ]
        exact ih j (by simpa using hi)

/-- One merge leaves an entry with another ID as it is, where it is. -/
theorem mergeNIC_getElem?_other (nics : List NetworkInterface) (n : BMCNetworkInterface) (i : Nat)
    (x : NetworkInterface) (hx : nics[i]? = some x) (hne : n.ID ≠ x.ID) :
    (mergeNIC nics n)[i]? = some x := by
  induction nics generalizing i with
  | nil => simp at hx
  | cons y rest ih =>
    by_cases h : n.ID = y.ID
    · rw [mergeNIC_cons_eq _ _ _ h]
      cases i with
      | zero =>
        simp only [List.getElem?_cons_zero, Option.some.injEq] at hx
        exact absurd (hx ▸ h) hne
      | succ j => simpa using hx
    · rw [mergeNIC_cons_ne _ _ _ h]
      cases i with
      | zero => simpa using hx
      | succ j =>
        simp only [List.getElem?_cons_succ] at hx ⊢
        exact ih j hx

theorem foldl_mergeNIC_length_le (news : List BMCNetworkInterface) (nics : List NetworkInterface) :
    nics.length ≤ (news.foldl mergeNIC nics).length := by
  induction news generalizing nics with
  | nil => exact Nat.le_refl _
  | cons n news ih => exact Nat.le_trans (mergeNIC_length_le nics n) (ih _)

theorem foldl_mergeNIC_getElem?_ID (news : List BMCNetworkInterface)
    (nics : List NetworkInterface) (i : Nat) (hi : i < nics.length) :
    ((news.foldl mergeNIC nics)[i]?).map (fun x => x.ID) = (nics[i]?).map (fun x => x.ID) := by
  induction news generalizing nics with
  | nil => rfl
  | cons n news ih =>
    rw [List.foldl_cons, ih _ (Nat.lt_of_lt_of_le hi (mergeNIC_length_le nics n))]
    exact mergeNIC_getElem?_ID nics n i hi

theorem foldl_mergeNIC_getElem?_other (news : List BMCNetworkInterface)
    (nics : List NetworkInterface) (i : Nat) (x : NetworkInterface) (hx : nics[i]? = some x)
    (hne : ∀ n ∈ news, n.ID ≠ x.ID) : (news.foldl mergeNIC nics)[i]? = some x := by
  induction news generalizing nics with
  | nil => exact hx
  | cons n news ih =>
    rw [List.foldl_cons]
    exact ih _ (mergeNIC_getElem?_other nics n i x hx (hne n (List.mem_cons_self _ _)))
      (fun m hm => hne m (List.mem_cons_of_mem _ hm))

/-- C9: `updateHostNICsFromSystemInfo` deletes nothing and touches only
matching IDs: the merged list is at least as long as the list of the host,
every position of the host list keeps its ID, and an entry whose ID does not
occur among the NICs of the system info stays unchanged at its position; the
rest of the host is untouched. -/
theorem C9_merge_keeps_entries (info : SystemInfo) (host : BareMetalHost) :
    host.Status.NetworkInterfaces.length ≤
        (updateHostNICsFromSystemInfo info host).Status.NetworkInterfaces.length ∧
    (∀ i : Nat, i < host.Status.NetworkInterfaces.length →
      ((updateHostNICsFromSystemInfo info host).Status.NetworkInterfaces[i]?).map (fun x => x.ID) =
        (host.Status.NetworkInterfaces[i]?).map (fun x => x.ID)) ∧
    (∀ (i : Nat) (x : NetworkInterface), host.Status.NetworkInterfaces[i]? = some x →
      (∀ n ∈ info.NetworkInterfaces, n.ID ≠ x.ID) →
      (updateHostNICsFromSystemInfo info host).Status.NetworkInterfaces[i]? = some x) ∧
    (updateHostNICsFromSystemInfo info host).Spec = host.Spec ∧
    (updateHostNICsFromSystemInfo info host).toObjectMeta = host.toObjectMeta :=
  ⟨foldl_mergeNIC_length_le _ _, foldl_mergeNIC_getElem?_ID _ _,
    fun i x hx hne => foldl_mergeNIC_getElem?_other _ _ i x hx hne, rfl, rfl⟩

theorem C9_merge_keeps_entries_witness :
    (updateHostNICsFromSystemInfo nicInfo nicHost).Status.NetworkInterfaces =
      [{ ID := "eth0", MACAddress := "aa:00" }, { ID := "eth1", MACAddress := "bb:01" },
        { ID := "eth2", MACAddress := "bb:02" }] ∧
    (updateHostNICsFromSystemInfo nicInfo nicHost).Status.NetworkInterfaces[0]? =
      some { ID := "eth0", MACAddress := "aa:00" } :=
  ⟨by decide,
    (C9_merge_keeps_entries nicInfo nicHost).2.2.1 0 { ID := "eth0", MACAddress := "aa:00" }
      (by decide) (by decide)⟩
theorem mergeNIC_find? (nics : List NetworkInterface) (n : BMCNetworkInterface) (b : String) :
    (mergeNIC nics n).find? (fun x => x.ID == b) =
      if n.ID = b then some (toNetworkInterface n) else nics.find? (fun x => x.ID == b) := by
  have hconv : (toNetworkInterface n).ID = n.ID := rfl
  induction nics with
  | nil =>
    rw [mergeNIC_nil]
    by_cases hb : n.ID = b
    · rw [if_pos hb, List.find?_cons_of_pos _ (by simp [hconv, hb])]
    · rw [if_neg hb, List.find?_cons_of_neg _ (by simp [hconv, hb])]
  | cons x rest ih =>
    by_cases h : n.ID = x.ID
    · rw [mergeNIC_cons_eq _ _ _ h]
      by_cases hb : n.ID = b
      · rw [if_pos hb, List.find?_cons_of_pos _ (by simp [hconv, hb])]
      · have hxb : ¬ x.ID = b := fun hx => hb (h.trans hx)
        rw [if_neg hb, List.find?_cons_of_neg _ (by simp [hconv, hb]),
          List.find?_cons_of_neg _ (by simp [hxb])]
    · rw [mergeNIC_cons_ne _ _ _ h]
      by_cases hxb : x.ID = b
      · have hb : ¬ n.ID = b := fun hn => h (hn.trans hxb.symm)
        rw [if_neg hb, List.find?_cons_of_pos _ (by simp [hxb]),
          List.find?_cons_of_pos _ (by simp [hxb])]
      · rw [List.find?_cons_of_neg _ (by simp [hxb]), List.find?_cons_of_neg _ (by simp [hxb])]
        exact ih

theorem mergeNIC_of_mem (nics : List NetworkInterface) (n : BMCNetworkInterface)
    (hm : ∃ x ∈ nics, x.ID = n.ID) :
    (mergeNIC nics n).map (fun x => x.ID) = nics.map (fun x => x.ID) := by
  induction nics with
  | nil => simp at hm
  | cons x rest ih =>
    by_cases h : n.ID = x.ID
    · rw [mergeNIC_cons_eq _ _ _ h]
      simp [toNetworkInterface, h]
    · rw [mergeNIC_cons_ne _ _ _ h]
      simp only [List.map_cons, List.cons.injEq, true_and]
      apply ih
      obtain ⟨y, hy, hyn⟩ := hm
      rcases List.mem_cons.1 hy with rfl | hy
      · exact absurd hyn.symm h
      · exact ⟨y, hy, hyn⟩

theorem mergeNIC_of_not_mem (nics : List NetworkInterface) (n : BMCNetworkInterface)
    (hm : ∀ x ∈ nics, x.ID ≠ n.ID) : mergeNIC nics n = nics ++ [toNetworkInterface n] := by
  induction nics with
  | nil => rfl
  | cons x rest ih =>
    have h : n.ID ≠ x.ID := fun h => hm x (List.mem_cons_self _ _) h.symm
    rw [mergeNIC_cons_ne _ _ _ h, ih (fun y hy => hm y (List.mem_cons_of_mem _ hy))]
    rfl

/-- The IDs of the list decide where the first entry with a given ID is. -/
theorem findIdx_ID_congr (l l' : List NetworkInterface) (b : String)
    (h : l.map (fun x => x.ID) = l'.map (fun x => x.ID)) :
    l.findIdx (fun x => x.ID == b) = l'.findIdx (fun x => x.ID == b) := by
  induction l generalizing l' with
  | nil =>
    cases l' with
    | nil => rfl
    | cons y l' => simp at h
  | cons x l ih =>
    cases l' with
    | nil => simp at h
    | cons y l' =>
      simp only [List.map_cons, List.cons.injEq] at h
      simp only [List.findIdx_cons, h.1, ih l' h.2]

theorem foldl_mergeNIC_find?_other (news : List BMCNetworkInterface)
    (nics : List NetworkInterface) (b : String) (hne : ∀ n ∈ news, n.ID ≠ b) :
    (news.foldl mergeNIC nics).find? (fun x => x.ID == b) = nics.find? (fun x => x.ID == b) := by
  induction news generalizing nics with
  | nil => rfl
  | cons n news ih =>
    rw [List.foldl_cons, ih _ (fun m hm => hne m (List.mem_cons_of_mem _ hm)), mergeNIC_find?,
      if_neg (hne n (List.mem_cons_self _ _))]

theorem foldl_mergeNIC_find? (news : List BMCNetworkInterface) (nics : List NetworkInterface)
    (hd : (news.map (fun n => n.ID)).Nodup) (n : BMCNetworkInterface) (hn : n ∈ news) :
    (news.foldl mergeNIC nics).find? (fun x => x.ID == n.ID) = some (toNetworkInterface n) := by
  induction news generalizing nics with
  | nil => simp at hn
  | cons m news ih =>
    simp only [List.map_cons, List.nodup_cons, List.mem_map, not_exists, not_and] at hd
    rw [List.foldl_cons]
    rcases List.mem_cons.1 hn with rfl | hn'
    · rw [foldl_mergeNIC_find?_other _ _ _ (fun k hk => hd.1 k hk), mergeNIC_find?, if_pos rfl]
    · exact ih _ hd.2 hn'

/-- An ID that the host list has stays where it first occurs. -/
theorem foldl_mergeNIC_findIdx (news : List BMCNetworkInterface) (nics : List NetworkInterface)
    (b : String) (hb : ∃ x ∈ nics, x.ID = b) :
    (news.foldl mergeNIC nics).findIdx (fun x => x.ID == b) =
      nics.findIdx (fun x => x.ID == b) := by
  induction news generalizing nics with
  | nil => rfl
  | cons n news ih =>
    rw [List.foldl_cons]
    by_cases hm : ∃ x ∈ nics, x.ID = n.ID
    · have hids := mergeNIC_of_mem nics n hm
      have hb' : ∃ x ∈ mergeNIC nics n, x.ID = b := by
        obtain ⟨x, hx, hxb⟩ := hb
        have : b ∈ (mergeNIC nics n).map (fun x => x.ID) := by
          rw [hids]; exact List.mem_map.2 ⟨x, hx, hxb⟩
        obtain ⟨y, hy, hyb⟩ := List.mem_map.1 this
        exact ⟨y, hy, hyb⟩
      rw [ih _ hb']
      exact findIdx_ID_congr _ _ b hids
    · have hm' : ∀ x ∈ nics, x.ID ≠ n.ID := fun x hx hxn => hm ⟨x, hx, hxn⟩
      have happ := mergeNIC_of_not_mem nics n hm'
      have hb' : ∃ x ∈ mergeNIC nics n, x.ID = b := by
        obtain ⟨x, hx, hxb⟩ := hb
        exact ⟨x, by rw [happ]; exact List.mem_append_left _ hx, hxb⟩
      rw [ih _ hb', happ, List.findIdx_append]
      have hlt : nics.findIdx (fun x => x.ID == b) < nics.length := by
        obtain ⟨x, hx, hxb⟩ := hb
        exact List.findIdx_lt_length_of_exists ⟨x, hx, by simp [hxb]⟩
      rw [if_pos hlt]

theorem any_ID_congr (l l' : List NetworkInterface) (b : String)
    (h : l.map (fun x => x.ID) = l'.map (fun x => x.ID)) :
    (l.any fun x => x.ID == b) = (l'.any fun x => x.ID == b) := by
  have e : ∀ k : List NetworkInterface,
      (k.any fun x => x.ID == b) = ((k.map fun x => x.ID).any fun i => i == b) := by
    intro k
    induction k with
    | nil => rfl
    | cons x k ih => simp only [List.any_cons, List.map_cons, ih]
  rw [e l, e l', h]

/-- What the merge appends after the entries of the host list: the NICs whose
ID the host list does not have, in the order of the system info. -/
theorem foldl_mergeNIC_drop (news : List BMCNetworkInterface) (nics : List NetworkInterface)
    (hd : (news.map (fun n => n.ID)).Nodup) :
    (news.foldl mergeNIC nics).drop nics.length =
      (news.filter fun n => !(nics.any fun x => x.ID == n.ID)).map toNetworkInterface := by
  induction news generalizing nics with
  | nil => simp
  | cons m news ih =>
    simp only [List.map_cons, List.nodup_cons, List.mem_map, not_exists, not_and] at hd
    rw [List.foldl_cons]
    by_cases hm : ∃ x ∈ nics, x.ID = m.ID
    · have hids := mergeNIC_of_mem nics m hm
      have hlen : (mergeNIC nics m).length = nics.length := by
        simpa using congrArg List.length hids
      have hany : (nics.any fun x => x.ID == m.ID) = true := by
        obtain ⟨x, hx, hxm⟩ := hm
        exact List.any_eq_true.2 ⟨x, hx, by simp [hxm]⟩
      rw [List.filter_cons_of_neg (by simp [hany]), ← hlen, ih _ hd.2]
      congr 1
      apply List.filter_congr
      intro k _
      rw [any_ID_congr _ _ k.ID hids]
    · have hm' : ∀ x ∈ nics, x.ID ≠ m.ID := fun x hx hxn => hm ⟨x, hx, hxn⟩
      have happ := mergeNIC_of_not_mem nics m hm'
      have hany : (nics.any fun x => x.ID == m.ID) = false := by
        rw [Bool.eq_false_iff]
        intro h
        obtain ⟨x, hx, hxm⟩ := List.any_eq_true.1 h
        exact hm' x hx (by simpa using hxm)
      have hget : (news.foldl mergeNIC (mergeNIC nics m))[nics.length]? =
          some (toNetworkInterface m) := by
        apply foldl_mergeNIC_getElem?_other
        · rw [happ]; exact List.getElem?_concat_length _ _
        · intro k hk hkm
          exact hd.1 k hk hkm
      obtain ⟨hlt, hval⟩ := List.getElem?_eq_some_iff.1 hget
      rw [List.filter_cons_of_pos (by simp [hany]), List.map_cons, List.drop_eq_getElem_cons hlt,
        hval]
      congr 1
      have hlen : (mergeNIC nics m).length = nics.length + 1 := by simp [happ]
      rw [← hlen, ih _ hd.2]
      congr 1
      apply List.filter_congr
      intro k hk
      have hkm : ¬ m.ID = k.ID := fun h => hd.1 k hk h.symm
      simp [happ, toNetworkInterface, hkm]

/-- C10: when the NICs of the system info have pairwise distinct IDs, each of
them is represented after the merge: the first entry with its ID carries its
MAC addresses; it sits where the host list first had that ID, if it had it;
and the entries after those of the host list are the NICs whose ID the host
list did not have, in the order of the system info. -/
theorem C10_merge_represents_info (info : SystemInfo) (host : BareMetalHost)
    (hd : (info.NetworkInterfaces.map (fun n => n.ID)).Nodup) :
    (∀ n ∈ info.NetworkInterfaces,
      (updateHostNICsFromSystemInfo info host).Status.NetworkInterfaces.find?
          (fun x => x.ID == n.ID) =
        some { ID := n.ID, MACAddress := n.MACAddress,
               PermanentMACAddress := n.PermanentMACAddress }) ∧
    (∀ n ∈ info.NetworkInterfaces, (∃ x ∈ host.Status.NetworkInterfaces, x.ID = n.ID) →
      (updateHostNICsFromSystemInfo info host).Status.NetworkInterfaces.findIdx
          (fun x => x.ID == n.ID) =
        host.Status.NetworkInterfaces.findIdx (fun x => x.ID == n.ID)) ∧
    (updateHostNICsFromSystemInfo info host).Status.NetworkInterfaces.drop
        host.Status.NetworkInterfaces.length =
      (info.NetworkInterfaces.filter fun n =>
        !(host.Status.NetworkInterfaces.any fun x => x.ID == n.ID)).map
        fun n => { ID := n.ID, MACAddress := n.MACAddress,
                   PermanentMACAddress := n.PermanentMACAddress } :=
  ⟨fun n hn => foldl_mergeNIC_find? _ _ hd n hn,
    fun n _ hx => foldl_mergeNIC_findIdx _ _ n.ID hx,
    foldl_mergeNIC_drop _ _ hd⟩

theorem C10_merge_represents_info_witness :
    (nicInfo.NetworkInterfaces.map (fun n => n.ID)).Nodup ∧
    (updateHostNICsFromSystemInfo nicInfo nicHost).Status.NetworkInterfaces.find?
        (fun x => x.ID == "eth1") = some { ID := "eth1", MACAddress := "bb:01" } ∧
    (updateHostNICsFromSystemInfo nicInfo nicHost).Status.NetworkInterfaces.findIdx
        (fun x => x.ID == "eth1") = 1 ∧
    (updateHostNICsFromSystemInfo nicInfo nicHost).Status.NetworkInterfaces.drop 2 =
      [{ ID := "eth2", MACAddress := "bb:02" }] :=
  have h := C10_merge_represents_info nicInfo nicHost (by decide)
  ⟨by decide, h.1 { ID := "eth1", MACAddress := "bb:01" } (by decide),
    (h.2.1 { ID := "eth1", MACAddress := "bb:01" } (by decide) (by decide)).trans (by decide),
    h.2.2.trans (by decide)⟩

/-! ## C11: the target state of a host -/

/-- C11: `determineTargetHostStatus` maps the current state Initial to
Available when the readiness check passes and to Initial when it does not,
Available to Available, and Tainted to Initial; the readiness check of the
source always passes, so with it Initial is mapped to Available. -/
theorem C11_target_state (isHostReady : BareMetalHost → Bool) (host : BareMetalHost) :
    (host.Status.State = StateInitial →
      (isHostReady host = true →
        BareMetalHostReconciler.determineTargetHostStatusWith isHostReady host = StateAvailable) ∧
      (isHostReady host = false →
        BareMetalHostReconciler.determineTargetHostStatusWith isHostReady host = StateInitial) ∧
      BareMetalHostReconciler.determineTargetHostStatus host = StateAvailable) ∧
    (host.Status.State = StateAvailable →
      BareMetalHostReconciler.determineTargetHostStatusWith isHostReady host = StateAvailable ∧
      BareMetalHostReconciler.determineTargetHostStatus host = StateAvailable) ∧
    (host.Status.State = StateTainted →
      BareMetalHostReconciler.determineTargetHostStatusWith isHostReady host = StateInitial ∧
      BareMetalHostReconciler.determineTargetHostStatus host = StateInitial) := by
  refine ⟨fun h => ⟨fun hr => ?_, fun hr => ?_, ?_⟩, fun h => ⟨?_, ?_⟩, fun h => ⟨?_, ?_⟩⟩
  · simp [BareMetalHostReconciler.determineTargetHostStatusWith, h, hr]
  · simp [BareMetalHostReconciler.determineTargetHostStatusWith, h, hr]
  · simp [BareMetalHostReconciler.determineTargetHostStatus,
      BareMetalHostReconciler.determineTargetHostStatusWith, h,
      BareMetalHostReconciler.isHostReady]
  · simp [BareMetalHostReconciler.determineTargetHostStatusWith, h, StateAvailable, StateInitial]
  · simp [BareMetalHostReconciler.determineTargetHostStatus,
      BareMetalHostReconciler.determineTargetHostStatusWith, h, StateAvailable, StateInitial]
  · simp [BareMetalHostReconciler.determineTargetHostStatusWith, h, StateAvailable, StateInitial,
      StateTainted]
  · simp [BareMetalHostReconciler.determineTargetHostStatus,
      BareMetalHostReconciler.determineTargetHostStatusWith, h, StateAvailable, StateInitial,
      StateTainted]

/-- C11 at three hosts: an Initial host under a failing readiness check stays
Initial, an Available host stays Available, a Tainted host goes to Initial. -/
theorem C11_target_state_witness :
    BareMetalHostReconciler.determineTargetHostStatusWith (fun _ => false)
        { freeHost with Status := { freeHost.Status with State := StateInitial } } = StateInitial ∧
    BareMetalHostReconciler.determineTargetHostStatus
        { freeHost with Status := { freeHost.Status with State := StateInitial } } = StateAvailable ∧
    BareMetalHostReconciler.determineTargetHostStatus freeHost = StateAvailable ∧
    BareMetalHostReconciler.determineTargetHostStatus
        { freeHost with Status := { freeHost.Status with State := StateTainted } } = StateInitial :=
  ⟨((C11_target_state (fun _ => false) _).1 rfl).2.1 rfl,
   ((C11_target_state (fun _ => false) _).1 rfl).2.2,
   ((C11_target_state (fun _ => false) freeHost).2.1 rfl).2,
   ((C11_target_state (fun _ => false) _).2.2 rfl).2⟩

/-! ## C12: a claimed host is Reserved -/

section HostStatus

theorem mergeHostStatus_self (a b : BareMetalHostStatus) : mergeHostStatus a b a = b := by
  cases b; simp [mergeHostStatus, pick_self]

theorem mergeHostSpec_self (a b : BareMetalHostSpec) : mergeHostSpec a b a = b := by
  cases b; simp [mergeHostSpec, pick_self]

theorem targetStatus_Name (host : BareMetalHost) (t : HostState) :
    (BareMetalHostReconciler.targetStatus host t).Name = host.Name := by
  unfold BareMetalHostReconciler.targetStatus
  by_cases h : host.Spec.ClaimRef = none <;> simp [h]

theorem targetStatus_ResourceVersion (host : BareMetalHost) (t : HostState) :
    (BareMetalHostReconciler.targetStatus host t).ResourceVersion = host.ResourceVersion := by
  unfold BareMetalHostReconciler.targetStatus
  by_cases h : host.Spec.ClaimRef = none <;> simp [h]

theorem targetStatus_Spec (host : BareMetalHost) (t : HostState) :
    (BareMetalHostReconciler.targetStatus host t).Spec = host.Spec := by
  unfold BareMetalHostReconciler.targetStatus
  by_cases h : host.Spec.ClaimRef = none <;> simp [h]

/-- The status of a host in memory with a claim reference: Reserved and Bound. -/
theorem targetStatus_bound (host : BareMetalHost) (t : HostState)
    (h : host.Spec.ClaimRef ≠ none) :
    (BareMetalHostReconciler.targetStatus host t).Status.State = StateReserved ∧
      (BareMetalHostReconciler.targetStatus host t).Status.Phase = PhaseBound := by
  unfold BareMetalHostReconciler.targetStatus
  simp [h]

/-- The status of a host in memory without claim reference: the target state
and Unbound. -/
theorem targetStatus_unbound (host : BareMetalHost) (t : HostState)
    (h : host.Spec.ClaimRef = none) :
    (BareMetalHostReconciler.targetStatus host t).Status.State = t ∧
      (BareMetalHostReconciler.targetStatus host t).Status.Phase = PhaseUnbound := by
  unfold BareMetalHostReconciler.targetStatus
  simp [h]

/-- A call that the environment of a run answered with success was answered
by the collaborator. -/
theorem handle_ok (c : Call) (w : World) (faults : List Bool) (r : Resp c)
    (h : (handle c (w, faults)).1 = .ok r) :
    handle c (w, faults) = (.ok r, ((exec c w).2, faults.tail)) ∧ (exec c w).1 = .ok r := by
  rcases handle_cases c w faults with hh | hh
  · rw [hh] at h; cases h
  · rw [hh] at h ⊢; simp only at h; exact ⟨by rw [h], h⟩

variable {σ : Type} (h : (c : Call) → σ → Except Error (Resp c) × σ)

/-- Every status patch `ensureHostStatus` issues carries the status computed by
lines 194-203 from the host in memory. -/
theorem ensureHostStatus_patches (s : σ) (host : BareMetalHost) :
    ∀ e ∈ ((BareMetalHostReconciler.ensureHostStatus host).interp h s).trace,
      ∀ base modified, e.call = .patchHostStatus base modified →
        ∃ t, modified = BareMetalHostReconciler.targetStatus base t := by
  have hp : ∀ (s : σ) (host : BareMetalHost) (t : HostState),
      ∀ e ∈ ((BareMetalHostReconciler.patchTargetStatus host t).interp h s).trace,
        ∀ base modified, e.call = .patchHostStatus base modified →
          ∃ t, modified = BareMetalHostReconciler.targetStatus base t := by
    intro s host t
    unfold BareMetalHostReconciler.patchTargetStatus
    rw [forall_trace_call]
    refine ⟨?_, ?_⟩
    · intro base modified he
      simp only [Call.patchHostStatus.injEq] at he
      exact ⟨t, by rw [← he.1, ← he.2]⟩
    · cases (h _ s).1 <;> simp [Prog.interp]
  unfold BareMetalHostReconciler.ensureHostStatus
  simp only
  split
  · rw [forall_trace_bind]
    refine ⟨?_, ?_⟩
    · unfold BareMetalHostReconciler.initializeHost
      simp only
      rw [forall_trace_call]
      refine ⟨?_, ?_⟩
      · intro base modified he; cases he
      · cases (h _ s).1 <;> simp [Prog.interp]
    · cases ((BareMetalHostReconciler.initializeHost host _).interp h s).value with
      | error err => simp [Prog.interp]
      | ok host1 => exact hp _ _ _
  · exact hp _ _ _

end HostStatus
section HostStatusStore

/-- The status patch of `ensureHostStatus` on a world that stores the host as
the reconciler holds it: when it returns success, the store holds the host with
the computed status and the spec unchanged, and no other host changed. -/
theorem patchTargetStatus_ok (w : World) (faults : List Bool) (host : BareMetalHost)
    (t : HostState) (v : HostState × HostState) (hs : w.hosts host.Name = some host)
    (hok : ((BareMetalHostReconciler.patchTargetStatus host t).interp handle (w, faults)).value =
      .ok v) :
    ∃ host',
      ((BareMetalHostReconciler.patchTargetStatus host t).interp handle (w, faults)).state.1.hosts =
        Function.update w.hosts host.Name (some host') ∧
      host'.Name = host.Name ∧ host'.Spec = host.Spec ∧
      host'.Status = (BareMetalHostReconciler.targetStatus host t).Status := by
  have hs' : w.hosts (BareMetalHostReconciler.targetStatus host t).Name = some host := by
    rw [targetStatus_Name]; exact hs
  obtain ⟨new, e1, n1, sp1, st1, -⟩ := patchHostStatus_ok w host
    (BareMetalHostReconciler.targetStatus host t) host hs'
    (by rw [targetStatus_ResourceVersion]; exact versionOk_unchanged _ _)
  have ee : exec (.patchHostStatus host (BareMetalHostReconciler.targetStatus host t)) w =
      w.patchHostStatus host (BareMetalHostReconciler.targetStatus host t) := rfl
  unfold BareMetalHostReconciler.patchTargetStatus at hok ⊢
  simp only [interp_call] at hok ⊢
  rcases handle_cases (.patchHostStatus host (BareMetalHostReconciler.targetStatus host t)) w
    faults with hh | hh
  · rw [hh] at hok; simp [interp_ret] at hok
  · rw [hh, ee, e1]
    simp only [interp_ret]
    refine ⟨new, ?_, n1, sp1, ?_⟩
    · rw [targetStatus_Name]
    · rw [st1, mergeHostStatus_self]

/-- The patch of `initializeHost` on a world that stores the host as the
reconciler holds it: when it returns success, the store and the reconciler
hold the host with the desired power forced to Off if the host is unclaimed
and the state is Initial, and otherwise unchanged. -/
theorem initializeHost_ok (w : World) (faults : List Bool) (host host1 : BareMetalHost)
    (state : HostState) (hs : w.hosts host.Name = some host)
    (hok : ((BareMetalHostReconciler.initializeHost host state).interp handle (w, faults)).value =
      .ok host1) :
    ((BareMetalHostReconciler.initializeHost host state).interp handle (w, faults)).state.1.hosts =
        Function.update w.hosts host.Name (some host1) ∧
      host1.Name = host.Name ∧ host1.Status = host.Status ∧
      host1.Spec.ClaimRef = host.Spec.ClaimRef ∧
      host1.Spec.Power =
        if host.Spec.ClaimRef = none ∧ state = StateInitial then PowerStateOff
        else host.Spec.Power := by
  unfold BareMetalHostReconciler.initializeHost at hok ⊢
  simp only [interp_call] at hok ⊢
  generalize hm : (if host.Spec.ClaimRef = none ∧ state = StateInitial then
      ({ host with Spec := { host.Spec with Power := PowerStateOff } } : BareMetalHost)
    else host) = modified at hok ⊢
  have hname : modified.Name = host.Name := by subst hm; split <;> rfl
  have hrv : modified.ResourceVersion = host.ResourceVersion := by subst hm; split <;> rfl
  have hcr : modified.Spec.ClaimRef = host.Spec.ClaimRef := by subst hm; split <;> rfl
  have hpw : modified.Spec.Power =
      if host.Spec.ClaimRef = none ∧ state = StateInitial then PowerStateOff
      else host.Spec.Power := by subst hm; split <;> rfl
  obtain ⟨new, e1, n1, sp1, st1, -⟩ := patchHost_ok w host modified host false
    (by rw [hname]; exact hs) (by rw [hrv]; exact versionOk_unchanged _ _)
  have ee : exec (.patchHost host modified false) w = w.patchHost host modified false := rfl
  rcases handle_cases (.patchHost host modified false) w faults with hh | hh
  · rw [hh] at hok; simp [interp_ret] at hok
  · rw [hh, ee, e1] at hok ⊢
    simp only [interp_ret] at hok ⊢
    cases hok
    rw [mergeHostSpec_self] at sp1
    refine ⟨by rw [hname], n1, st1, ?_, ?_⟩
    · rw [sp1, hcr]
    · rw [sp1, hpw]

/-- The method `ensureHostStatus` on a world that stores the host as the
reconciler holds it: when it returns success, the store holds the host with
its claim reference unchanged; a claimed host is Reserved and Bound; an
unclaimed host is at the target state and Unbound; the desired power is forced
to Off if the host is unclaimed and the target state is Initial, and otherwise
unchanged; no other host changed. -/
theorem ensureHostStatus_ok (w : World) (faults : List Bool) (host : BareMetalHost)
    (v : HostState × HostState) (hs : w.hosts host.Name = some host)
    (hok : ((BareMetalHostReconciler.ensureHostStatus host).interp handle (w, faults)).value =
      .ok v) :
    ∃ host',
      ((BareMetalHostReconciler.ensureHostStatus host).interp handle (w, faults)).state.1.hosts =
        Function.update w.hosts host.Name (some host') ∧
      host'.Name = host.Name ∧ host'.Spec.ClaimRef = host.Spec.ClaimRef ∧
      (host.Spec.ClaimRef ≠ none →
        host'.Status.State = StateReserved ∧ host'.Status.Phase = PhaseBound) ∧
      (host.Spec.ClaimRef = none →
        host'.Status.State = BareMetalHostReconciler.determineTargetHostStatus host ∧
        host'.Status.Phase = PhaseUnbound) ∧
      host'.Spec.Power =
        if host.Spec.ClaimRef = none ∧
            BareMetalHostReconciler.determineTargetHostStatus host = StateInitial
        then PowerStateOff else host.Spec.Power := by
  unfold BareMetalHostReconciler.ensureHostStatus at hok ⊢
  simp only at hok ⊢
  by_cases ht : BareMetalHostReconciler.determineTargetHostStatus host = StateInitial
  · rw [if_pos ht] at hok ⊢
    rw [interp_bind] at hok ⊢
    simp only at hok ⊢
    have hi := fun host1 => initializeHost_ok w faults host host1
      (BareMetalHostReconciler.determineTargetHostStatus host) hs
    generalize (BareMetalHostReconciler.initializeHost host
      (BareMetalHostReconciler.determineTargetHostStatus host)).interp handle (w, faults) = o
      at hok hi ⊢
    rcases o with ⟨r1, ⟨w1, f1⟩, t1⟩
    rcases r1 with err | host1
    · simp [interp_ret] at hok
    · obtain ⟨hw1, n1, st1, cr1, pw1⟩ := hi host1 rfl
      simp only at hw1 hok ⊢
      have hs1 : w1.hosts host1.Name = some host1 := by
        rw [hw1, n1, Function.update_same]
      obtain ⟨host', hw', n', sp', st'⟩ := patchTargetStatus_ok w1 f1 host1 _ v hs1 hok
      refine ⟨host', ?_, by rw [n', n1], by rw [sp', cr1], ?_, ?_, ?_⟩
      · rw [hw', hw1, n1, Function.update_idem]
      · intro hc
        rw [st']
        exact targetStatus_bound _ _ (by rw [cr1]; exact hc)
      · intro hc
        rw [st']
        exact targetStatus_unbound _ _ (by rw [cr1]; exact hc)
      · rw [sp', pw1]
  · rw [if_neg ht] at hok ⊢
    obtain ⟨host', hw', n', sp', st'⟩ := patchTargetStatus_ok w faults host _ v hs hok
    refine ⟨host', hw', n', by rw [sp'], ?_, ?_, ?_⟩
    · intro hc
      rw [st']
      exact targetStatus_bound _ _ hc
    · intro hc
      rw [st']
      exact targetStatus_unbound _ _ hc
    · rw [sp', if_neg (fun hh => ht hh.2)]

end HostStatusStore
/-- C12: for every host with a claim reference, whatever its current state,
the status patched by `ensureHostStatus` has state Reserved, overriding the
target of `determineTargetHostStatus`: against any environment every status
patch computed from a host in memory that has a claim reference carries state
Reserved; and on a world that stores the host, a run that returns success
leaves the stored host at state Reserved with its claim reference unchanged. -/
theorem C12_claimed_host_reserved {σ : Type} (h : (c : Call) → σ → Except Error (Resp c) × σ)
    (s : σ) (w : World) (faults : List Bool) (host : BareMetalHost) (v : HostState × HostState)
    (hcr : host.Spec.ClaimRef ≠ none) :
    (∀ e ∈ ((BareMetalHostReconciler.ensureHostStatus host).interp h s).trace,
      ∀ base modified, e.call = .patchHostStatus base modified →
        base.Spec.ClaimRef ≠ none → modified.Status.State = StateReserved) ∧
    (w.hosts host.Name = some host →
      (run faults (BareMetalHostReconciler.ensureHostStatus host) w).value = .ok v →
      ∃ host', (run faults (BareMetalHostReconciler.ensureHostStatus host) w).state.1.hosts
          host.Name = some host' ∧
        host'.Status.State = StateReserved ∧ host'.Spec.ClaimRef = host.Spec.ClaimRef) := by
  refine ⟨?_, ?_⟩
  · intro e he base modified hc hb
    obtain ⟨t, rfl⟩ := ensureHostStatus_patches h s host e he base modified hc
    exact (targetStatus_bound base t hb).1
  · intro hs hok
    obtain ⟨host', hw, -, cr, hb, -, -⟩ := ensureHostStatus_ok w faults host v hs hok
    refine ⟨host', ?_, (hb hcr).1, cr⟩
    show (Prog.interp handle _ _).state.1.hosts host.Name = some host'
    rw [hw, Function.update_same]

/-- C12 at the host `h1` right after a claim was bound to it (state Available,
target Available): the stored host ends at Reserved. -/
theorem C12_claimed_host_reserved_witness :
    boundHost.Spec.ClaimRef ≠ none ∧ boundHost.Status.State = StateAvailable ∧
    (run [] (BareMetalHostReconciler.ensureHostStatus boundHost) boundWorld).value =
      .ok (StateInitial, StateInitial) ∧
    ∃ host', (run [] (BareMetalHostReconciler.ensureHostStatus boundHost) boundWorld).state.1.hosts
        "h1" = some host' ∧
      host'.Status.State = StateReserved ∧
      host'.Spec.ClaimRef = boundHost.Spec.ClaimRef :=
  ⟨by decide, by decide, rfl,
    (C12_claimed_host_reserved handle (boundWorld, []) boundWorld [] boundHost
      (StateInitial, StateInitial) (by decide)).2 (by decide) rfl⟩

/-! ## C15: PXE boot once only at state Initial -/

section PXEBootOnce
variable {σ : Type} (h : (c : Call) → σ → Except Error (Resp c) × σ)

theorem ensurePowerOff_no_pxeBoot (s : σ) (bmcClient : BMCClient) (host : BareMetalHost) :
    ∀ e ∈ ((ensurePowerOff bmcClient host).interp h s).trace,
      e.call.isSetPXEBootOnce = false := by
  unfold ensurePowerOff
  split
  · rw [forall_trace_call]
    refine ⟨rfl, ?_⟩
    cases (h _ s).1 <;> simp [Prog.interp]
  · simp [Prog.interp]

theorem ensurePowerOn_no_pxeBoot (s : σ) (bmcClient : BMCClient) (host : BareMetalHost) :
    ∀ e ∈ ((ensurePowerOn bmcClient host).interp h s).trace,
      e.call.isSetPXEBootOnce = false := by
  unfold ensurePowerOn
  split
  · rw [forall_trace_call]
    refine ⟨rfl, ?_⟩
    cases (h _ s).1
    · simp [Prog.interp]
    · exact ensurePowerOff_no_pxeBoot h _ bmcClient host
  · exact ensurePowerOff_no_pxeBoot h _ bmcClient host

theorem countP_eq_zero_of_forall (l : List Event) (p : Event → Bool)
    (hl : ∀ e ∈ l, p e = false) : l.countP p = 0 := by
  rw [List.countP_eq_zero]
  intro e he
  rw [hl e he]
  exact Bool.false_ne_true

end PXEBootOnce

/-- C15: against any environment, `ensurePowerState` issues `SetPXEBootOnce`
with the system ID of the host iff the state of the host is Initial; every
`SetPXEBootOnce` it issues is that one, and it issues at most one per
invocation; in every other state it issues none. -/
theorem C15_pxe_boot_once {σ : Type} (h : (c : Call) → σ → Except Error (Resp c) × σ) (s : σ)
    (bmcClient : BMCClient) (host : BareMetalHost) :
    ((∃ e ∈ ((ensurePowerState bmcClient host).interp h s).trace,
        e.call = .bmcSetPXEBootOnce bmcClient host.Spec.SystemID) ↔
      host.Status.State = StateInitial) ∧
    (∀ e ∈ ((ensurePowerState bmcClient host).interp h s).trace,
      e.call.isSetPXEBootOnce = true →
        e.call = .bmcSetPXEBootOnce bmcClient host.Spec.SystemID) ∧
    ((ensurePowerState bmcClient host).interp h s).trace.countP
      (fun e => e.call.isSetPXEBootOnce) ≤ 1 ∧
    (host.Status.State ≠ StateInitial →
      ((ensurePowerState bmcClient host).interp h s).trace.countP
        (fun e => e.call.isSetPXEBootOnce) = 0) := by
  unfold ensurePowerState
  by_cases hc : host.Status.State = StateInitial
  · rw [if_pos hc, interp_call]
    have key : ∀ t : List Event, (∀ e ∈ t, e.call.isSetPXEBootOnce = false) →
        ∀ r : Except Error Unit,
        ((∃ e ∈ (⟨.bmcSetPXEBootOnce bmcClient host.Spec.SystemID, r⟩ : Event) :: t,
            e.call = .bmcSetPXEBootOnce bmcClient host.Spec.SystemID) ↔
          host.Status.State = StateInitial) ∧
        (∀ e ∈ (⟨.bmcSetPXEBootOnce bmcClient host.Spec.SystemID, r⟩ : Event) :: t,
          e.call.isSetPXEBootOnce = true →
            e.call = .bmcSetPXEBootOnce bmcClient host.Spec.SystemID) ∧
        ((⟨.bmcSetPXEBootOnce bmcClient host.Spec.SystemID, r⟩ : Event) :: t).countP
          (fun e => e.call.isSetPXEBootOnce) ≤ 1 ∧
        (host.Status.State ≠ StateInitial →
          ((⟨.bmcSetPXEBootOnce bmcClient host.Spec.SystemID, r⟩ : Event) :: t).countP
            (fun e => e.call.isSetPXEBootOnce) = 0) := by
      intro t hrest r
      refine ⟨⟨fun _ => hc, fun _ => ⟨_, List.mem_cons_self _ _, rfl⟩⟩, ?_, ?_,
        fun hn => absurd hc hn⟩
      · intro e he hp
        rcases List.mem_cons.1 he with rfl | he
        · rfl
        · rw [hrest e he] at hp; cases hp
      · rw [List.countP_cons, countP_eq_zero_of_forall _ _ hrest]
        simp [Call.isSetPXEBootOnce]
    rcases hr : h (Call.bmcSetPXEBootOnce bmcClient host.Spec.SystemID) s with ⟨r | r, s1⟩
    · exact key _ (by simp [interp_ret]) _
    · exact key _ (ensurePowerOn_no_pxeBoot h s1 bmcClient host) _
  · rw [if_neg hc]
    have hrest := ensurePowerOn_no_pxeBoot h s bmcClient host
    refine ⟨⟨?_, fun hc' => absurd hc' hc⟩, ?_, ?_, fun _ => countP_eq_zero_of_forall _ _ hrest⟩
    · rintro ⟨e, he, hce⟩
      have := hrest e he
      rw [hce] at this
      cases this
    · intro e he hp
      rw [hrest e he] at hp; cases hp
    · rw [countP_eq_zero_of_forall _ _ hrest]
      exact Nat.zero_le _

/-- C15 at two hosts on a world with a BMC endpoint: the Initial host gets
`SetPXEBootOnce`, the Available host gets none. -/
theorem C15_pxe_boot_once_witness :
    initialHost.Status.State = StateInitial ∧ offHost.Status.State ≠ StateInitial ∧
    (∃ e ∈ (run [] (ensurePowerState sampleBMC initialHost) bmcWorld).trace,
      e.call = .bmcSetPXEBootOnce sampleBMC "sys-1") ∧
    (run [] (ensurePowerState sampleBMC offHost) bmcWorld).trace.countP
      (fun e => e.call.isSetPXEBootOnce) = 0 :=
  ⟨by decide, by decide,
    (C15_pxe_boot_once handle (bmcWorld, []) sampleBMC initialHost).1.2 (by decide),
    (C15_pxe_boot_once handle (bmcWorld, []) sampleBMC offHost).2.2.2 (by decide)⟩

/-! ## C16: an unknown BMC type -/

/-- C16: for a host whose BMC type is neither Redfish nor RedfishLocal,
against any environment, `createBMCClient` returns the error that the type is
not supported, and the host reconcile returns that error (wrapped) without
having issued any call: no BMC command, no store write, the state of the
environment is untouched. -/
theorem C16_unknown_bmc_type {σ : Type} (h : (c : Call) → σ → Except Error (Resp c) × σ) (s : σ)
    (basicAuth : Bool) (host : BareMetalHost)
    (h1 : host.Spec.BMC.Typ ≠ BMCTypeRedfish) (h2 : host.Spec.BMC.Typ ≠ BMCTypeRedfishLocal) :
    (BareMetalHostReconciler.createBMCClient basicAuth host).interp h s =
      ⟨.error (.msg ("BMC type " ++ host.Spec.BMC.Typ ++ " is not supported")), s, []⟩ ∧
    (BareMetalHostReconciler.reconcile basicAuth host).interp h s =
      ⟨.error (.wrap "failed to create BMC client"
        (.msg ("BMC type " ++ host.Spec.BMC.Typ ++ " is not supported"))), s, []⟩ := by
  have hc : (BareMetalHostReconciler.createBMCClient basicAuth host).interp h s =
      ⟨.error (.msg ("BMC type " ++ host.Spec.BMC.Typ ++ " is not supported")), s, []⟩ := by
    unfold BareMetalHostReconciler.createBMCClient
    rw [if_neg h2, if_neg h1, interp_ret]
  refine ⟨hc, ?_⟩
  unfold BareMetalHostReconciler.reconcile
  rw [interp_bind, hc]
  simp only [interp_ret, List.append_nil]

/-- C16 at a host with BMC type `IPMI` on the sample world: the reconcile fails
with the error of `createBMCClient` and an empty trace. -/
theorem C16_unknown_bmc_type_witness :
    (run [] (BareMetalHostReconciler.reconcile false
      { initialHost with Spec := { initialHost.Spec with BMC := { Typ := "IPMI" } } })
      initialWorld).value =
      .error (.wrap "failed to create BMC client" (.msg "BMC type IPMI is not supported")) ∧
    (run [] (BareMetalHostReconciler.reconcile false
      { initialHost with Spec := { initialHost.Spec with BMC := { Typ := "IPMI" } } })
      initialWorld).trace = [] :=
  have h := (C16_unknown_bmc_type handle (initialWorld, []) false
    { initialHost with Spec := { initialHost.Spec with BMC := { Typ := "IPMI" } } }
    (by decide) (by decide)).2
  ⟨congrArg Outcome.value h, congrArg Outcome.trace h⟩

/-! ## The successful host reconcile -/

section HostReconcileCalls
variable {σ : Type} (h : (c : Call) → σ → Except Error (Resp c) × σ)

theorem ensurePowerState_no_host_write (s : σ) (bmcClient : BMCClient) (host : BareMetalHost) :
    ∀ e ∈ ((ensurePowerState bmcClient host).interp h s).trace,
      e.call.touchesHosts = false := by
  have hoff : ∀ s : σ, ∀ e ∈ ((ensurePowerOff bmcClient host).interp h s).trace,
      e.call.touchesHosts = false := by
    intro s
    unfold ensurePowerOff
    split
    · rw [forall_trace_call]
      refine ⟨rfl, ?_⟩
      cases (h _ s).1 <;> simp [Prog.interp]
    · simp [Prog.interp]
  have hon : ∀ s : σ, ∀ e ∈ ((ensurePowerOn bmcClient host).interp h s).trace,
      e.call.touchesHosts = false := by
    intro s
    unfold ensurePowerOn
    split
    · rw [forall_trace_call]
      refine ⟨rfl, ?_⟩
      cases (h _ s).1
      · simp [Prog.interp]
      · exact hoff _
    · exact hoff _
  unfold ensurePowerState
  split
  · rw [forall_trace_call]
    refine ⟨rfl, ?_⟩
    cases (h _ s).1
    · simp [Prog.interp]
    · exact hon _
  · exact hon _

theorem createBMCClient_no_host_write (s : σ) (basicAuth : Bool) (host : BareMetalHost) :
    ∀ e ∈ ((BareMetalHostReconciler.createBMCClient basicAuth host).interp h s).trace,
      e.call.touchesHosts = false := by
  unfold BareMetalHostReconciler.createBMCClient
  split
  · rw [forall_trace_call]
    refine ⟨rfl, ?_⟩
    cases (h _ s).1 <;> simp [Prog.interp]
  · split
    · unfold BareMetalHostReconciler.createRedfishBMCClient
      rw [forall_trace_call]
      refine ⟨rfl, ?_⟩
      rcases (h _ s).1 with err | bmcSecret
      · simp [Prog.interp]
      · simp only
        split
        · simp [Prog.interp]
        · split
          · simp [Prog.interp]
          · rw [forall_trace_call]
            refine ⟨rfl, ?_⟩
            cases (h _ _).1 <;> simp [Prog.interp]
    · simp [Prog.interp]

end HostReconcileCalls

theorem determineTargetHostStatus_congr (a b : BareMetalHost)
    (hab : a.Status.State = b.Status.State) :
    BareMetalHostReconciler.determineTargetHostStatus a =
      BareMetalHostReconciler.determineTargetHostStatus b := by
  simp [BareMetalHostReconciler.determineTargetHostStatus,
    BareMetalHostReconciler.determineTargetHostStatusWith, BareMetalHostReconciler.isHostReady, hab]

theorem hostWithSystemInfo_Name (info : SystemInfo) (host : BareMetalHost) :
    (hostWithSystemInfo info host).Name = host.Name := rfl

theorem hostWithSystemInfo_ResourceVersion (info : SystemInfo) (host : BareMetalHost) :
    (hostWithSystemInfo info host).ResourceVersion = host.ResourceVersion := rfl

theorem hostWithSystemInfo_State (info : SystemInfo) (host : BareMetalHost) :
    (hostWithSystemInfo info host).Status.State = host.Status.State := rfl

theorem hostWithSystemInfo_Phase (info : SystemInfo) (host : BareMetalHost) :
    (hostWithSystemInfo info host).Status.Phase = host.Status.Phase := rfl

/-- The method `updateHostStatusFromSystemInfo` on a world that stores the host
as the reconciler holds it: when it returns success, the store and the
reconciler hold the host with the same spec, state and phase. -/
theorem updateHostStatusFromSystemInfo_ok (w : World) (faults : List Bool)
    (host host1 : BareMetalHost) (bmcClient : BMCClient) (hs : w.hosts host.Name = some host)
    (hok : ((BareMetalHostReconciler.updateHostStatusFromSystemInfo host bmcClient).interp handle
      (w, faults)).value = .ok host1) :
    ((BareMetalHostReconciler.updateHostStatusFromSystemInfo host bmcClient).interp handle
        (w, faults)).state.1.hosts = Function.update w.hosts host.Name (some host1) ∧
      host1.Name = host.Name ∧ host1.Spec = host.Spec ∧
      host1.Status.State = host.Status.State ∧ host1.Status.Phase = host.Status.Phase := by
  unfold BareMetalHostReconciler.updateHostStatusFromSystemInfo at hok ⊢
  simp only [interp_call] at hok ⊢
  rcases handle_cases (.bmcGetSystemInfo bmcClient) w faults with hh | hh
  · rw [hh] at hok; simp [interp_ret] at hok
  · rw [hh] at hok ⊢
    have ee : exec (.bmcGetSystemInfo bmcClient) w = (w.getSystemInfo bmcClient, w) := rfl
    rw [ee] at hok ⊢
    simp only at hok ⊢
    generalize w.getSystemInfo bmcClient = g at hok ⊢
    rcases g with err | info
    · simp [interp_ret] at hok
    · simp only [interp_call] at hok ⊢
      obtain ⟨new, e1, n1, sp1, st1, -⟩ := patchHostStatus_ok w host
        (hostWithSystemInfo info host) host (by rw [hostWithSystemInfo_Name]; exact hs)
        (by rw [hostWithSystemInfo_ResourceVersion]; exact versionOk_unchanged _ _)
      have ee2 : exec (.patchHostStatus host (hostWithSystemInfo info host)) w =
          w.patchHostStatus host (hostWithSystemInfo info host) := rfl
      rcases handle_cases (.patchHostStatus host (hostWithSystemInfo info host)) w faults.tail
        with hh2 | hh2
      · rw [hh2] at hok; simp [interp_ret] at hok
      · rw [hh2, ee2, e1] at hok ⊢
        simp only [interp_ret] at hok ⊢
        cases hok
        rw [mergeHostStatus_self] at st1
        refine ⟨by rw [hostWithSystemInfo_Name], n1, sp1, ?_, ?_⟩
        · rw [st1, hostWithSystemInfo_State]
        · rw [st1, hostWithSystemInfo_Phase]
theorem reconcileWithClient_ok (w : World) (faults : List Bool) (host : BareMetalHost)
    (bmcClient : BMCClient) (hs : w.hosts host.Name = some host)
    (hok : ((BareMetalHostReconciler.reconcileWithClient bmcClient host).interp handle
      (w, faults)).value = .ok ()) :
    ∃ host',
      ((BareMetalHostReconciler.reconcileWithClient bmcClient host).interp handle
        (w, faults)).state.1.hosts = Function.update w.hosts host.Name (some host') ∧
      HostReconciled host host' := by
  unfold BareMetalHostReconciler.reconcileWithClient at hok ⊢
  rw [interp_bind] at hok ⊢
  simp only at hok ⊢
  have hu := fun host1 => updateHostStatusFromSystemInfo_ok w faults host host1 bmcClient hs
  generalize (BareMetalHostReconciler.updateHostStatusFromSystemInfo host bmcClient).interp handle
    (w, faults) = o at hok hu ⊢
  rcases o with ⟨r1, ⟨w1, f1⟩, t1⟩
  rcases r1 with err | host1
  · simp [interp_ret] at hok
  · obtain ⟨hw1, n1, sp1, st1, ph1⟩ := hu host1 rfl
    simp only at hw1 hok ⊢
    rw [interp_bind] at hok ⊢
    simp only at hok ⊢
    have hp := interp_hosts (ensurePowerState bmcClient host1) (w1, f1)
      (ensurePowerState_no_host_write handle _ _ _)
    generalize (ensurePowerState bmcClient host1).interp handle (w1, f1) = o2 at hok hp ⊢
    rcases o2 with ⟨r2, ⟨w2, f2⟩, t2⟩
    rcases r2 with err | u
    · simp [interp_ret] at hok
    · simp only at hp hok ⊢
      rw [interp_bind] at hok ⊢
      simp only at hok ⊢
      have hs2 : w2.hosts host1.Name = some host1 := by
        rw [hp, hw1, n1, Function.update_same]
      have he := fun v => ensureHostStatus_ok w2 f2 host1 v hs2
      generalize (BareMetalHostReconciler.ensureHostStatus host1).interp handle (w2, f2) = o3
        at hok he ⊢
      rcases o3 with ⟨r3, ⟨w3, f3⟩, t3⟩
      rcases r3 with err | v
      · simp [interp_ret] at hok
      · obtain ⟨host', hw3, n3, cr3, hb, hu3, pw3⟩ := he v rfl
        simp only [interp_ret] at hw3 ⊢
        have hdet := determineTargetHostStatus_congr host1 host st1
        refine ⟨host', ?_, by rw [n3, n1], by rw [cr3, sp1], ?_, ?_, ?_⟩
        · rw [hw3, hp, hw1, n1, Function.update_idem]
        · intro hc
          exact hb (by rw [sp1]; exact hc)
        · intro hc
          rw [← hdet]
          exact hu3 (by rw [sp1]; exact hc)
        · rw [pw3, sp1, hdet]

/-- The host reconcile on a world that stores the host as the reconciler holds
it: when it returns success, the store holds the host reconciled, and no other
host changed. -/
theorem hostReconcile_ok (w : World) (faults : List Bool) (basicAuth : Bool)
    (host : BareMetalHost) (hs : w.hosts host.Name = some host)
    (hok : (run faults (BareMetalHostReconciler.reconcile basicAuth host) w).value = .ok ()) :
    ∃ host',
      (run faults (BareMetalHostReconciler.reconcile basicAuth host) w).state.1.hosts =
        Function.update w.hosts host.Name (some host') ∧
      HostReconciled host host' := by
  unfold run BareMetalHostReconciler.reconcile at hok ⊢
  rw [interp_bind] at hok ⊢
  simp only at hok ⊢
  have hp := interp_hosts (BareMetalHostReconciler.createBMCClient basicAuth host) (w, faults)
    (createBMCClient_no_host_write handle _ _ _)
  generalize (BareMetalHostReconciler.createBMCClient basicAuth host).interp handle (w, faults) = o
    at hok hp ⊢
  rcases o with ⟨r1, ⟨w1, f1⟩, t1⟩
  rcases r1 with err | bmcClient
  · simp [interp_ret] at hok
  · simp only at hp hok ⊢
    rw [interp_bind] at hok ⊢
    simp only [interp_call, interp_ret] at hok ⊢
    have hs1 : w1.hosts host.Name = some host := by rw [hp]; exact hs
    obtain ⟨host', hw', hr⟩ := reconcileWithClient_ok w1 f1 host bmcClient hs1 hok
    refine ⟨host', ?_, hr⟩
    rw [handle_hosts (.bmcLogout bmcClient) _ rfl, hw', hp]
/-! ## C13: the phase of a host and its claim reference -/

section AllCalls
variable {σ α β : Type} (h : (c : Call) → σ → Except Error (Resp c) × σ)

@[simp] theorem AllCalls_ret (P : Call → Prop) (a : α) : (Prog.ret a).AllCalls P ↔ True :=
  Iff.rfl

@[simp] theorem AllCalls_call (P : Call → Prop) (c : Call) (k : Except Error (Resp c) → Prog α) :
    (Prog.call c k).AllCalls P ↔ P c ∧ ∀ r, (k r).AllCalls P := Iff.rfl

theorem AllCalls_bind (P : Call → Prop) (p : Prog α) (f : α → Prog β) (hp : p.AllCalls P)
    (hf : ∀ a, (f a).AllCalls P) : (p.bind f).AllCalls P := by
  induction p with
  | ret a => exact hf a
  | call c k ih => exact ⟨hp.1, fun r => ih r (hp.2 r)⟩

/-- What holds of every call a program can issue holds of every call of a run. -/
theorem AllCalls_trace (P : Call → Prop) (p : Prog α) (hp : p.AllCalls P) (s : σ) :
    ∀ e ∈ (p.interp h s).trace, P e.call := by
  induction p generalizing s with
  | ret a => simp [Prog.interp]
  | call c k ih =>
    rw [forall_trace_call]
    exact ⟨hp.1, ih _ (hp.2 _) _⟩

end AllCalls

theorem reconcileStatus_no_status_patch (claim : BareMetalHostClaim) :
    (reconcileStatus claim).AllCalls (fun c => c.isHostStatusPatch = false) := by
  unfold reconcileStatus
  refine ⟨rfl, fun r => ?_⟩
  rcases r with err | x <;> exact True.intro

theorem reconcilePower_no_status_patch (claim : BareMetalHostClaim) (host : BareMetalHost) :
    (reconcilePower claim host).AllCalls (fun c => c.isHostStatusPatch = false) := by
  unfold reconcilePower
  split
  · split
    · refine ⟨rfl, fun r => ?_⟩
      rcases r with err | pxeConfig
      · exact True.intro
      · dsimp only
        split
        · refine ⟨rfl, fun r => ?_⟩
          rcases r with err | x
          · exact True.intro
          · exact reconcileStatus_no_status_patch claim
        · exact reconcileStatus_no_status_patch claim
    · refine ⟨rfl, fun r => ?_⟩
      rcases r with err | x
      · exact True.intro
      · exact reconcileStatus_no_status_patch claim
  · exact reconcileStatus_no_status_patch claim

theorem reconcileClaimRef_no_status_patch (claim : BareMetalHostClaim) (host : BareMetalHost) :
    (reconcileClaimRef claim host).AllCalls (fun c => c.isHostStatusPatch = false) := by
  unfold reconcileClaimRef
  split
  · refine ⟨rfl, fun r => ?_⟩
    rcases r with err | host1
    · exact True.intro
    · exact reconcilePower_no_status_patch claim host1
  · exact reconcilePower_no_status_patch claim host

theorem reconcileHost_no_status_patch (claim : BareMetalHostClaim) (host : BareMetalHost) :
    (reconcileHost claim host).AllCalls (fun c => c.isHostStatusPatch = false) := by
  unfold reconcileHost
  refine AllCalls_bind _ _ _ ?_ fun r => ?_
  · unfold PatchEnsureFinalizerHost
    split
    · exact True.intro
    · refine ⟨rfl, fun r => ?_⟩
      rcases r with err | x <;> exact True.intro
  · rcases r with err | ⟨_ | _, host1⟩
    · exact True.intro
    · dsimp only
      refine AllCalls_bind _ _ _ ?_ fun r => ?_
      · unfold applyPXEConfiguration
        refine ⟨rfl, fun r => ?_⟩
        rcases r with err | pxe
        · exact True.intro
        · refine ⟨rfl, fun r => ?_⟩
          rcases r with err | x <;> exact True.intro
      · rcases r with err | x
        · exact True.intro
        · dsimp only
          refine AllCalls_bind _ _ _ ?_ fun r => ?_
          · unfold applyDHCPConfiguration
            refine ⟨rfl, fun r => ?_⟩
            rcases r with err | dhcp
            · exact True.intro
            · refine ⟨rfl, fun r => ?_⟩
              rcases r with err | x <;> exact True.intro
          · rcases r with err | x
            · exact True.intro
            · exact reconcileClaimRef_no_status_patch claim host1
    · exact True.intro

/-- The claim reconcile never patches the status of a host. -/
theorem reconcile_no_status_patch (claim : BareMetalHostClaim) :
    (reconcile claim).AllCalls (fun c => c.isHostStatusPatch = false) := by
  unfold reconcile
  refine AllCalls_bind _ _ _ ?_ fun r => ?_
  · unfold PatchEnsureFinalizerClaim
    split
    · exact True.intro
    · refine ⟨rfl, fun r => ?_⟩
      rcases r with err | x <;> exact True.intro
  · rcases r with err | ⟨_ | _, claim1⟩
    · exact True.intro
    · refine ⟨rfl, fun r => ?_⟩
      rcases r with err | host
      · exact True.intro
      · dsimp only
        split
        · exact True.intro
        · exact reconcileHost_no_status_patch claim1 host
    · exact True.intro
theorem exec_hostStatus (c : Call) (w : World) (hc : c.isHostStatusPatch = false)
    (name : String) : (exec c w).2.hostStatus name = w.hostStatus name := by
  cases c <;> try rfl
  case patchHost base modified lock =>
    simp only [exec, World.patchHost]
    cases hs : w.hosts modified.Name with
    | none => rfl
    | some stored =>
      simp only
      split
      · simp only [World.hostStatus, Function.update_apply]
        split
        · next hn => simp [hn, hs]
        · rfl
      · rfl
  case patchHostStatus base modified => cases hc
  all_goals
    simp only [exec, World.patchClaim, World.patchClaimStatus, World.patchPXE, World.patchPXEStatus,
      World.patchDHCPStatus, World.deleteSecret, World.setPower, World.applyPXE, World.applyDHCP,
      World.applySecret]
    split <;> first | rfl | (split <;> rfl)

theorem handle_hostStatus (c : Call) (s : World × List Bool)
    (hc : c.isHostStatusPatch = false) (name : String) :
    (handle c s).2.1.hostStatus name = s.1.hostStatus name := by
  obtain ⟨w, faults⟩ := s
  rcases handle_cases c w faults with hh | hh
  · rw [hh]
  · rw [hh]; exact exec_hostStatus c w hc name

/-- A run that issues no status patch of a host leaves the status of every
host as it was. -/
theorem interp_hostStatus {α : Type} (p : Prog α) (s : World × List Bool)
    (hp : ∀ e ∈ (p.interp handle s).trace, e.call.isHostStatusPatch = false) (name : String) :
    (p.interp handle s).state.1.hostStatus name = s.1.hostStatus name :=
  interp_frame handle (fun s0 s => s.1.hostStatus name = s0.1.hostStatus name)
    (fun e => e.call.isHostStatusPatch = false)
    (fun c s _ h0 hc => (handle_hostStatus c s hc name).trans h0) p s s rfl hp

/-- Claim deletion with no failure, on a world that stores the claim and the
host it references: the host ends without claim reference and with the phase
it had. -/
theorem delete_keeps_phase (w : World) (claim : BareMetalHostClaim) (host : BareMetalHost)
    (hc : w.claims (claim.Namespace, claim.Name) = some claim)
    (hh : w.hosts claim.Spec.BareMetalHostRef.Name = some host)
    (hn : host.Name = claim.Spec.BareMetalHostRef.Name) :
    ∃ host', (run [] (delete claim) w).state.1.hosts claim.Spec.BareMetalHostRef.Name =
        some host' ∧
      host'.Spec.ClaimRef = none ∧ host'.Status.Phase = host.Status.Phase := by
  have hh' : w.hosts host.Name = some host := by rw [hn]; exact hh
  obtain ⟨new1, e1, n1, sp1, st1, -⟩ := patchHost_ok w host
    { host with Spec := { host.Spec with ClaimRef := none } } host false hh' (versionOk_same _ _)
  have hs1 : ({ w with hosts := Function.update w.hosts host.Name (some new1) } : World).hosts
      new1.Name = some new1 := by
    show Function.update w.hosts host.Name (some new1) new1.Name = some new1
    rw [n1, Function.update_same]
  obtain ⟨new2, e2, n2, sp2, st2, -⟩ := patchHostStatus_ok
    { w with hosts := Function.update w.hosts host.Name (some new1) } host
    { new1 with Status := { new1.Status with State := StateTainted } } new1 hs1
    (versionOk_fresh _ _)
  have hs2 : ({ w with
      hosts := Function.update (Function.update w.hosts host.Name (some new1)) new1.Name
        (some new2) } : World).hosts new2.Name = some new2 := by
    show Function.update (Function.update w.hosts host.Name (some new1)) new1.Name (some new2)
      new2.Name = some new2
    rw [n2, Function.update_same]
  obtain ⟨-, -, ⟨host', hhost, hsp, hst, -⟩, -⟩ :=
    deleteFinalizers_success
      { w with
        hosts := Function.update (Function.update w.hosts host.Name (some new1)) new1.Name
          (some new2) } claim new2 hc hs2
  unfold run delete
  simp only [Prog.interp, handle, exec, World.getHost, hh, e1, e2]
  refine ⟨host', ?_, ?_, ?_⟩
  · have hkey : claim.Spec.BareMetalHostRef.Name = new2.Name := by rw [n2, n1, hn]
    rw [hkey]; exact hhost
  · rw [hsp, sp2, sp1]; simp [mergeHostSpec, pick]
  · rw [hst, st2, st1]; simp [mergeHostStatus, pick]
theorem HostReconciled.phase {host host' : BareMetalHost} (hr : HostReconciled host host') :
    PhaseMatchesClaimRef host' := by
  obtain ⟨-, cr, hb, hu, -⟩ := hr
  unfold PhaseMatchesClaimRef
  rw [cr]
  by_cases hc : host.Spec.ClaimRef = none
  · have := (hu hc).2
    simp [hc, this, PhaseBound, PhaseUnbound]
  · simp [hc, (hb hc).2]

/-- C13 as stated fails: on the world `freeWorld`, where the phase of the only
host matches its claim reference, the claim reconcile of `otherClaim` ends with
the host claimed and still Unbound; on the world `doomedWorld`, where it
matches too, claim deletion ends with the host unclaimed and still Bound. -/
theorem C13_phase_not_preserved :
    ¬ (∀ (w : World) (claim : BareMetalHostClaim),
        (∀ name host, w.hosts name = some host → PhaseMatchesClaimRef host) →
        ∀ name host', (run [] (reconcile claim) w).state.1.hosts name = some host' →
          PhaseMatchesClaimRef host') ∧
    ¬ (∀ (w : World) (claim : BareMetalHostClaim),
        (∀ name host, w.hosts name = some host → PhaseMatchesClaimRef host) →
        ∀ name host', (run [] (delete claim) w).state.1.hosts name = some host' →
          PhaseMatchesClaimRef host') := by
  constructor
  · intro hall
    have h0 : ∀ name host, freeWorld.hosts name = some host → PhaseMatchesClaimRef host := by
      intro name host hn
      simp only [freeWorld] at hn
      split at hn
      · cases hn; decide
      · cases hn
    have h1 : (run [] (reconcile otherClaim) freeWorld).state.1.hostClaimRef "h1" =
        some (some (claimRefOf otherClaim)) := by decide
    have h2 : (run [] (reconcile otherClaim) freeWorld).state.1.hostStatus "h1" =
        some freeHost.Status := by decide
    rcases hf : (run [] (reconcile otherClaim) freeWorld).state.1.hosts "h1" with _ | host'
    · simp [World.hostClaimRef, hf] at h1
    · have hp := hall freeWorld otherClaim h0 "h1" host' hf
      simp only [World.hostClaimRef, World.hostStatus, hf, Option.map_some', Option.some.injEq]
        at h1 h2
      unfold PhaseMatchesClaimRef at hp
      rw [h1, h2] at hp
      revert hp
      decide
  · intro hall
    have h0 : ∀ name host, doomedWorld.hosts name = some host → PhaseMatchesClaimRef host := by
      intro name host hn
      simp only [doomedWorld, sampleWorld] at hn
      split at hn
      · cases hn; decide
      · cases hn
    have h1 : (run [] (delete doomedClaim) doomedWorld).state.1.hostClaimRef "h1" =
        some none := by decide
    have h2 : ((run [] (delete doomedClaim) doomedWorld).state.1.hostStatus "h1").map
        (fun st => st.Phase) = some PhaseBound := by decide
    rcases hf : (run [] (delete doomedClaim) doomedWorld).state.1.hosts "h1" with _ | host'
    · simp [World.hostClaimRef, hf] at h1
    · have hp := hall doomedWorld doomedClaim h0 "h1" host' hf
      simp only [World.hostClaimRef, World.hostStatus, hf, Option.map_some', Option.some.injEq]
        at h1 h2
      unfold PhaseMatchesClaimRef at hp
      rw [h1, h2] at hp
      revert hp
      decide
/-- C13 (amended): on a world that stores the host, a host reconcile that
returns success leaves the stored host with its claim reference unchanged and
with phase Bound iff the claim reference is there.  The claim steps do not
maintain this: a claim reconcile, under any failures, leaves the status of
every host as it was, and claim deletion without failure clears the claim
reference of the host and leaves its phase as it was. -/
theorem C13_phase_after_host_reconcile (w : World) (faults : List Bool) (basicAuth : Bool)
    (host : BareMetalHost) (hs : w.hosts host.Name = some host)
    (hok : (run faults (BareMetalHostReconciler.reconcile basicAuth host) w).value = .ok ()) :
    (∃ host',
      (run faults (BareMetalHostReconciler.reconcile basicAuth host) w).state.1.hosts host.Name =
        some host' ∧
      host'.Spec.ClaimRef = host.Spec.ClaimRef ∧ PhaseMatchesClaimRef host') ∧
    (∀ (claim : BareMetalHostClaim) (faults' : List Bool) (name : String),
      (run faults' (reconcile claim) w).state.1.hostStatus name = w.hostStatus name) ∧
    (∀ (claim : BareMetalHostClaim) (host2 : BareMetalHost),
      w.claims (claim.Namespace, claim.Name) = some claim →
      w.hosts claim.Spec.BareMetalHostRef.Name = some host2 →
      host2.Name = claim.Spec.BareMetalHostRef.Name →
      ∃ host', (run [] (delete claim) w).state.1.hosts claim.Spec.BareMetalHostRef.Name =
          some host' ∧
        host'.Spec.ClaimRef = none ∧ host'.Status.Phase = host2.Status.Phase) := by
  refine ⟨?_, ?_, ?_⟩
  · obtain ⟨host', hw, hr⟩ := hostReconcile_ok w faults basicAuth host hs hok
    refine ⟨host', ?_, hr.2.1, hr.phase⟩
    rw [hw, Function.update_same]
  · intro claim faults' name
    exact interp_hostStatus (reconcile claim) (w, faults')
      (AllCalls_trace handle _ _ (reconcile_no_status_patch claim) _) name
  · intro claim host2 hc hh hn
    exact delete_keeps_phase w claim host2 hc hh hn

/-- C13 (amended) on the world `managedWorld`: the host reconcile of the bound
host succeeds and leaves it Bound with its claim reference; claim deletion
leaves the host without claim reference and still Bound. -/
theorem C13_phase_after_host_reconcile_witness :
    managedWorld.hosts managedHost.Name = some managedHost ∧
    (run [] (BareMetalHostReconciler.reconcile false managedHost) managedWorld).value = .ok () ∧
    (∃ host',
      (run [] (BareMetalHostReconciler.reconcile false managedHost) managedWorld).state.1.hosts
        managedHost.Name = some host' ∧
      host'.Spec.ClaimRef = managedHost.Spec.ClaimRef ∧ PhaseMatchesClaimRef host') ∧
    ∃ host', (run [] (delete doomedClaim) managedWorld).state.1.hosts
        doomedClaim.Spec.BareMetalHostRef.Name = some host' ∧
      host'.Spec.ClaimRef = none ∧ host'.Status.Phase = managedHost.Status.Phase :=
  have h := C13_phase_after_host_reconcile managedWorld [] false managedHost (by decide) rfl
  ⟨by decide, rfl, h.1, h.2.2 doomedClaim managedHost (by decide) (by decide) (by decide)⟩

/-! ## C14: the first reconcile of an unclaimed host -/

/-- C14 as stated fails: the unclaimed host `initialHost` is at state Initial
and wants power On; the host reconcile on `initialWorld` succeeds with every
call succeeding and ends with state Available, yet the desired power is still
On, and the pass has issued PowerOn to the BMC. -/
theorem C14_power_not_forced_off :
    initialHost.Status.State = StateInitial ∧ initialHost.Spec.ClaimRef = none ∧
    initialHost.Spec.Power = PowerStateOn ∧
    initialWorld.hosts "h1" = some initialHost ∧
    (run [] (BareMetalHostReconciler.reconcile false initialHost) initialWorld).value = .ok () ∧
    (∀ e ∈ (run [] (BareMetalHostReconciler.reconcile false initialHost) initialWorld).trace,
      e.succeeded = true) ∧
    ((run [] (BareMetalHostReconciler.reconcile false initialHost) initialWorld).state.1.hostStatus
      "h1").map (fun st => st.State) = some StateAvailable ∧
    (run [] (BareMetalHostReconciler.reconcile false initialHost) initialWorld).state.1.hostPower
      "h1" = some PowerStateOn ∧
    (run [] (BareMetalHostReconciler.reconcile false initialHost) initialWorld).state.1.hostPower
      "h1" ≠ some PowerStateOff ∧
    (∃ e ∈ (run [] (BareMetalHostReconciler.reconcile false initialHost) initialWorld).trace,
      e.call = .bmcPowerOn sampleBMC) := by
  refine ⟨by decide, by decide, by decide, by decide, rfl, by decide, by decide, by decide,
    by decide, by decide⟩

/-- C14 (amended): for an unclaimed host that the store holds, a host reconcile
that returns success leaves the stored host unclaimed and Unbound; if its state
was Initial it ends at state Available with the desired power it had; if its
state was neither Initial nor Available (the target state is Initial) it ends
at state Initial with the desired power forced to Off. -/
theorem C14_initial_to_available (w : World) (faults : List Bool) (basicAuth : Bool)
    (host : BareMetalHost) (hs : w.hosts host.Name = some host)
    (hcr : host.Spec.ClaimRef = none)
    (hok : (run faults (BareMetalHostReconciler.reconcile basicAuth host) w).value = .ok ()) :
    ∃ host',
      (run faults (BareMetalHostReconciler.reconcile basicAuth host) w).state.1.hosts host.Name =
        some host' ∧
      host'.Spec.ClaimRef = none ∧ host'.Status.Phase = PhaseUnbound ∧
      (host.Status.State = StateInitial →
        host'.Status.State = StateAvailable ∧ host'.Spec.Power = host.Spec.Power) ∧
      (host.Status.State ≠ StateInitial → host.Status.State ≠ StateAvailable →
        host'.Status.State = StateInitial ∧ host'.Spec.Power = PowerStateOff) := by
  obtain ⟨host', hw, -, cr, -, hu, pw⟩ := hostReconcile_ok w faults basicAuth host hs hok
  obtain ⟨st, ph⟩ := hu hcr
  refine ⟨host', by rw [hw, Function.update_same], by rw [cr, hcr], ph, ?_, ?_⟩
  · intro hi
    have ht : BareMetalHostReconciler.determineTargetHostStatus host = StateAvailable := by
      simp [BareMetalHostReconciler.determineTargetHostStatus,
        BareMetalHostReconciler.determineTargetHostStatusWith,
        BareMetalHostReconciler.isHostReady, hi]
    rw [st, pw, ht]
    exact ⟨rfl, if_neg (fun hh => absurd hh.2 (by decide))⟩
  · intro hi ha
    have ht : BareMetalHostReconciler.determineTargetHostStatus host = StateInitial := by
      simp [BareMetalHostReconciler.determineTargetHostStatus,
        BareMetalHostReconciler.determineTargetHostStatusWith, hi, ha]
    rw [st, pw, ht]
    exact ⟨rfl, if_pos ⟨hcr, rfl⟩⟩

/-- C14 (amended) at the host `h1`: from state Initial with desired power On it
ends Available with power On; from the empty state it ends Initial with power
Off. -/
theorem C14_initial_to_available_witness :
    (∃ host',
      (run [] (BareMetalHostReconciler.reconcile false initialHost) initialWorld).state.1.hosts
        "h1" = some host' ∧
      host'.Status.State = StateAvailable ∧ host'.Spec.Power = PowerStateOn) ∧
    ∃ host',
      (run [] (BareMetalHostReconciler.reconcile false freshHost) freshWorld).state.1.hosts
        "h1" = some host' ∧
      host'.Status.State = StateInitial ∧ host'.Spec.Power = PowerStateOff :=
  have h1 := C14_initial_to_available initialWorld [] false initialHost (by decide) (by decide) rfl
  have h2 := C14_initial_to_available freshWorld [] false freshHost (by decide) (by decide) rfl
  ⟨h1.elim fun host' hh => ⟨host', hh.1, (hh.2.2.2.1 (by decide)).1, (hh.2.2.2.1 (by decide)).2⟩,
   h2.elim fun host' hh =>
    ⟨host', hh.1, (hh.2.2.2.2 (by decide) (by decide)).1, (hh.2.2.2.2 (by decide) (by decide)).2⟩⟩

/-! ## C17: the claim reconcile on the state it produced -/

section Noop

theorem world_hosts_self (w : World) (k : String) (v : BareMetalHost)
    (hs : w.hosts k = some v) :
    ({ w with hosts := Function.update w.hosts k (some v) } : World) = w := by
  cases w
  simp only at hs
  simp only [← hs, Function.update_eq_self]

theorem world_claims_self (w : World) (k : String × String) (v : BareMetalHostClaim)
    (hs : w.claims k = some v) :
    ({ w with claims := Function.update w.claims k (some v) } : World) = w := by
  cases w
  simp only at hs
  simp only [← hs, Function.update_eq_self]

theorem world_pxes_self (w : World) (k : String × String) (v : PXE) (hs : w.pxes k = some v) :
    ({ w with pxes := Function.update w.pxes k (some v) } : World) = w := by
  cases w
  simp only at hs
  simp only [← hs, Function.update_eq_self]

theorem world_dhcps_self (w : World) (k : String × String) (v : DHCP) (hs : w.dhcps k = some v) :
    ({ w with dhcps := Function.update w.dhcps k (some v) } : World) = w := by
  cases w
  simp only at hs
  simp only [← hs, Function.update_eq_self]

/-- Applying a PXE object that the store already holds with the applied name,
owner and spec changes nothing. -/
theorem applyPXE_noop (w : World) (pxe stored : PXE)
    (hs : w.pxes (pxe.Namespace, pxe.Name) = some stored)
    (hn : stored.Name = pxe.Name) (hns : stored.Namespace = pxe.Namespace)
    (ho : stored.OwnerReferences = pxe.OwnerReferences) (hsp : stored.Spec = pxe.Spec) :
    w.applyPXE pxe = (.ok stored, w) := by
  have he : ({ stored with
      Name := pxe.Name, Namespace := pxe.Namespace
      OwnerReferences := pxe.OwnerReferences, Spec := pxe.Spec } : PXE) = stored := by
    rw [← hn, ← hns, ← ho, ← hsp]
  unfold World.applyPXE
  rw [hs]
  simp only [he, stampPXE, if_true, world_pxes_self w _ _ hs]

theorem applyDHCP_noop (w : World) (dhcp stored : DHCP)
    (hs : w.dhcps (dhcp.Namespace, dhcp.Name) = some stored)
    (hn : stored.Name = dhcp.Name) (hns : stored.Namespace = dhcp.Namespace)
    (ho : stored.OwnerReferences = dhcp.OwnerReferences) (hsp : stored.Spec = dhcp.Spec) :
    w.applyDHCP dhcp = (.ok stored, w) := by
  have he : ({ stored with
      Name := dhcp.Name, Namespace := dhcp.Namespace
      OwnerReferences := dhcp.OwnerReferences, Spec := dhcp.Spec } : DHCP) = stored := by
    rw [← hn, ← hns, ← ho, ← hsp]
  unfold World.applyDHCP
  rw [hs]
  simp only [he, stampDHCP, if_true, world_dhcps_self w _ _ hs]

/-- Patching the status of a stored PXE object to the state it has changes
nothing. -/
theorem patchPXEStatus_noop (w : World) (pxe : PXE) (state : PXEState)
    (hs : w.pxes (pxe.Namespace, pxe.Name) = some pxe) (hst : pxe.Status.State = state) :
    w.patchPXEStatus pxe { pxe with Status := { pxe.Status with State := state } } =
      (.ok pxe, w) := by
  subst hst
  simp only [World.patchPXEStatus, hs, versionOk_unchanged, if_true, pick_same, stampPXE,
    world_pxes_self w _ _ hs]

theorem patchDHCPStatus_noop (w : World) (dhcp : DHCP) (state : DHCPState)
    (hs : w.dhcps (dhcp.Namespace, dhcp.Name) = some dhcp) (hst : dhcp.Status.State = state) :
    w.patchDHCPStatus dhcp { dhcp with Status := { dhcp.Status with State := state } } =
      (.ok dhcp, w) := by
  subst hst
  simp only [World.patchDHCPStatus, hs, versionOk_unchanged, if_true, pick_same, stampDHCP,
    world_dhcps_self w _ _ hs]

/-- A merge patch of a stored host that changes no field changes nothing. -/
theorem patchHost_noop (w : World) (host : BareMetalHost) (hs : w.hosts host.Name = some host) :
    w.patchHost host host false = (.ok host, w) := by
  have hm : mergeMeta host.toObjectMeta host.toObjectMeta host.toObjectMeta = host.toObjectMeta := by
    simp [mergeMeta, pick_same]
  have hsp : mergeHostSpec host.Spec host.Spec host.Spec = host.Spec := mergeHostSpec_self _ _
  simp only [World.patchHost, hs, versionOk_unchanged, if_true, hm, hsp, stampHost,
    world_hosts_self w _ _ hs]

theorem patchClaimStatus_noop (w : World) (claim : BareMetalHostClaim) (phase : Phase)
    (hs : w.claims (claim.Namespace, claim.Name) = some claim)
    (hph : claim.Status.Phase = phase) :
    w.patchClaimStatus claim { claim with Status := { claim.Status with Phase := phase } } =
      (.ok claim, w) := by
  subst hph
  simp only [World.patchClaimStatus, hs, versionOk_unchanged, if_true, pick_same, stampClaim,
    world_claims_self w _ _ hs]

/-- Patching the desired power of a stored host to the value it has changes
nothing. -/
theorem patchHost_power_noop (w : World) (host : BareMetalHost) (power : PowerState)
    (hs : w.hosts host.Name = some host) (hp : host.Spec.Power = power) :
    w.patchHost host { host with Spec := { host.Spec with Power := power } } false =
      (.ok host, w) := by
  subst hp
  exact patchHost_noop w host hs

end Noop
section NoopSteps

/-- The outcome of a step that succeeds and changes nothing: every call of it
succeeded and was a no-op on the world. -/
theorem applyPXEConfiguration_noop (w : World) (claim : BareMetalHostClaim)
    (host : BareMetalHost) (pxe : PXE)
    (hs : w.pxes (claim.Namespace, claim.Name) = some pxe)
    (hn : pxe.Name = claim.Name) (hns : pxe.Namespace = claim.Namespace)
    (ho : pxe.OwnerReferences = (claimPXE claim host).OwnerReferences)
    (hsp : pxe.Spec = (claimPXE claim host).Spec) (hst : pxe.Status.State = PXEStateCreated) :
    ∃ t, (applyPXEConfiguration claim host).interp handle (w, []) = ⟨.ok (), (w, []), t⟩ ∧
      ∀ e ∈ t, e.succeeded = true ∧ (exec e.call w).2 = w := by
  have e1 : w.applyPXE (claimPXE claim host) = (.ok pxe, w) :=
    applyPXE_noop w (claimPXE claim host) pxe hs hn hns ho hsp
  have e2 := patchPXEStatus_noop w pxe PXEStateCreated (by rw [hns, hn]; exact hs) hst
  unfold applyPXEConfiguration
  simp only
  change ∃ t, (Prog.call (.applyPXE (claimPXE claim host) true) _).interp handle (w, []) = _ ∧ _
  simp only [Prog.interp, handle, exec, e1, e2]
  refine ⟨_, rfl, ?_⟩
  simp [Event.succeeded, exec, e1, e2]

theorem applyDHCPConfiguration_noop (w : World) (claim : BareMetalHostClaim) (dhcp : DHCP)
    (hs : w.dhcps (claim.Namespace, claim.Name) = some dhcp)
    (hn : dhcp.Name = claim.Name) (hns : dhcp.Namespace = claim.Namespace)
    (ho : dhcp.OwnerReferences = (claimDHCP claim).OwnerReferences)
    (hsp : dhcp.Spec = (claimDHCP claim).Spec) (hst : dhcp.Status.State = DHCPStateCreated) :
    ∃ t, (applyDHCPConfiguration claim).interp handle (w, []) = ⟨.ok (), (w, []), t⟩ ∧
      ∀ e ∈ t, e.succeeded = true ∧ (exec e.call w).2 = w := by
  have e1 : w.applyDHCP (claimDHCP claim) = (.ok dhcp, w) :=
    applyDHCP_noop w (claimDHCP claim) dhcp hs hn hns ho hsp
  have e2 := patchDHCPStatus_noop w dhcp DHCPStateCreated (by rw [hns, hn]; exact hs) hst
  unfold applyDHCPConfiguration
  simp only
  change ∃ t, (Prog.call (.applyDHCP (claimDHCP claim) true) _).interp handle (w, []) = _ ∧ _
  simp only [Prog.interp, handle, exec, e1, e2]
  refine ⟨_, rfl, ?_⟩
  simp [Event.succeeded, exec, e1, e2]

theorem reconcileStatus_noop (w : World) (claim : BareMetalHostClaim)
    (hs : w.claims (claim.Namespace, claim.Name) = some claim)
    (hph : claim.Status.Phase = PhaseBound) :
    ∃ t, (reconcileStatus claim).interp handle (w, []) = ⟨.ok (), (w, []), t⟩ ∧
      ∀ e ∈ t, e.succeeded = true ∧ (exec e.call w).2 = w := by
  have e1 := patchClaimStatus_noop w claim PhaseBound hs hph
  unfold reconcileStatus
  simp only [Prog.interp, handle, exec, e1]
  refine ⟨_, rfl, ?_⟩
  simp [Event.succeeded, exec, e1]

theorem reconcilePower_noop (w : World) (claim : BareMetalHostClaim) (host : BareMetalHost)
    (pxe : PXE) (hc : w.claims (claim.Namespace, claim.Name) = some claim)
    (hph : claim.Status.Phase = PhaseBound) (hh : w.hosts host.Name = some host)
    (hcr : host.Spec.ClaimRef ≠ none)
    (hpw : ¬ (claim.Spec.Power = PowerStateOn ∧ claim.Spec.IgnitionRef ≠ none) →
      host.Spec.Power = claim.Spec.Power)
    (hp : w.pxes (claim.Namespace, claim.Name) = some pxe)
    (hst : pxe.Status.State = PXEStateCreated) :
    ∃ t, (reconcilePower claim host).interp handle (w, []) = ⟨.ok (), (w, []), t⟩ ∧
      ∀ e ∈ t, e.succeeded = true ∧ (exec e.call w).2 = w := by
  obtain ⟨t3, r3, h3⟩ := reconcileStatus_noop w claim hc hph
  unfold reconcilePower
  rw [if_pos hcr]
  by_cases hon : claim.Spec.Power = PowerStateOn ∧ claim.Spec.IgnitionRef ≠ none
  · rw [if_pos hon]
    have hnr : ¬ pxe.Status.State = PXEStateReady := by rw [hst]; decide
    simp only [interp_call, handle, exec, World.getPXE, hp, hnr, if_false, r3]
    refine ⟨_, rfl, ?_⟩
    intro e he
    rcases List.mem_cons.1 he with rfl | he
    · exact ⟨rfl, rfl⟩
    · exact h3 e he
  · rw [if_neg hon]
    have e1 := patchHost_power_noop w host claim.Spec.Power hh (hpw hon)
    simp only [interp_call, handle, exec, e1, r3]
    refine ⟨_, rfl, ?_⟩
    intro e he
    rcases List.mem_cons.1 he with rfl | he
    · exact ⟨rfl, by simp [exec, e1]⟩
    · exact h3 e he

end NoopSteps
/-- The claim reconcile without failure on a converged state succeeds and
leaves the world as it is; every call it issues succeeds and is a no-op. -/
theorem reconcile_converged_noop (w : World) (claim : BareMetalHostClaim) (host : BareMetalHost)
    (hcv : ClaimConverged w claim host) :
    ∃ t, (reconcile claim).interp handle (w, []) = ⟨.ok (), (w, []), t⟩ ∧
      ∀ e ∈ t, e.succeeded = true ∧ (exec e.call w).2 = w := by
  obtain ⟨hc, hfin, hph, hh, hn, hhf, ⟨ref, href, huid⟩, hpw,
    ⟨pxe, hp, pn, pns, po, psp, pst⟩, ⟨dhcp, hd, dn, dns, dow, dsp, dst⟩⟩ := hcv
  have hh' : w.hosts host.Name = some host := by rw [hn]; exact hh
  have hcr : host.Spec.ClaimRef ≠ none := by rw [href]; exact Option.some_ne_none _
  obtain ⟨t1, r1, h1⟩ := applyPXEConfiguration_noop w claim host pxe hp pn pns po psp pst
  obtain ⟨t2, r2, h2⟩ := applyDHCPConfiguration_noop w claim dhcp hd dn dns dow dsp dst
  obtain ⟨t3, r3, h3⟩ := reconcilePower_noop w claim host pxe hc hph hh' hcr hpw hp pst
  have hrh : (reconcileHost claim host).interp handle (w, []) = ⟨.ok (), (w, []), t1 ++ (t2 ++ t3)⟩ := by
    unfold reconcileHost PatchEnsureFinalizerHost
    rw [if_pos hhf]
    simp only [interp_bind, interp_ret, r1, r2, List.nil_append]
    unfold reconcileClaimRef
    rw [if_neg hcr, r3]
  have hany : host.Spec.ClaimRef.any (fun ref => ref.UID != claim.UID) = false := by
    rw [href]; simp [huid]
  unfold reconcile PatchEnsureFinalizerClaim
  rw [if_pos hfin]
  simp only [interp_bind, interp_ret, interp_call, handle, exec, World.getHost, hh, hany,
    Bool.false_eq_true, if_false, List.nil_append, hrh]
  refine ⟨_, rfl, ?_⟩
  intro e he
  rcases List.mem_cons.1 he with rfl | he
  · exact ⟨rfl, rfl⟩
  · rcases List.mem_append.1 he with he | he
    · exact h1 e he
    · rcases List.mem_append.1 he with he | he
      · exact h2 e he
      · exact h3 e he
section Converges

theorem stampPXE_eq (stored new : PXE) :
    ∃ rv, stampPXE stored new = { new with ResourceVersion := rv } := by
  unfold stampPXE
  split
  · next h => exact ⟨stored.ResourceVersion, by rw [← h]⟩
  · exact ⟨_, rfl⟩

theorem stampDHCP_eq (stored new : DHCP) :
    ∃ rv, stampDHCP stored new = { new with ResourceVersion := rv } := by
  unfold stampDHCP
  split
  · next h => exact ⟨stored.ResourceVersion, by rw [← h]⟩
  · exact ⟨_, rfl⟩

theorem stampClaim_eq (stored new : BareMetalHostClaim) :
    ∃ rv, stampClaim stored new = { new with ResourceVersion := rv } := by
  unfold stampClaim
  split
  · next h => exact ⟨stored.ResourceVersion, by rw [← h]⟩
  · exact ⟨_, rfl⟩

/-- Without failure `applyPXEConfiguration` succeeds and leaves the PXE object
of the claim as applied, at state Created; nothing else changes. -/
theorem applyPXEConfiguration_full (w : World) (claim : BareMetalHostClaim)
    (host : BareMetalHost) :
    ∃ w' t pxe, (applyPXEConfiguration claim host).interp handle (w, []) =
        ⟨.ok (), (w', []), t⟩ ∧
      w'.hosts = w.hosts ∧ w'.claims = w.claims ∧ w'.dhcps = w.dhcps ∧
      w'.pxes (claim.Namespace, claim.Name) = some pxe ∧
      pxe.Name = claim.Name ∧ pxe.Namespace = claim.Namespace ∧
      pxe.OwnerReferences = (claimPXE claim host).OwnerReferences ∧
      pxe.Spec = (claimPXE claim host).Spec ∧ pxe.Status.State = PXEStateCreated := by
  have h1 : ∃ new, w.applyPXE (claimPXE claim host) =
      (.ok new, { w with pxes := Function.update w.pxes (claim.Namespace, claim.Name) (some new) }) ∧
      new.Name = claim.Name ∧ new.Namespace = claim.Namespace ∧
      new.OwnerReferences = (claimPXE claim host).OwnerReferences ∧
      new.Spec = (claimPXE claim host).Spec := by
    unfold World.applyPXE
    cases w.pxes ((claimPXE claim host).Namespace, (claimPXE claim host).Name) with
    | none => exact ⟨_, rfl, rfl, rfl, rfl, rfl⟩
    | some stored =>
      obtain ⟨rv, hrv⟩ := stampPXE_eq stored
        { stored with
          Name := (claimPXE claim host).Name, Namespace := (claimPXE claim host).Namespace
          OwnerReferences := (claimPXE claim host).OwnerReferences
          Spec := (claimPXE claim host).Spec }
      simp only [hrv]
      exact ⟨_, rfl, rfl, rfl, rfl, rfl⟩
  obtain ⟨new, e1, n1, ns1, o1, sp1⟩ := h1
  have hs1 : Function.update w.pxes (claim.Namespace, claim.Name) (some new)
      (new.Namespace, new.Name) = some new := by
    rw [ns1, n1, Function.update_same]
  have h2 : ∃ new2, ({ w with
      pxes := Function.update w.pxes (claim.Namespace, claim.Name) (some new) } :
        World).patchPXEStatus new
        { new with Status := { new.Status with State := PXEStateCreated } } =
      (.ok new2, { w with
        pxes := Function.update w.pxes (claim.Namespace, claim.Name) (some new2) }) ∧
      new2.Name = new.Name ∧ new2.Namespace = new.Namespace ∧
      new2.OwnerReferences = new.OwnerReferences ∧ new2.Spec = new.Spec ∧
      new2.Status.State = PXEStateCreated := by
    obtain ⟨rv, hrv⟩ := stampPXE_eq new
      { new with Status := { State := PXEStateCreated } }
    simp only [World.patchPXEStatus, hs1, versionOk_unchanged, if_true, hrv, ns1, n1,
      Function.update_idem, pick_self]
    exact ⟨_, rfl, rfl, rfl, rfl, rfl, rfl⟩
  obtain ⟨new2, e2, n2, ns2, o2, sp2, st2⟩ := h2
  unfold applyPXEConfiguration
  simp only
  change ∃ w' t pxe, (Prog.call (.applyPXE (claimPXE claim host) true) _).interp handle
    (w, []) = _ ∧ _
  simp only [Prog.interp, handle, exec, e1, e2]
  refine ⟨_, _, new2, rfl, rfl, rfl, rfl, ?_, by rw [n2, n1], by rw [ns2, ns1],
    by rw [o2, o1], by rw [sp2, sp1], st2⟩
  simp

/-- Without failure `applyDHCPConfiguration` succeeds and leaves the DHCP
object of the claim as applied, at state Created; nothing else changes. -/
theorem applyDHCPConfiguration_full (w : World) (claim : BareMetalHostClaim) :
    ∃ w' t dhcp, (applyDHCPConfiguration claim).interp handle (w, []) =
        ⟨.ok (), (w', []), t⟩ ∧
      w'.hosts = w.hosts ∧ w'.claims = w.claims ∧ w'.pxes = w.pxes ∧
      w'.dhcps (claim.Namespace, claim.Name) = some dhcp ∧
      dhcp.Name = claim.Name ∧ dhcp.Namespace = claim.Namespace ∧
      dhcp.OwnerReferences = (claimDHCP claim).OwnerReferences ∧
      dhcp.Spec = (claimDHCP claim).Spec ∧ dhcp.Status.State = DHCPStateCreated := by
  have h1 : ∃ new, w.applyDHCP (claimDHCP claim) =
      (.ok new,
        { w with dhcps := Function.update w.dhcps (claim.Namespace, claim.Name) (some new) }) ∧
      new.Name = claim.Name ∧ new.Namespace = claim.Namespace ∧
      new.OwnerReferences = (claimDHCP claim).OwnerReferences ∧
      new.Spec = (claimDHCP claim).Spec := by
    unfold World.applyDHCP
    cases w.dhcps ((claimDHCP claim).Namespace, (claimDHCP claim).Name) with
    | none => exact ⟨_, rfl, rfl, rfl, rfl, rfl⟩
    | some stored =>
      obtain ⟨rv, hrv⟩ := stampDHCP_eq stored
        { stored with
          Name := (claimDHCP claim).Name, Namespace := (claimDHCP claim).Namespace
          OwnerReferences := (claimDHCP claim).OwnerReferences
          Spec := (claimDHCP claim).Spec }
      simp only [hrv]
      exact ⟨_, rfl, rfl, rfl, rfl, rfl⟩
  obtain ⟨new, e1, n1, ns1, o1, sp1⟩ := h1
  have hs1 : Function.update w.dhcps (claim.Namespace, claim.Name) (some new)
      (new.Namespace, new.Name) = some new := by
    rw [ns1, n1, Function.update_same]
  have h2 : ∃ new2, ({ w with
      dhcps := Function.update w.dhcps (claim.Namespace, claim.Name) (some new) } :
        World).patchDHCPStatus new
        { new with Status := { new.Status with State := DHCPStateCreated } } =
      (.ok new2, { w with
        dhcps := Function.update w.dhcps (claim.Namespace, claim.Name) (some new2) }) ∧
      new2.Name = new.Name ∧ new2.Namespace = new.Namespace ∧
      new2.OwnerReferences = new.OwnerReferences ∧ new2.Spec = new.Spec ∧
      new2.Status.State = DHCPStateCreated := by
    obtain ⟨rv, hrv⟩ := stampDHCP_eq new
      { new with Status := { State := DHCPStateCreated } }
    simp only [World.patchDHCPStatus, hs1, versionOk_unchanged, if_true, hrv, ns1, n1,
      Function.update_idem, pick_self]
    exact ⟨_, rfl, rfl, rfl, rfl, rfl, rfl⟩
  obtain ⟨new2, e2, n2, ns2, o2, sp2, st2⟩ := h2
  unfold applyDHCPConfiguration
  simp only
  change ∃ w' t dhcp, (Prog.call (.applyDHCP (claimDHCP claim) true) _).interp handle
    (w, []) = _ ∧ _
  simp only [Prog.interp, handle, exec, e1, e2]
  refine ⟨_, _, new2, rfl, rfl, rfl, rfl, ?_, by rw [n2, n1], by rw [ns2, ns1],
    by rw [o2, o1], by rw [sp2, sp1], st2⟩
  simp

/-- Without failure the status patch of a stored claim succeeds and leaves the
claim Bound and otherwise as it was; nothing else changes. -/
theorem reconcileStatus_full (w : World) (claim : BareMetalHostClaim)
    (hc : w.claims (claim.Namespace, claim.Name) = some claim) :
    ∃ w' t claim1, (reconcileStatus claim).interp handle (w, []) = ⟨.ok (), (w', []), t⟩ ∧
      w'.hosts = w.hosts ∧ w'.pxes = w.pxes ∧ w'.dhcps = w.dhcps ∧
      w'.claims (claim.Namespace, claim.Name) = some claim1 ∧
      claim1.Name = claim.Name ∧ claim1.Namespace = claim.Namespace ∧ claim1.UID = claim.UID ∧
      claim1.Finalizers = claim.Finalizers ∧ claim1.Spec = claim.Spec ∧
      claim1.Status.Phase = PhaseBound := by
  obtain ⟨rv, hrv⟩ := stampClaim_eq claim { claim with Status := { Phase := PhaseBound } }
  unfold reconcileStatus
  simp only [Prog.interp, handle, exec, World.patchClaimStatus, hc, versionOk_unchanged, if_true,
    pick_self, hrv]
  refine ⟨_, _, { claim with ResourceVersion := rv, Status := { Phase := PhaseBound } }, rfl, rfl,
    rfl, rfl, ?_, rfl, rfl, rfl, rfl, rfl, rfl⟩
  simp

end Converges
section ConvergesHost

/-- Without failure the power sequencing and the status patch succeed on a
world that stores the claim, the claimed host and the PXE object at Created:
the host keeps its identity, finalizers and claim reference and, unless the
power-on is withheld, gets the desired power of the claim; the claim ends
Bound. -/
theorem reconcilePower_full (w : World) (claim : BareMetalHostClaim) (host : BareMetalHost)
    (pxe : PXE) (hc : w.claims (claim.Namespace, claim.Name) = some claim)
    (hh : w.hosts host.Name = some host) (hcr : host.Spec.ClaimRef ≠ none)
    (hp : w.pxes (claim.Namespace, claim.Name) = some pxe)
    (hst : pxe.Status.State = PXEStateCreated) :
    ∃ w' t claim1 host1, (reconcilePower claim host).interp handle (w, []) =
        ⟨.ok (), (w', []), t⟩ ∧
      w'.pxes = w.pxes ∧ w'.dhcps = w.dhcps ∧
      w'.hosts host.Name = some host1 ∧ host1.Name = host.Name ∧
      host1.Finalizers = host.Finalizers ∧ host1.Spec.ClaimRef = host.Spec.ClaimRef ∧
      host1.Spec.FooUUID = host.Spec.FooUUID ∧
      (¬ (claim.Spec.Power = PowerStateOn ∧ claim.Spec.IgnitionRef ≠ none) →
        host1.Spec.Power = claim.Spec.Power) ∧
      w'.claims (claim.Namespace, claim.Name) = some claim1 ∧
      claim1.Name = claim.Name ∧ claim1.Namespace = claim.Namespace ∧ claim1.UID = claim.UID ∧
      claim1.Finalizers = claim.Finalizers ∧ claim1.Spec = claim.Spec ∧
      claim1.Status.Phase = PhaseBound := by
  unfold reconcilePower
  rw [if_pos hcr]
  by_cases hon : claim.Spec.Power = PowerStateOn ∧ claim.Spec.IgnitionRef ≠ none
  · rw [if_pos hon]
    obtain ⟨w3, t3, claim1, r3, hh3, hp3, hd3, hc3, hf3⟩ := reconcileStatus_full w claim hc
    have hnr : ¬ pxe.Status.State = PXEStateReady := by rw [hst]; decide
    simp only [interp_call, handle, exec, World.getPXE, hp, hnr, if_false, r3]
    exact ⟨_, _, claim1, host, rfl, hp3, hd3, by rw [hh3]; exact hh, rfl, rfl, rfl, rfl,
      fun hn => absurd hon hn, hc3, hf3⟩
  · rw [if_neg hon]
    obtain ⟨new1, e1, n1, sp1, -, f1⟩ := patchHost_ok w host
      { host with Spec := { host.Spec with Power := claim.Spec.Power } } host false hh
      (versionOk_unchanged _ _)
    rw [mergeHostSpec_self] at sp1
    rw [pick_same] at f1
    obtain ⟨w3, t3, claim1, r3, hh3, hp3, hd3, hc3, hf3⟩ := reconcileStatus_full
      { w with hosts := Function.update w.hosts host.Name (some new1) } claim hc
    simp only [interp_call, handle, exec, e1, r3]
    refine ⟨_, _, claim1, new1, rfl, hp3, hd3, ?_, n1, f1, ?_, ?_, fun _ => ?_, hc3, hf3⟩
    · rw [hh3]; exact Function.update_same _ _ _
    · rw [sp1]
    · rw [sp1]
    · rw [sp1]

/-- Without failure the binding step, the power sequencing and the status
patch succeed on a world that stores the claim, the host (unclaimed or bound to
the claim) and the PXE object at Created: the host ends bound to the claim. -/
theorem reconcileClaimRef_full (w : World) (claim : BareMetalHostClaim) (host : BareMetalHost)
    (pxe : PXE) (hc : w.claims (claim.Namespace, claim.Name) = some claim)
    (hh : w.hosts host.Name = some host)
    (hcr : host.Spec.ClaimRef = none ∨
      ∃ ref, host.Spec.ClaimRef = some ref ∧ ref.UID = claim.UID)
    (hp : w.pxes (claim.Namespace, claim.Name) = some pxe)
    (hst : pxe.Status.State = PXEStateCreated) :
    ∃ w' t claim1 host1, (reconcileClaimRef claim host).interp handle (w, []) =
        ⟨.ok (), (w', []), t⟩ ∧
      w'.pxes = w.pxes ∧ w'.dhcps = w.dhcps ∧
      w'.hosts host.Name = some host1 ∧ host1.Name = host.Name ∧
      host1.Finalizers = host.Finalizers ∧
      (∃ ref, host1.Spec.ClaimRef = some ref ∧ ref.UID = claim.UID) ∧
      host1.Spec.FooUUID = host.Spec.FooUUID ∧
      (¬ (claim.Spec.Power = PowerStateOn ∧ claim.Spec.IgnitionRef ≠ none) →
        host1.Spec.Power = claim.Spec.Power) ∧
      w'.claims (claim.Namespace, claim.Name) = some claim1 ∧
      claim1.Name = claim.Name ∧ claim1.Namespace = claim.Namespace ∧ claim1.UID = claim.UID ∧
      claim1.Finalizers = claim.Finalizers ∧ claim1.Spec = claim.Spec ∧
      claim1.Status.Phase = PhaseBound := by
  unfold reconcileClaimRef
  rcases hcr with hnone | ⟨ref, href, huid⟩
  · rw [if_pos hnone]
    obtain ⟨new1, e1, n1, sp1, -, f1⟩ := patchHost_ok w host
      { host with Spec := { host.Spec with ClaimRef := some (claimRefOf claim) } } host false hh
      (versionOk_unchanged _ _)
    rw [mergeHostSpec_self] at sp1
    rw [pick_same] at f1
    have hh1 : ({ w with hosts := Function.update w.hosts host.Name (some new1) } : World).hosts
        new1.Name = some new1 := by
      show Function.update w.hosts host.Name (some new1) new1.Name = some new1
      rw [n1, Function.update_same]
    obtain ⟨w3, t3, claim1, host1, r3, hp3, hd3, hh3, hn3, hf3, hcr3, hu3, hpw3, hc3⟩ :=
      reconcilePower_full { w with hosts := Function.update w.hosts host.Name (some new1) }
        claim new1 pxe hc hh1 (by rw [sp1]; exact Option.some_ne_none _) hp hst
    simp only [interp_call, handle, exec, e1, r3]
    refine ⟨_, _, claim1, host1, rfl, hp3, hd3, by rw [← n1]; exact hh3, by rw [hn3, n1],
      by rw [hf3, f1], ⟨claimRefOf claim, by rw [hcr3, sp1], rfl⟩, by rw [hu3, sp1], hpw3, hc3⟩
  · have hne : host.Spec.ClaimRef ≠ none := by rw [href]; exact Option.some_ne_none _
    rw [if_neg hne]
    obtain ⟨w3, t3, claim1, host1, r3, hp3, hd3, hh3, hn3, hf3, hcr3, hu3, hpw3, hc3⟩ :=
      reconcilePower_full w claim host pxe hc hh hne hp hst
    exact ⟨_, _, claim1, host1, r3, hp3, hd3, hh3, hn3, hf3, ⟨ref, by rw [hcr3, href], huid⟩,
      hu3, hpw3, hc3⟩

end ConvergesHost
/-- A claim reconcile without failure, on a world that stores the claim (with
its finalizer) and the host it references (with the finalizer, unclaimed or
bound to the claim), runs to its end and leaves a converged state. -/
theorem reconcile_converges (w : World) (claim : BareMetalHostClaim) (host : BareMetalHost)
    (hc : w.claims (claim.Namespace, claim.Name) = some claim)
    (hfin : BareMetalHostClaimFinalizer ∈ claim.Finalizers)
    (hh : w.hosts claim.Spec.BareMetalHostRef.Name = some host)
    (hn : host.Name = claim.Spec.BareMetalHostRef.Name)
    (hhf : BareMetalHostClaimFinalizer ∈ host.Finalizers)
    (hcr : host.Spec.ClaimRef = none ∨
      ∃ ref, host.Spec.ClaimRef = some ref ∧ ref.UID = claim.UID) :
    ∃ w1 t claim1 host1, (reconcile claim).interp handle (w, []) = ⟨.ok (), (w1, []), t⟩ ∧
      ClaimConverged w1 claim1 host1 ∧
      w1.claims (claim.Namespace, claim.Name) = some claim1 ∧ claim1.Spec = claim.Spec := by
  obtain ⟨wa, ta, pxe, ra, hha, hca, hda, hpa, pn, pns, po, psp, pst⟩ :=
    applyPXEConfiguration_full w claim host
  obtain ⟨wb, tb, dhcp, rb, hhb, hcb, hpb, hdb, dn, dns, dow, dsp, dst⟩ :=
    applyDHCPConfiguration_full wa claim
  have hcb' : wb.claims (claim.Namespace, claim.Name) = some claim := by rw [hcb, hca]; exact hc
  have hhb' : wb.hosts host.Name = some host := by rw [hhb, hha, hn]; exact hh
  have hpb' : wb.pxes (claim.Namespace, claim.Name) = some pxe := by rw [hpb]; exact hpa
  obtain ⟨w3, t3, claim1, host1, r3, hp3, hd3, hh3, hn3, hf3, hcr3, hu3, hpw3, hc3, cn, cns, cu,
    cf, csp, cph⟩ := reconcileClaimRef_full wb claim host pxe hcb' hhb' hcr hpb' pst
  have hrh : (reconcileHost claim host).interp handle (w, []) =
      ⟨.ok (), (w3, []), ta ++ (tb ++ t3)⟩ := by
    unfold reconcileHost PatchEnsureFinalizerHost
    rw [if_pos hhf]
    simp only [interp_bind, interp_ret, ra, rb, r3, List.nil_append]
  have hany : host.Spec.ClaimRef.any (fun ref => ref.UID != claim.UID) = false := by
    rcases hcr with hnone | ⟨ref, href, huid⟩
    · rw [hnone]; rfl
    · rw [href]; simp [huid]
  have hpx : claimPXE claim1 host1 = claimPXE claim host := by
    unfold claimPXE
    rw [cn, cns, cu, csp, hu3]
  have hdh : claimDHCP claim1 = claimDHCP claim := by
    unfold claimDHCP
    rw [cn, cns, cu, csp]
  have hrun : ∃ t, (reconcile claim).interp handle (w, []) = ⟨.ok (), (w3, []), t⟩ := by
    unfold reconcile PatchEnsureFinalizerClaim
    rw [if_pos hfin]
    simp only [interp_bind, interp_ret, interp_call, handle, exec, World.getHost, hh, hany,
      Bool.false_eq_true, if_false, List.nil_append, hrh]
    exact ⟨_, rfl⟩
  obtain ⟨t, hrun⟩ := hrun
  refine ⟨w3, t, claim1, host1, hrun, ?_, hc3, csp⟩
  · refine ⟨by rw [cns, cn]; exact hc3, by rw [cf]; exact hfin, cph, ?_, by rw [hn3, csp, hn],
      by rw [hf3]; exact hhf, ?_, ?_, ⟨pxe, ?_, ?_, ?_, ?_, ?_, pst⟩,
      ⟨dhcp, ?_, ?_, ?_, ?_, ?_, dst⟩⟩
    · rw [csp, ← hn]; exact hh3
    · obtain ⟨ref, href, huid⟩ := hcr3
      exact ⟨ref, href, by rw [huid, cu]⟩
    · rw [csp]; exact hpw3
    · rw [cns, cn, hp3]; exact hpb'
    · rw [pn, cn]
    · rw [pns, cns]
    · rw [hpx]; exact po
    · rw [hpx]; exact psp
    · rw [cns, cn, hd3]; exact hdb
    · rw [dn, cn]
    · rw [dns, cns]
    · rw [hdh]; exact dow
    · rw [hdh]; exact dsp

/-- C17: on the store state a completed claim reconcile without failure leaves
(the claim Bound with its finalizer, the host bound to it, the PXE and DHCP
objects applied), the claim reconcile of the stored claim succeeds again and
leaves the whole world as it is, the PXE and DHCP objects and their status
included; every call it issues succeeds and is a no-op on that world. -/
theorem C17_reconcile_idempotent (w : World) (claim : BareMetalHostClaim) (host : BareMetalHost)
    (hc : w.claims (claim.Namespace, claim.Name) = some claim)
    (hfin : BareMetalHostClaimFinalizer ∈ claim.Finalizers)
    (hh : w.hosts claim.Spec.BareMetalHostRef.Name = some host)
    (hn : host.Name = claim.Spec.BareMetalHostRef.Name)
    (hhf : BareMetalHostClaimFinalizer ∈ host.Finalizers)
    (hcr : host.Spec.ClaimRef = none ∨
      ∃ ref, host.Spec.ClaimRef = some ref ∧ ref.UID = claim.UID) :
    (run [] (reconcile claim) w).value = .ok () ∧
    ∃ claim1 host1,
      (run [] (reconcile claim) w).state.1.claims (claim.Namespace, claim.Name) = some claim1 ∧
      claim1.Spec = claim.Spec ∧
      ClaimConverged (run [] (reconcile claim) w).state.1 claim1 host1 ∧
      (run [] (reconcile claim1) (run [] (reconcile claim) w).state.1).value = .ok () ∧
      (run [] (reconcile claim1) (run [] (reconcile claim) w).state.1).state.1 =
        (run [] (reconcile claim) w).state.1 ∧
      ∀ e ∈ (run [] (reconcile claim1) (run [] (reconcile claim) w).state.1).trace,
        e.succeeded = true ∧
        (exec e.call (run [] (reconcile claim) w).state.1).2 =
          (run [] (reconcile claim) w).state.1 := by
  obtain ⟨w1, t, claim1, host1, r1, hcv, hc1, csp⟩ :=
    reconcile_converges w claim host hc hfin hh hn hhf hcr
  obtain ⟨t2, r2, h2⟩ := reconcile_converged_noop w1 claim1 host1 hcv
  unfold run
  rw [r1]
  refine ⟨rfl, claim1, host1, hc1, csp, hcv, ?_, ?_, ?_⟩
  · show ((reconcile claim1).interp handle (w1, [])).value = .ok ()
    rw [r2]
  · show ((reconcile claim1).interp handle (w1, [])).state.1 = w1
    rw [r2]
  · show ∀ e ∈ ((reconcile claim1).interp handle (w1, [])).trace, _
    rw [r2]
    exact h2

/-- C17 at the claim `otherClaim` and the unclaimed host of `freeWorld`: the
first reconcile binds the host, the second one changes nothing. -/
theorem C17_reconcile_idempotent_witness :
    (run [] (reconcile otherClaim) freeWorld).value = .ok () ∧
    (run [] (reconcile otherClaim) freeWorld).state.1.hostClaimRef "h1" =
      some (some (claimRefOf otherClaim)) ∧
    ∃ claim1,
      (run [] (reconcile otherClaim) freeWorld).state.1.claims ("ns", "c2") = some claim1 ∧
      (run [] (reconcile claim1) (run [] (reconcile otherClaim) freeWorld).state.1).value =
        .ok () ∧
      (run [] (reconcile claim1) (run [] (reconcile otherClaim) freeWorld).state.1).state.1 =
        (run [] (reconcile otherClaim) freeWorld).state.1 :=
  have h := C17_reconcile_idempotent freeWorld otherClaim freeHost (by decide) (by decide)
    (by decide) (by decide) (by decide) (Or.inl (by decide))
  ⟨h.1, by decide,
    h.2.elim fun claim1 hh => hh.elim fun host1 hh => ⟨claim1, hh.1, hh.2.2.2.1, hh.2.2.2.2.1⟩⟩

/-! ## C18: the state of a PXE object under the claim reconcile -/

/-- A claim reconcile without failure, on a world that stores the claim (with
its finalizer) and the host it references (with the finalizer, unclaimed or
bound to the claim), succeeds and leaves the PXE object of the claim with the
spec it applies and at state Created, whatever the object was before; the spec
of the claim is unchanged. -/
theorem reconcile_resets_pxe (w : World) (claim : BareMetalHostClaim) (host : BareMetalHost)
    (hc : w.claims (claim.Namespace, claim.Name) = some claim)
    (hfin : BareMetalHostClaimFinalizer ∈ claim.Finalizers)
    (hh : w.hosts claim.Spec.BareMetalHostRef.Name = some host)
    (hn : host.Name = claim.Spec.BareMetalHostRef.Name)
    (hhf : BareMetalHostClaimFinalizer ∈ host.Finalizers)
    (hcr : host.Spec.ClaimRef = none ∨
      ∃ ref, host.Spec.ClaimRef = some ref ∧ ref.UID = claim.UID) :
    ∃ w1 t claim1 pxe, (reconcile claim).interp handle (w, []) = ⟨.ok (), (w1, []), t⟩ ∧
      w1.claims (claim.Namespace, claim.Name) = some claim1 ∧ claim1.Spec = claim.Spec ∧
      w1.pxes (claim.Namespace, claim.Name) = some pxe ∧
      pxe.Spec = (claimPXE claim host).Spec ∧ pxe.Status.State = PXEStateCreated := by
  obtain ⟨wa, ta, pxe, ra, hha, hca, hda, hpa, pn, pns, po, psp, pst⟩ :=
    applyPXEConfiguration_full w claim host
  obtain ⟨wb, tb, dhcp, rb, hhb, hcb, hpb, hdb, dn, dns, dow, dsp, dst⟩ :=
    applyDHCPConfiguration_full wa claim
  have hcb' : wb.claims (claim.Namespace, claim.Name) = some claim := by rw [hcb, hca]; exact hc
  have hhb' : wb.hosts host.Name = some host := by rw [hhb, hha, hn]; exact hh
  have hpb' : wb.pxes (claim.Namespace, claim.Name) = some pxe := by rw [hpb]; exact hpa
  obtain ⟨w3, t3, claim1, host1, r3, hp3, hd3, hh3, hn3, hf3, hcr3, hu3, hpw3, hc3, cn, cns, cu,
    cf, csp, cph⟩ := reconcileClaimRef_full wb claim host pxe hcb' hhb' hcr hpb' pst
  have hrh : (reconcileHost claim host).interp handle (w, []) =
      ⟨.ok (), (w3, []), ta ++ (tb ++ t3)⟩ := by
    unfold reconcileHost PatchEnsureFinalizerHost
    rw [if_pos hhf]
    simp only [interp_bind, interp_ret, ra, rb, r3, List.nil_append]
  have hany : host.Spec.ClaimRef.any (fun ref => ref.UID != claim.UID) = false := by
    rcases hcr with hnone | ⟨ref, href, huid⟩
    · rw [hnone]; rfl
    · rw [href]; simp [huid]
  have hrun : ∃ t, (reconcile claim).interp handle (w, []) = ⟨.ok (), (w3, []), t⟩ := by
    unfold reconcile PatchEnsureFinalizerClaim
    rw [if_pos hfin]
    simp only [interp_bind, interp_ret, interp_call, handle, exec, World.getHost, hh, hany,
      Bool.false_eq_true, if_false, List.nil_append, hrh]
    exact ⟨_, rfl⟩
  obtain ⟨t, hrun⟩ := hrun
  exact ⟨w3, t, claim1, pxe, hrun, hc3, csp, by rw [hp3]; exact hpb', psp, pst⟩

/-- C18 (the code departs from the claim): on a world that stores a claim with
its finalizer, the host it references (with the finalizer, unclaimed or bound to
the claim) and the PXE object of the claim with the spec the claim applies and
at state Ready, the claim reconcile without failure succeeds and leaves the
spec of the claim and the spec of the PXE object as they were, yet the PXE
object ends at state Created, not Ready: `applyPXEConfiguration` patches the
status to Created on every pass. -/
theorem C18_pxe_state_regresses (w : World) (claim : BareMetalHostClaim) (host : BareMetalHost)
    (hc : w.claims (claim.Namespace, claim.Name) = some claim)
    (hfin : BareMetalHostClaimFinalizer ∈ claim.Finalizers)
    (hh : w.hosts claim.Spec.BareMetalHostRef.Name = some host)
    (hn : host.Name = claim.Spec.BareMetalHostRef.Name)
    (hhf : BareMetalHostClaimFinalizer ∈ host.Finalizers)
    (hcr : host.Spec.ClaimRef = none ∨
      ∃ ref, host.Spec.ClaimRef = some ref ∧ ref.UID = claim.UID)
    (hready : (w.pxes (claim.Namespace, claim.Name)).map
        (fun pxe => (pxe.Spec, pxe.Status.State)) =
      some ((claimPXE claim host).Spec, PXEStateReady)) :
    (run [] (reconcile claim) w).value = .ok () ∧
    (∃ claim1, (run [] (reconcile claim) w).state.1.claims (claim.Namespace, claim.Name) =
        some claim1 ∧ claim1.Spec = claim.Spec) ∧
    ((run [] (reconcile claim) w).state.1.pxes (claim.Namespace, claim.Name)).map
        (fun pxe => (pxe.Spec, pxe.Status.State)) =
      some ((claimPXE claim host).Spec, PXEStateCreated) ∧
    (run [] (reconcile claim) w).state.1.pxeState claim.Namespace claim.Name =
      some PXEStateCreated ∧
    w.pxeState claim.Namespace claim.Name = some PXEStateReady ∧
    (run [] (reconcile claim) w).state.1.pxeState claim.Namespace claim.Name ≠
      w.pxeState claim.Namespace claim.Name := by
  obtain ⟨w1, t, claim1, pxe, hrun, hc1, csp, hp1, psp, pst⟩ :=
    reconcile_resets_pxe w claim host hc hfin hh hn hhf hcr
  have hbefore : w.pxeState claim.Namespace claim.Name = some PXEStateReady := by
    unfold World.pxeState
    rcases hw : w.pxes (claim.Namespace, claim.Name) with _ | pxe0
    · rw [hw] at hready; cases hready
    · rw [hw] at hready
      simp only [Option.map_some', Option.some.injEq, Prod.mk.injEq] at hready
      simp only [Option.map_some', hready.2]
  have hafter : w1.pxeState claim.Namespace claim.Name = some PXEStateCreated := by
    unfold World.pxeState
    rw [hp1]
    simp only [Option.map_some', pst]
  unfold run
  rw [hrun]
  refine ⟨rfl, ⟨claim1, hc1, csp⟩, ?_, hafter, hbefore, ?_⟩
  · show (w1.pxes (claim.Namespace, claim.Name)).map _ = _
    rw [hp1]
    simp only [Option.map_some', psp, pst]
  · show w1.pxeState claim.Namespace claim.Name ≠ w.pxeState claim.Namespace claim.Name
    rw [hafter, hbefore]
    decide

/-- C18 on `convergedWorld`, reached from a host with the system UUID `uuid-1`
by one claim reconcile and two PXE reconcile passes: the host is stored, the PXE
object has the spec the claim applies (system UUID `uuid-1`) and is at Ready,
the boot secret `pxe-system/ipxe-uuid-1` is there; the claim reconcile of the
stored claim succeeds, leaves the claim, the host and the spec of the PXE object
as they were, and leaves the PXE object at Created. -/
theorem C18_pxe_state_regresses_witness :
    convergedWorld.hosts "h1" = some uuidHost ∧
    (convergedWorld.pxes ("ns", "c1")).map (fun pxe => (pxe.Spec, pxe.Status.State)) =
      some ((claimPXE boundClaim uuidHost).Spec, PXEStateReady) ∧
    (convergedWorld.pxes ("ns", "c1")).map (fun pxe => pxe.Spec.SystemUUID) = some "uuid-1" ∧
    (convergedWorld.secrets ("pxe-system", "ipxe-uuid-1")).map (fun x => x.Data) =
      some [("ignition", [123, 125])] ∧
    convergedWorld.claims ("ns", "c1") = some boundClaim ∧
    convergedWorld.pxeState "ns" "c1" = some PXEStateReady ∧
    (run [] (reconcile boundClaim) convergedWorld).value = .ok () ∧
    (run [] (reconcile boundClaim) convergedWorld).state.1.claims ("ns", "c1") =
      some boundClaim ∧
    (run [] (reconcile boundClaim) convergedWorld).state.1.hosts "h1" =
      convergedWorld.hosts "h1" ∧
    ((run [] (reconcile boundClaim) convergedWorld).state.1.pxes ("ns", "c1")).map
        (fun pxe => pxe.Spec) = (convergedWorld.pxes ("ns", "c1")).map (fun pxe => pxe.Spec) ∧
    (run [] (reconcile boundClaim) convergedWorld).state.1.pxeState "ns" "c1" =
      some PXEStateCreated ∧
    (run [] (BareMetalHostClaimReconciler.Reconcile "ns" "c1") convergedWorld).state.1.pxeState
      "ns" "c1" = some PXEStateCreated :=
  have h := C18_pxe_state_regresses convergedWorld boundClaim uuidHost (by decide) (by decide)
    (by decide) (by decide) (by decide) (Or.inr ⟨claimRefOf sampleClaim, by decide, by decide⟩)
    (by decide)
  ⟨by decide, by decide, by decide, by decide, by decide, h.2.2.2.2.1, h.1, by decide,
    by decide, by decide, h.2.2.2.1, by decide⟩

/-! ## C19: the claims enqueued for a host -/

theorem enqueueLoop_length (host : BareMetalHost) (claims : List BareMetalHostClaim) :
    (enqueueLoop host [] claims).length ≤ 1 := by
  induction claims with
  | nil => simp [enqueueLoop]
  | cons claim rest ih =>
    unfold enqueueLoop
    split
    · simp
    · exact ih

/-- C19 (the code departs from the claim): the map function returns at most
one request, the one of the first claim that refers to the host; on
`twoClaimsWorld`, where the claims `c1` and `c2` both refer to the host `h1`,
it returns the request for `c1` only. -/
theorem C19_enqueue_first_match_only :
    (∀ (host : BareMetalHost) (claims : List BareMetalHostClaim),
      (enqueueLoop host [] claims).length ≤ 1 ∧
      enqueueLoop host [] claims =
        ((claims.find? (fun claim => claim.Spec.BareMetalHostRef.Name = host.Name)).map
          (fun claim => ({ Namespace := claim.Namespace, Name := claim.Name } : Request))).toList) ∧
    sampleClaim.Spec.BareMetalHostRef.Name = freeHost.Name ∧
    otherClaim.Spec.BareMetalHostRef.Name = freeHost.Name ∧
    (run [] (enqueueBareMetalHostClaimsByRefs freeHost) twoClaimsWorld).value =
      [{ Namespace := "ns", Name := "c1" }] ∧
    ({ Namespace := "ns", Name := "c2" } : Request) ∉
      (run [] (enqueueBareMetalHostClaimsByRefs freeHost) twoClaimsWorld).value := by
  refine ⟨fun host claims => ⟨enqueueLoop_length host claims, ?_⟩, by decide, by decide,
    by decide, by decide⟩
  induction claims with
  | nil => rfl
  | cons claim rest ih =>
    unfold enqueueLoop
    by_cases hc : claim.Spec.BareMetalHostRef.Name = host.Name
    · simp [hc]
    · simp [hc, ih]

/-! ## C20: the PXE reconcile of an object without ignition reference -/

/-- C20 (the code departs from the claim): for a PXE object that carries its
finalizer and has no ignition reference, against any environment: if the name
of the claim reference is empty, the PXE reconcile returns success without any
call; if it is set, the reconcile looks the claim up and then returns the
error of the lookup or, when the lookup succeeds, panics on reading the name
through the nil ignition reference; it never returns success. -/
theorem C20_missing_ignition_ref {σ : Type} (h : (c : Call) → σ → Except Error (Resp c) × σ)
    (s : σ) (PXEServiceNamespace : String) (pxeConfig : PXE)
    (hfin : PXEFinalizer ∈ pxeConfig.Finalizers) (hign : pxeConfig.Spec.IgnitionRef = none) :
    (pxeConfig.Spec.BareMetalHostClaimRef.Name = "" →
      (PXEReconciler.reconcile PXEServiceNamespace pxeConfig).interp h s =
        ⟨.returned (.ok ()), s, []⟩) ∧
    (pxeConfig.Spec.BareMetalHostClaimRef.Name ≠ "" →
      ((PXEReconciler.reconcile PXEServiceNamespace pxeConfig).interp h s).trace =
        [⟨.getClaim pxeConfig.Namespace pxeConfig.Spec.BareMetalHostClaimRef.Name,
          (h (.getClaim pxeConfig.Namespace pxeConfig.Spec.BareMetalHostClaimRef.Name) s).1⟩] ∧
      (∀ err,
        (h (.getClaim pxeConfig.Namespace pxeConfig.Spec.BareMetalHostClaimRef.Name) s).1 =
          .error err →
        ((PXEReconciler.reconcile PXEServiceNamespace pxeConfig).interp h s).value =
          .returned (.error err)) ∧
      (∀ claim,
        (h (.getClaim pxeConfig.Namespace pxeConfig.Spec.BareMetalHostClaimRef.Name) s).1 =
          .ok claim →
        ((PXEReconciler.reconcile PXEServiceNamespace pxeConfig).interp h s).value =
          .panicked "invalid memory address or nil pointer dereference") ∧
      ((PXEReconciler.reconcile PXEServiceNamespace pxeConfig).interp h s).value ≠
        .returned (.ok ())) := by
  have hp : (PatchEnsureFinalizerPXE pxeConfig PXEFinalizer).interp h s =
      ⟨.ok (false, pxeConfig), s, []⟩ := by
    unfold PatchEnsureFinalizerPXE
    rw [if_pos hfin, interp_ret]
  unfold PXEReconciler.reconcile
  rw [interp_bind, hp]
  simp only [List.nil_append]
  refine ⟨fun hn => ?_, fun hn => ?_⟩
  · rw [if_neg (not_not.2 hn), interp_ret]
  · rw [if_pos hn, interp_call]
    simp only
    rcases (h (.getClaim pxeConfig.Namespace pxeConfig.Spec.BareMetalHostClaimRef.Name) s).1 with
      err | claim
    · simp [interp_ret]
    · simp [hign, interp_ret]

/-- C20 at the PXE object of the claim `c2`, which has no ignition reference:
on the world that stores the claim the reconcile panics after the lookup of
the claim; such an object arises from the claim reconcile of `c2` followed by
one PXE pass, and the next PXE pass on it panics. -/
theorem C20_missing_ignition_ref_witness :
    PXEFinalizer ∈ bareClaimPXE.Finalizers ∧ bareClaimPXE.Spec.IgnitionRef = none ∧
    bareClaimPXE.Spec.BareMetalHostClaimRef.Name ≠ "" ∧
    (run [] (PXEReconciler.reconcile "pxe-system" bareClaimPXE) freeWorld).value =
      .panicked "invalid memory address or nil pointer dereference" ∧
    (run [] (PXEReconciler.reconcile "pxe-system" bareClaimPXE) freeWorld).value ≠
      .returned (.ok ()) ∧
    (bareClaimWorld.pxes ("ns", "c2")).map (fun pxe => (pxe.Finalizers, pxe.Spec)) =
      some (bareClaimPXE.Finalizers, bareClaimPXE.Spec) ∧
    (run [] (PXEReconciler.Reconcile "pxe-system" "ns" "c2") bareClaimWorld).value =
      .panicked "invalid memory address or nil pointer dereference" :=
  have h := (C20_missing_ignition_ref handle (freeWorld, []) "pxe-system" bareClaimPXE
    (by decide) (by decide)).2 (by decide)
  ⟨by decide, by decide, by decide, h.2.2.1 otherClaim rfl, h.2.2.2, by decide, rfl⟩

/-! ## C21: the key of the boot secret -/

theorem ipxe_name_injective (a b : String) (hab : "ipxe-" ++ a = "ipxe-" ++ b) : a = b := by
  have hd := congrArg String.data hab
  rw [String.data_append, String.data_append] at hd
  exact String.ext (List.append_cancel_left hd)

section SecretKey
variable {σ : Type} (h : (c : Call) → σ → Except Error (Resp c) × σ)

theorem PatchEnsureFinalizerPXE_no_secret (s : σ) (pxe : PXE) (f : String) :
    ∀ e ∈ ((PatchEnsureFinalizerPXE pxe f).interp h s).trace, e.call.writtenSecretKey = none := by
  unfold PatchEnsureFinalizerPXE
  split
  · simp [Prog.interp]
  · rw [forall_trace_call]
    refine ⟨rfl, ?_⟩
    cases (h _ s).1 <;> simp [Prog.interp]

/-- The object `PatchEnsureFinalizer` hands on when it did not modify it is the
object passed in. -/
theorem PatchEnsureFinalizerPXE_unmodified (s : σ) (pxe pxe1 : PXE) (f : String)
    (hv : ((PatchEnsureFinalizerPXE pxe f).interp h s).value = .ok (false, pxe1)) :
    pxe1 = pxe := by
  unfold PatchEnsureFinalizerPXE at hv
  split at hv
  · simp only [Prog.interp] at hv
    injection hv with hv
    injection hv with _ hv
    exact hv.symm
  · simp only [Prog.interp] at hv
    split at hv <;> simp [Prog.interp] at hv

theorem reconcileSecret_key (s : σ) (ns : String) (pxe : PXE) (ignitionSecret : Secret) :
    ∀ e ∈ ((PXEReconciler.reconcileSecret ns pxe ignitionSecret).interp h s).trace,
      ∀ k, e.call.writtenSecretKey = some k → k = (ns, "ipxe-" ++ pxe.Spec.SystemUUID) := by
  unfold PXEReconciler.reconcileSecret
  simp only
  rw [forall_trace_call]
  refine ⟨?_, ?_⟩
  · intro k hk
    simp only [Call.writtenSecretKey, Option.some.injEq] at hk
    exact hk.symm
  · cases (h _ s).1
    · simp [Prog.interp]
    · simp only
      rw [forall_trace_call]
      refine ⟨fun k hk => ?_, ?_⟩
      · cases hk
      cases (h _ _).1 <;> simp [Prog.interp]

theorem reconcile_secret_key (s : σ) (ns : String) (pxe : PXE) :
    ∀ e ∈ ((PXEReconciler.reconcile ns pxe).interp h s).trace,
      ∀ k, e.call.writtenSecretKey = some k → k = (ns, "ipxe-" ++ pxe.Spec.SystemUUID) := by
  unfold PXEReconciler.reconcile
  rw [forall_trace_bind]
  refine ⟨fun e he k hk => ?_, ?_⟩
  · rw [PatchEnsureFinalizerPXE_no_secret h s pxe _ e he] at hk
    cases hk
  · have hu := fun pxe1 => PatchEnsureFinalizerPXE_unmodified h s pxe pxe1 PXEFinalizer
    generalize (PatchEnsureFinalizerPXE pxe PXEFinalizer).interp h s = o at hu ⊢
    obtain ⟨v, s1, t1⟩ := o
    rcases v with err | ⟨_ | _, pxe1⟩
    · simp [Prog.interp]
    · obtain rfl := hu pxe1 rfl
      simp only
      split
      · rw [forall_trace_call]
        refine ⟨fun k hk => ?_, ?_⟩
        · cases hk
        rcases (h _ s1).1 with err | claim
        · simp [Prog.interp]
        · simp only
          split
          · simp [Prog.interp]
          · rw [forall_trace_call]
            refine ⟨fun k hk => ?_, ?_⟩
            · cases hk
            rcases (h _ _).1 with err | ignitionSecret
            · simp [Prog.interp]
            · exact reconcileSecret_key h _ ns pxe1 ignitionSecret
      · simp [Prog.interp]
    · simp [Prog.interp]

theorem PatchEnsureNoFinalizerPXE_no_secret (s : σ) (pxe : PXE) (f : String) :
    ∀ e ∈ ((PatchEnsureNoFinalizerPXE pxe f).interp h s).trace,
      e.call.writtenSecretKey = none := by
  unfold PatchEnsureNoFinalizerPXE
  split
  · rw [forall_trace_call]
    refine ⟨rfl, ?_⟩
    cases (h _ s).1 <;> simp [Prog.interp]
  · simp [Prog.interp]

theorem delete_secret_key (s : σ) (ns : String) (pxe : PXE) :
    (∃ r rest, ((PXEReconciler.delete ns pxe).interp h s).trace =
      ⟨.deleteSecret ns ("ipxe-" ++ pxe.Spec.SystemUUID), r⟩ :: rest) ∧
    ∀ e ∈ ((PXEReconciler.delete ns pxe).interp h s).trace,
      ∀ k, e.call.writtenSecretKey = some k → k = (ns, "ipxe-" ++ pxe.Spec.SystemUUID) := by
  unfold PXEReconciler.delete
  refine ⟨⟨_, _, rfl⟩, ?_⟩
  rw [forall_trace_call]
  refine ⟨?_, ?_⟩
  · intro k hk
    simp only [Call.writtenSecretKey, Option.some.injEq] at hk
    exact hk.symm
  · cases (h _ s).1
    · simp [Prog.interp]
    · simp only
      rw [forall_trace_bind]
      refine ⟨fun e he k hk => ?_, ?_⟩
      · rw [PatchEnsureNoFinalizerPXE_no_secret h _ pxe _ e he] at hk
        cases hk
      · cases ((PatchEnsureNoFinalizerPXE pxe PXEFinalizer).interp h _).value <;>
          simp [Prog.interp]

end SecretKey

/-- C21: against any environment, every secret the PXE reconcile of an object
writes and every secret the PXE delete of an object removes has the key
(`PXEServiceNamespace`, `"ipxe-"` followed by the system UUID of the object),
and the first call of delete is the removal of that secret.  Hence objects with
the same system UUID address the same key in reconcile and in delete, and
objects with distinct system UUIDs address distinct keys. -/
theorem C21_secret_key {σ : Type} (h : (c : Call) → σ → Except Error (Resp c) × σ) (s s' : σ)
    (PXEServiceNamespace : String) (pxe pxe' : PXE) :
    (∀ e ∈ ((PXEReconciler.reconcile PXEServiceNamespace pxe).interp h s).trace,
      ∀ k, e.call.writtenSecretKey = some k →
        k = (PXEServiceNamespace, "ipxe-" ++ pxe.Spec.SystemUUID)) ∧
    (∃ r rest, ((PXEReconciler.delete PXEServiceNamespace pxe').interp h s').trace =
      ⟨.deleteSecret PXEServiceNamespace ("ipxe-" ++ pxe'.Spec.SystemUUID), r⟩ :: rest) ∧
    (∀ e ∈ ((PXEReconciler.delete PXEServiceNamespace pxe').interp h s').trace,
      ∀ k, e.call.writtenSecretKey = some k →
        k = (PXEServiceNamespace, "ipxe-" ++ pxe'.Spec.SystemUUID)) ∧
    ((PXEServiceNamespace, "ipxe-" ++ pxe.Spec.SystemUUID) =
        (PXEServiceNamespace, "ipxe-" ++ pxe'.Spec.SystemUUID) ↔
      pxe.Spec.SystemUUID = pxe'.Spec.SystemUUID) := by
  refine ⟨reconcile_secret_key h s _ pxe, (delete_secret_key h s' _ pxe').1,
    (delete_secret_key h s' _ pxe').2, ?_⟩
  constructor
  · intro hk
    exact ipxe_name_injective _ _ (Prod.mk.inj hk).2
  · intro hu
    rw [hu]

/-- C21 at the object `ignitionPXE`: the reconcile writes the secret
`pxe-system/ipxe-uuid-1`, and the delete of the same object removes that
secret. -/
theorem C21_secret_key_witness :
    (∃ e ∈ (run [] (PXEReconciler.reconcile "pxe-system" ignitionPXE) ignitionPXEWorld).trace,
      e.call.writtenSecretKey = some ("pxe-system", "ipxe-uuid-1")) ∧
    (∀ e ∈ (run [] (PXEReconciler.reconcile "pxe-system" ignitionPXE) ignitionPXEWorld).trace,
      ∀ k, e.call.writtenSecretKey = some k → k = ("pxe-system", "ipxe-uuid-1")) ∧
    (∃ e ∈ (run [] (PXEReconciler.delete "pxe-system" ignitionPXE) servedWorld).trace,
      e.call.writtenSecretKey = some ("pxe-system", "ipxe-uuid-1")) ∧
    ∀ e ∈ (run [] (PXEReconciler.delete "pxe-system" ignitionPXE) servedWorld).trace,
      ∀ k, e.call.writtenSecretKey = some k → k = ("pxe-system", "ipxe-uuid-1") :=
  have h := C21_secret_key handle (ignitionPXEWorld, []) (servedWorld, []) "pxe-system"
    ignitionPXE ignitionPXE
  ⟨by decide, h.1, by decide, h.2.2.1⟩

/-! ## C22: the boot secret and the state Ready -/

theorem stampSecret_eq (stored new : Secret) :
    ∃ rv, stampSecret stored new = { new with ResourceVersion := rv } := by
  unfold stampSecret
  split
  · next h => exact ⟨stored.ResourceVersion, by rw [← h]⟩
  · exact ⟨_, rfl⟩

/-- Applying a secret succeeds and stores it under its key with the applied
data; only the secrets change. -/
theorem applySecret_ok (w : World) (x : Secret) :
    ∃ new, w.applySecret x =
        (.ok new,
          { w with secrets := Function.update w.secrets (x.Namespace, x.Name) (some new) }) ∧
      new.Data = x.Data := by
  unfold World.applySecret
  cases w.secrets (x.Namespace, x.Name) with
  | none => exact ⟨_, rfl, rfl⟩
  | some stored =>
    obtain ⟨rv, hrv⟩ := stampSecret_eq stored
      { stored with
        Name := x.Name, Namespace := x.Namespace
        OwnerReferences := x.OwnerReferences, Data := x.Data }
    simp only [hrv]
    exact ⟨_, rfl, rfl⟩

/-- C22: for a PXE object with its finalizer, a claim reference and an ignition
reference.  Against any environment, a reconcile in which every call succeeds
reads the claim and the ignition secret, applies the secret
`PXEServiceNamespace`/`ipxe-<system UUID>` with exactly the data of the ignition
secret, then patches the status to Ready, and returns success.  On a world that
stores the claim, the ignition secret and the PXE object, the reconcile without
failure does succeed, and afterwards the store holds the boot secret with the
data of the ignition secret and the PXE object at state Ready. -/
theorem C22_secret_copied {σ : Type} (h : (c : Call) → σ → Except Error (Resp c) × σ) (s : σ)
    (w : World) (PXEServiceNamespace : String) (pxe : PXE) (ref : LocalObjectReference)
    (hfin : PXEFinalizer ∈ pxe.Finalizers)
    (hcl : pxe.Spec.BareMetalHostClaimRef.Name ≠ "")
    (hign : pxe.Spec.IgnitionRef = some ref) :
    ((∀ e ∈ ((PXEReconciler.reconcile PXEServiceNamespace pxe).interp h s).trace,
        e.succeeded = true) →
      ((PXEReconciler.reconcile PXEServiceNamespace pxe).interp h s).value = .returned (.ok ()) ∧
      ∃ claim ignitionSecret r3 r4,
        ((PXEReconciler.reconcile PXEServiceNamespace pxe).interp h s).trace =
          [⟨.getClaim pxe.Namespace pxe.Spec.BareMetalHostClaimRef.Name, .ok claim⟩,
            ⟨.getSecret pxe.Namespace ref.Name, .ok ignitionSecret⟩,
            ⟨.applySecret
              { Namespace := PXEServiceNamespace, Name := "ipxe-" ++ pxe.Spec.SystemUUID
                Data := ignitionSecret.Data } false, .ok r3⟩,
            ⟨.patchPXEStatus pxe
              { pxe with Status := { pxe.Status with State := PXEStateReady } }, .ok r4⟩]) ∧
    (∀ claim ignitionSecret,
      w.claims (pxe.Namespace, pxe.Spec.BareMetalHostClaimRef.Name) = some claim →
      w.secrets (pxe.Namespace, ref.Name) = some ignitionSecret →
      w.pxes (pxe.Namespace, pxe.Name) = some pxe →
      (run [] (PXEReconciler.reconcile PXEServiceNamespace pxe) w).value = .returned (.ok ()) ∧
      (∀ e ∈ (run [] (PXEReconciler.reconcile PXEServiceNamespace pxe) w).trace,
        e.succeeded = true) ∧
      (∃ secret, (run [] (PXEReconciler.reconcile PXEServiceNamespace pxe) w).state.1.secrets
          (PXEServiceNamespace, "ipxe-" ++ pxe.Spec.SystemUUID) = some secret ∧
        secret.Data = ignitionSecret.Data) ∧
      (run [] (PXEReconciler.reconcile PXEServiceNamespace pxe) w).state.1.pxeState
        pxe.Namespace pxe.Name = some PXEStateReady) := by
  have hp : ∀ (σ : Type) (h : (c : Call) → σ → Except Error (Resp c) × σ) (s : σ),
      (PatchEnsureFinalizerPXE pxe PXEFinalizer).interp h s = ⟨.ok (false, pxe), s, []⟩ := by
    intro σ h s
    unfold PatchEnsureFinalizerPXE
    rw [if_pos hfin, interp_ret]
  refine ⟨?_, ?_⟩
  · unfold PXEReconciler.reconcile
    rw [interp_bind, hp]
    simp only [List.nil_append]
    rw [if_pos hcl, interp_call]
    intro hok
    rcases hr1 : h (.getClaim pxe.Namespace pxe.Spec.BareMetalHostClaimRef.Name) s with
      ⟨err | claim, s1⟩
    · simp [hr1, interp_ret, Event.succeeded] at hok
    · simp only [hr1, hign, interp_call] at hok ⊢
      rcases hr2 : h (.getSecret pxe.Namespace ref.Name) s1 with ⟨err | ignitionSecret, s2⟩
      · simp [hr2, interp_ret, Event.succeeded] at hok
      · simp only [hr2] at hok ⊢
        unfold PXEReconciler.reconcileSecret at hok ⊢
        simp only [interp_call] at hok ⊢
        rcases hr3 : h (.applySecret
            { Namespace := PXEServiceNamespace, Name := "ipxe-" ++ pxe.Spec.SystemUUID
              Data := ignitionSecret.Data } false) s2 with ⟨err | r3, s3⟩
        · simp [hr3, interp_ret, Event.succeeded] at hok
        · simp only [hr3, interp_call] at hok ⊢
          rcases hr4 : h (.patchPXEStatus pxe
              { pxe with Status := { pxe.Status with State := PXEStateReady } }) s3 with
            ⟨err | r4, s4⟩
          · simp [hr4, interp_ret, Event.succeeded] at hok
          · simp only [hr4, interp_ret]
            exact ⟨trivial, claim, ignitionSecret, r3, r4, rfl⟩
  · intro claim ignitionSecret hc hs hx
    obtain ⟨new, e1, d1⟩ := applySecret_ok w
      { Namespace := PXEServiceNamespace, Name := "ipxe-" ++ pxe.Spec.SystemUUID
        Data := ignitionSecret.Data }
    simp only at e1 d1
    obtain ⟨new2, e2, st2⟩ := patchPXEStatus_ok
      { w with
        secrets := Function.update w.secrets
          (PXEServiceNamespace, "ipxe-" ++ pxe.Spec.SystemUUID) (some new) } pxe PXEStateReady hx
    unfold run PXEReconciler.reconcile
    rw [interp_bind, hp]
    simp only [List.nil_append]
    rw [if_pos hcl]
    unfold PXEReconciler.reconcileSecret
    simp only [interp_call, interp_ret, handle, exec, World.getClaim, World.getSecret, hc, hign,
      hs, e1, e2]
    refine ⟨trivial, ?_, ⟨new, ?_, d1⟩, ?_⟩
    · simp [Event.succeeded]
    · simp
    · simp [World.pxeState, st2]

/-- C22 at the object `ignitionPXE` on `ignitionPXEWorld`: the reconcile
succeeds, the boot secret `pxe-system/ipxe-uuid-1` holds the data of the
ignition secret `ns/ign`, and the object is at Ready. -/
theorem C22_secret_copied_witness :
    PXEFinalizer ∈ ignitionPXE.Finalizers ∧
    (ignitionPXEWorld.secrets ("ns", "ign")).map (fun x => x.Data) =
      some [("ignition", [123, 125])] ∧
    (run [] (PXEReconciler.reconcile "pxe-system" ignitionPXE) ignitionPXEWorld).value =
      .returned (.ok ()) ∧
    (∃ secret, (run [] (PXEReconciler.reconcile "pxe-system" ignitionPXE)
        ignitionPXEWorld).state.1.secrets ("pxe-system", "ipxe-uuid-1") = some secret ∧
      secret.Data = [("ignition", [123, 125])]) ∧
    (run [] (PXEReconciler.reconcile "pxe-system" ignitionPXE) ignitionPXEWorld).state.1.pxeState
      "ns" "c1" = some PXEStateReady :=
  have h := (C22_secret_copied handle (ignitionPXEWorld, []) ignitionPXEWorld "pxe-system"
    ignitionPXE ⟨"ign"⟩ (by decide) (by decide) rfl).2 sampleClaim
    { Name := "ign", Namespace := "ns", ResourceVersion := 1
      Data := [("ignition", [123, 125])] } (by decide) (by decide) (by decide)
  ⟨by decide, by decide, h.1, h.2.2.1, h.2.2.2⟩

/-! ## C23: the finalizer of a PXE object outlives a failed secret deletion -/

/-- C23: against any environment, when the deletion of the boot secret fails,
PXE delete returns that error (wrapped) and has issued no other call; a patch of
the PXE object is issued only after the deletion of the secret has succeeded.
On the store model, when the deletion of the secret fails, delete returns an
error and leaves the world as it is, so the PXE object keeps its finalizer. -/
theorem C23_finalizer_after_secret {σ : Type} (h : (c : Call) → σ → Except Error (Resp c) × σ)
    (s : σ) (w : World) (faults : List Bool) (PXEServiceNamespace : String) (pxe : PXE) :
    (∀ err,
      (h (.deleteSecret PXEServiceNamespace ("ipxe-" ++ pxe.Spec.SystemUUID)) s).1 = .error err →
      (PXEReconciler.delete PXEServiceNamespace pxe).interp h s =
        ⟨.error (.wrap "failed to remove PXE secret" err),
          (h (.deleteSecret PXEServiceNamespace ("ipxe-" ++ pxe.Spec.SystemUUID)) s).2,
          [⟨.deleteSecret PXEServiceNamespace ("ipxe-" ++ pxe.Spec.SystemUUID), .error err⟩]⟩) ∧
    ((∃ e ∈ ((PXEReconciler.delete PXEServiceNamespace pxe).interp h s).trace,
        e.call.isPXEPatch = true) →
      (h (.deleteSecret PXEServiceNamespace ("ipxe-" ++ pxe.Spec.SystemUUID)) s).1 = .ok ()) ∧
    (∀ err,
      (handle (.deleteSecret PXEServiceNamespace ("ipxe-" ++ pxe.Spec.SystemUUID))
        (w, faults)).1 = .error err →
      (run faults (PXEReconciler.delete PXEServiceNamespace pxe) w).value =
        .error (.wrap "failed to remove PXE secret" err) ∧
      (run faults (PXEReconciler.delete PXEServiceNamespace pxe) w).state.1 = w) := by
  have hgen : ∀ (σ : Type) (h : (c : Call) → σ → Except Error (Resp c) × σ) (s : σ) (err : Error),
      (h (.deleteSecret PXEServiceNamespace ("ipxe-" ++ pxe.Spec.SystemUUID)) s).1 = .error err →
      (PXEReconciler.delete PXEServiceNamespace pxe).interp h s =
        ⟨.error (.wrap "failed to remove PXE secret" err),
          (h (.deleteSecret PXEServiceNamespace ("ipxe-" ++ pxe.Spec.SystemUUID)) s).2,
          [⟨.deleteSecret PXEServiceNamespace ("ipxe-" ++ pxe.Spec.SystemUUID), .error err⟩]⟩ := by
    intro σ h s err he
    unfold PXEReconciler.delete
    rw [interp_call, he]
    simp only [interp_ret]
  refine ⟨hgen σ h s, ?_, ?_⟩
  · rintro ⟨e, he, hp⟩
    rcases hr : (h (.deleteSecret PXEServiceNamespace ("ipxe-" ++ pxe.Spec.SystemUUID)) s).1 with
      err | u
    · rw [hgen σ h s err hr, List.mem_singleton] at he
      rw [he] at hp
      cases hp
    · rfl
  · intro err he
    have hw : (handle (.deleteSecret PXEServiceNamespace ("ipxe-" ++ pxe.Spec.SystemUUID))
        (w, faults)).2.1 = w := by
      rcases handle_cases (.deleteSecret PXEServiceNamespace ("ipxe-" ++ pxe.Spec.SystemUUID)) w
        faults with hh | hh
      · rw [hh]
      · rw [hh] at he ⊢
        simp only [exec, World.deleteSecret] at he ⊢
        split at he
        · next hn => simp only [hn]
        · cases he
    unfold run
    rw [hgen _ handle (w, faults) err he]
    exact ⟨rfl, hw⟩

/-- C23 on `servedWorld`, where the boot secret of `ignitionPXE` exists: when
the deletion of the secret is made to fail, delete returns the error and the
stored PXE object still carries its finalizer. -/
theorem C23_finalizer_after_secret_witness :
    (servedWorld.secrets ("pxe-system", "ipxe-uuid-1")).isSome = true ∧
    (run [true] (PXEReconciler.delete "pxe-system" ignitionPXE) servedWorld).value =
      .error (.wrap "failed to remove PXE secret" .unavailable) ∧
    (run [true] (PXEReconciler.delete "pxe-system" ignitionPXE) servedWorld).state.1 =
      servedWorld ∧
    (servedWorld.pxes ("ns", "c1")).map (fun x => x.Finalizers) = some [PXEFinalizer] :=
  have h := (C23_finalizer_after_secret handle (servedWorld, [true]) servedWorld [true]
    "pxe-system" ignitionPXE).2.2 .unavailable rfl
  ⟨by decide, h.1, h.2, by decide⟩

/-! ## C24: PXE delete when the boot secret is absent -/

/-- C24 (the code departs from the claim): when the store holds no boot secret
for the object, PXE delete returns the not-found error of the deletion
(wrapped) instead of success; under any failures it returns an error, issues no
patch of the PXE object and leaves the world as it is, so the finalizer is not
cleared. -/
theorem C24_absent_secret_blocks_delete (w : World) (faults : List Bool)
    (PXEServiceNamespace : String) (pxe : PXE)
    (hs : w.secrets (PXEServiceNamespace, "ipxe-" ++ pxe.Spec.SystemUUID) = none) :
    (run [] (PXEReconciler.delete PXEServiceNamespace pxe) w).value =
      .error (.wrap "failed to remove PXE secret" .notFound) ∧
    (∃ err, (run faults (PXEReconciler.delete PXEServiceNamespace pxe) w).value = .error err) ∧
    (run faults (PXEReconciler.delete PXEServiceNamespace pxe) w).state.1 = w ∧
    ∀ e ∈ (run faults (PXEReconciler.delete PXEServiceNamespace pxe) w).trace,
      e.call.isPXEPatch = false := by
  have hrun : ∀ faults : List Bool, ∃ err,
      (handle (.deleteSecret PXEServiceNamespace ("ipxe-" ++ pxe.Spec.SystemUUID))
        (w, faults)) = (.error err, (w, faults.tail)) ∧
      (faults = [] → err = .notFound) := by
    intro faults
    rcases faults with _ | ⟨_ | _, faults⟩
    · exact ⟨.notFound, by simp [handle, exec, World.deleteSecret, hs], fun _ => rfl⟩
    · exact ⟨.notFound, by simp [handle, exec, World.deleteSecret, hs], fun hf => by cases hf⟩
    · exact ⟨.unavailable, rfl, fun hf => by cases hf⟩
  have hval : ∀ faults : List Bool, ∃ err,
      (PXEReconciler.delete PXEServiceNamespace pxe).interp handle (w, faults) =
        ⟨.error (.wrap "failed to remove PXE secret" err), (w, faults.tail),
          [⟨.deleteSecret PXEServiceNamespace ("ipxe-" ++ pxe.Spec.SystemUUID), .error err⟩]⟩ ∧
      (faults = [] → err = .notFound) := by
    intro faults
    obtain ⟨err, he, hn⟩ := hrun faults
    refine ⟨err, ?_, hn⟩
    unfold PXEReconciler.delete
    rw [interp_call, he]
    simp only [interp_ret]
  unfold run
  obtain ⟨err0, h0, hn0⟩ := hval []
  obtain ⟨err, h1, -⟩ := hval faults
  rw [h0, h1, hn0 rfl]
  refine ⟨rfl, ⟨_, rfl⟩, rfl, ?_⟩
  intro e he
  rw [List.mem_singleton] at he
  rw [he]
  rfl

/-- C24 at the object `doomedPXE`, which is under deletion and whose boot
secret was never created: the reconcile of the stored object returns the
not-found error, and the stored object keeps its finalizer. -/
theorem C24_absent_secret_blocks_delete_witness :
    doomedPXEWorld.secrets ("pxe-system", "ipxe-" ++ doomedPXE.Spec.SystemUUID) = none ∧
    doomedPXE.DeletionTimestamp ≠ none ∧ PXEFinalizer ∈ doomedPXE.Finalizers ∧
    (run [] (PXEReconciler.delete "pxe-system" doomedPXE) doomedPXEWorld).value =
      .error (.wrap "failed to remove PXE secret" .notFound) ∧
    (run [] (PXEReconciler.Reconcile "pxe-system" "ns" "c2") doomedPXEWorld).value =
      .returned (.error (.wrap "failed to remove PXE secret" .notFound)) ∧
    (run [] (PXEReconciler.Reconcile "pxe-system" "ns" "c2") doomedPXEWorld).state.1.pxes
      ("ns", "c2") = some doomedPXE :=
  have h := C24_absent_secret_blocks_delete doomedPXEWorld [] "pxe-system" doomedPXE rfl
  ⟨rfl, by decide, by decide, h.1, rfl, by decide⟩

/-! ## C25: two claims racing for one host -/

/-- A merge patch of a host without optimistic lock, as the claim reconciler
issues it (the caller does not change the resource version), is never rejected
as stale. -/
theorem patchHost_never_stale (w : World) (base modified : BareMetalHost)
    (hv : base.ResourceVersion = modified.ResourceVersion) :
    (w.patchHost base modified false).1 ≠ .error .conflict := by
  unfold World.patchHost
  cases w.hosts modified.Name with
  | none => simp
  | some stored => simp [versionOk, hv]

/-- C25 (the code departs from the claim): the host writes of the claim
reconciler are never rejected as stale.  On `twoClaimsWorld`, where the claims
`c1` and `c2` (different UIDs) refer to the unclaimed host `h1`: when the
reconcile of `c1` runs to its end first, the one of `c2` fails as the host is
claimed; when both read the host before either writes, both reconciles
succeed, no call is rejected, the claim reference is written twice, both
claims end Bound, and the host ends bound to `c2`. -/
theorem C25_racing_claims_both_bind :
    (∀ (w : World) (base modified : BareMetalHost),
      base.ResourceVersion = modified.ResourceVersion →
      (w.patchHost base modified false).1 ≠ .error .conflict) ∧
    twoClaimsWorld.hostClaimRef "h1" = some none ∧ sampleClaim.UID ≠ otherClaim.UID ∧
    (race [] (reconcile sampleClaim) (reconcile otherClaim) twoClaimsWorld).value =
      (.ok (), .error (.msg
        "failed to claim host h1 as it is already in claimed by somebody else")) ∧
    (race [true, false] (reconcile sampleClaim) (reconcile otherClaim) twoClaimsWorld).value =
      (.ok (), .ok ()) ∧
    (∀ e ∈ (race [true, false] (reconcile sampleClaim) (reconcile otherClaim)
      twoClaimsWorld).trace, e.succeeded = true) ∧
    (race [true, false] (reconcile sampleClaim) (reconcile otherClaim)
      twoClaimsWorld).trace.countP (fun e => e.call.writesHostClaimRef && e.succeeded) = 2 ∧
    (race [true, false] (reconcile sampleClaim) (reconcile otherClaim)
      twoClaimsWorld).state.claimPhase "ns" "c1" = some PhaseBound ∧
    (race [true, false] (reconcile sampleClaim) (reconcile otherClaim)
      twoClaimsWorld).state.claimPhase "ns" "c2" = some PhaseBound ∧
    (race [true, false] (reconcile sampleClaim) (reconcile otherClaim)
      twoClaimsWorld).state.hostClaimRef "h1" = some (some (claimRefOf otherClaim)) := by
  refine ⟨patchHost_never_stale, by decide, by decide, rfl, rfl, by decide, by decide, by decide,
    by decide, by decide⟩

/-! ## C26: finalizer, children, binding -/

section WriteOrder
variable {σ : Type} (h : (c : Call) → σ → Except Error (Resp c) × σ)

/-- The trace of `applyPXEConfiguration`: the apply, then, if it succeeded, the
status patch; the result is success iff both succeeded. -/
theorem applyPXEConfiguration_shape (s : σ) (claim : BareMetalHostClaim) (host : BareMetalHost) :
    (∃ pxe r2, (applyPXEConfiguration claim host).interp h s =
        ⟨.ok (), (h (pxeCreatedCall pxe) (h (.applyPXE (claimPXE claim host) true) s).2).2,
          [⟨.applyPXE (claimPXE claim host) true, .ok pxe⟩, ⟨pxeCreatedCall pxe, .ok r2⟩]⟩) ∨
    ((∃ err, ((applyPXEConfiguration claim host).interp h s).value = .error err) ∧
      ∀ e ∈ ((applyPXEConfiguration claim host).interp h s).trace,
        e.call.writesHostClaimRef = false) := by
  unfold applyPXEConfiguration claimPXE
  simp only [interp_call]
  rcases hr : h (.applyPXE
      { Namespace := claim.Namespace
        Name := claim.Name
        OwnerReferences := [{ Kind := "BareMetalHostClaim", Name := claim.Name, UID := claim.UID }]
        Spec :=
          { BareMetalHostClaimRef := { Name := claim.Name }
            IgnitionRef := claim.Spec.IgnitionRef
            Image := claim.Spec.Image
            SystemUUID := host.Spec.FooUUID } } true) s with ⟨err | pxe, s1⟩
  · right
    simp [interp_ret, Call.writesHostClaimRef]
  · simp only [interp_call]
    rcases hr2 : h (pxeCreatedCall pxe) s1 with ⟨err | r2, s2⟩
    · right
      simp [hr2, interp_ret, Call.writesHostClaimRef]
    · left
      refine ⟨pxe, r2, ?_⟩
      simp only [hr2, interp_ret]

theorem applyDHCPConfiguration_shape (s : σ) (claim : BareMetalHostClaim) :
    (∃ dhcp r2, (applyDHCPConfiguration claim).interp h s =
        ⟨.ok (), (h (dhcpCreatedCall dhcp) (h (.applyDHCP (claimDHCP claim) true) s).2).2,
          [⟨.applyDHCP (claimDHCP claim) true, .ok dhcp⟩, ⟨dhcpCreatedCall dhcp, .ok r2⟩]⟩) ∨
    ((∃ err, ((applyDHCPConfiguration claim).interp h s).value = .error err) ∧
      ∀ e ∈ ((applyDHCPConfiguration claim).interp h s).trace,
        e.call.writesHostClaimRef = false) := by
  unfold applyDHCPConfiguration claimDHCP
  simp only [interp_call]
  rcases hr : h (.applyDHCP
      { Namespace := claim.Namespace
        Name := claim.Name
        OwnerReferences := [{ Kind := "BareMetalHostClaim", Name := claim.Name, UID := claim.UID }]
        Spec := { BareMetalHostRef := claim.Spec.BareMetalHostRef } } true) s with ⟨err | dhcp, s1⟩
  · right
    simp [interp_ret, Call.writesHostClaimRef]
  · simp only [interp_call]
    rcases hr2 : h (dhcpCreatedCall dhcp) s1 with ⟨err | r2, s2⟩
    · right
      simp [hr2, interp_ret, Call.writesHostClaimRef]
    · left
      refine ⟨dhcp, r2, ?_⟩
      simp only [hr2, interp_ret]

theorem applyConfiguration_no_apply_after (s : σ) (claim : BareMetalHostClaim)
    (host : BareMetalHost) :
    ∀ e ∈ ((reconcileClaimRef claim host).interp h s).trace, e.call.isApply = false := by
  have hst : ∀ s : σ, ∀ e ∈ ((reconcileStatus claim).interp h s).trace,
      e.call.isApply = false := by
    intro s
    unfold reconcileStatus
    rw [forall_trace_call]
    refine ⟨rfl, ?_⟩
    cases (h _ s).1 <;> simp [Prog.interp]
  have hpw : ∀ (s : σ) (host : BareMetalHost),
      ∀ e ∈ ((reconcilePower claim host).interp h s).trace, e.call.isApply = false := by
    intro s host
    unfold reconcilePower
    split
    · split
      · rw [forall_trace_call]
        refine ⟨rfl, ?_⟩
        rcases (h _ s).1 with err | pxe
        · simp [Prog.interp]
        · simp only
          split
          · rw [forall_trace_call]
            refine ⟨rfl, ?_⟩
            cases (h _ _).1
            · simp [Prog.interp]
            · exact hst _
          · exact hst _
      · rw [forall_trace_call]
        refine ⟨rfl, ?_⟩
        cases (h _ s).1
        · simp [Prog.interp]
        · exact hst _
    · exact hst _
  unfold reconcileClaimRef
  split
  · rw [forall_trace_call]
    refine ⟨rfl, ?_⟩
    rcases (h _ s).1 with err | host1
    · simp [Prog.interp]
    · exact hpw _ host1
  · exact hpw _ host

/-- The trace of `reconcileHost`: a pass that adds the finalizer to the host
issues nothing else; objects are applied only if the host carried the
finalizer; the claim reference is written only after the PXE apply, its status
patch, the DHCP apply and its status patch, all succeeded. -/
theorem reconcileHost_shape (s : σ) (claim : BareMetalHostClaim) (host : BareMetalHost) :
    (BareMetalHostClaimFinalizer ∉ host.Finalizers →
      ∃ r, ((reconcileHost claim host).interp h s).trace = [⟨addHostFinalizerCall host, r⟩]) ∧
    ((∃ e ∈ ((reconcileHost claim host).interp h s).trace, e.call.isApply = true) →
      BareMetalHostClaimFinalizer ∈ host.Finalizers) ∧
    ((∃ e ∈ ((reconcileHost claim host).interp h s).trace, e.call.writesHostClaimRef = true) →
      ∃ pxe r2 dhcp r4 rest, ((reconcileHost claim host).interp h s).trace =
        ⟨.applyPXE (claimPXE claim host) true, .ok pxe⟩ :: ⟨pxeCreatedCall pxe, .ok r2⟩ ::
          ⟨.applyDHCP (claimDHCP claim) true, .ok dhcp⟩ :: ⟨dhcpCreatedCall dhcp, .ok r4⟩ :: rest ∧
        ∀ e ∈ rest, e.call.isApply = false) := by
  unfold reconcileHost
  rw [interp_bind]
  by_cases hf : BareMetalHostClaimFinalizer ∈ host.Finalizers
  · have hp : (PatchEnsureFinalizerHost host BareMetalHostClaimFinalizer).interp h s =
        ⟨.ok (false, host), s, []⟩ := by
      unfold PatchEnsureFinalizerHost
      rw [if_pos hf, interp_ret]
    rw [hp]
    simp only [List.nil_append]
    refine ⟨fun hn => absurd hf hn, fun _ => hf, ?_⟩
    rw [interp_bind]
    rcases applyPXEConfiguration_shape h s claim host with ⟨pxe, r2, hx⟩ | ⟨⟨err, hv⟩, hx⟩
    · rw [hx]
      simp only
      rw [interp_bind]
      rcases applyDHCPConfiguration_shape h
          (h (pxeCreatedCall pxe) (h (.applyPXE (claimPXE claim host) true) s).2).2 claim with
        ⟨dhcp, r4, hd⟩ | ⟨⟨err, hv⟩, hd⟩
      · rw [hd]
        simp only [List.cons_append, List.nil_append]
        intro _
        exact ⟨pxe, r2, dhcp, r4, _, rfl, applyConfiguration_no_apply_after h _ claim host⟩
      · rw [hv]
        simp only [interp_ret, List.append_nil, List.cons_append, List.nil_append]
        rintro ⟨e, he, hw⟩
        rcases List.mem_cons.1 he with rfl | he
        · cases hw
        · rcases List.mem_cons.1 he with rfl | he
          · cases hw
          · rw [hd e he] at hw
            cases hw
    · rw [hv]
      simp only [interp_ret, List.append_nil]
      rintro ⟨e, he, hw⟩
      rw [hx e he] at hw
      cases hw
  · have hp : ∃ r, ((PatchEnsureFinalizerHost host BareMetalHostClaimFinalizer).interp h s).trace =
          [⟨addHostFinalizerCall host, r⟩] ∧
        ∀ host1, ((PatchEnsureFinalizerHost host BareMetalHostClaimFinalizer).interp h s).value ≠
          .ok (false, host1) := by
      unfold PatchEnsureFinalizerHost
      rw [if_neg hf, interp_call]
      rcases (h (addHostFinalizerCall host) s).1 with err | host1
      · exact ⟨_, rfl, fun host1 hv => by simp [interp_ret] at hv⟩
      · exact ⟨_, rfl, fun host1 hv => by simp [interp_ret] at hv⟩
    obtain ⟨r, ht, hv⟩ := hp
    generalize (PatchEnsureFinalizerHost host BareMetalHostClaimFinalizer).interp h s = o
      at ht hv ⊢
    obtain ⟨v, s1, t1⟩ := o
    simp only at ht hv
    subst ht
    rcases v with err | ⟨_ | _, host1⟩
    · simp [interp_ret, Call.isApply, Call.writesHostClaimRef]
    · exact absurd rfl (hv host1)
    · simp [interp_ret, Call.isApply, Call.writesHostClaimRef]

end WriteOrder

/-- C26: in a claim reconcile, against any environment: a pass for a claim
without the finalizer issues the patch that adds it and nothing else; a pass
that reads a host without the finalizer issues at most the patch that adds it
after the read; a PXE or DHCP object is applied only if the claim carried the
finalizer and the host as read carried it; and the claim reference of the host
is written only after the PXE apply, its status patch, the DHCP apply and its
status patch, all succeeded, no object being applied afterwards. -/
theorem C26_write_order {σ : Type} (h : (c : Call) → σ → Except Error (Resp c) × σ) (s : σ)
    (claim : BareMetalHostClaim) :
    (BareMetalHostClaimFinalizer ∉ claim.Finalizers →
      ∃ r, ((reconcile claim).interp h s).trace = [⟨addClaimFinalizerCall claim, r⟩]) ∧
    (∀ host, BareMetalHostClaimFinalizer ∈ claim.Finalizers →
      (h (.getHost claim.Spec.BareMetalHostRef.Name) s).1 = .ok host →
      BareMetalHostClaimFinalizer ∉ host.Finalizers →
      ((reconcile claim).interp h s).trace =
          [⟨.getHost claim.Spec.BareMetalHostRef.Name, .ok host⟩] ∨
        ∃ r, ((reconcile claim).interp h s).trace =
          [⟨.getHost claim.Spec.BareMetalHostRef.Name, .ok host⟩,
            ⟨addHostFinalizerCall host, r⟩]) ∧
    ((∃ e ∈ ((reconcile claim).interp h s).trace, e.call.isApply = true) →
      BareMetalHostClaimFinalizer ∈ claim.Finalizers ∧
      ∃ host rest, ((reconcile claim).interp h s).trace =
          ⟨.getHost claim.Spec.BareMetalHostRef.Name, .ok host⟩ :: rest ∧
        BareMetalHostClaimFinalizer ∈ host.Finalizers) ∧
    ((∃ e ∈ ((reconcile claim).interp h s).trace, e.call.writesHostClaimRef = true) →
      ∃ host pxe r2 dhcp r4 rest, ((reconcile claim).interp h s).trace =
        ⟨.getHost claim.Spec.BareMetalHostRef.Name, .ok host⟩ ::
          ⟨.applyPXE (claimPXE claim host) true, .ok pxe⟩ :: ⟨pxeCreatedCall pxe, .ok r2⟩ ::
          ⟨.applyDHCP (claimDHCP claim) true, .ok dhcp⟩ :: ⟨dhcpCreatedCall dhcp, .ok r4⟩ :: rest ∧
        ∀ e ∈ rest, e.call.isApply = false) := by
  unfold reconcile
  rw [interp_bind]
  by_cases hf : BareMetalHostClaimFinalizer ∈ claim.Finalizers
  · have hp : (PatchEnsureFinalizerClaim claim BareMetalHostClaimFinalizer).interp h s =
        ⟨.ok (false, claim), s, []⟩ := by
      unfold PatchEnsureFinalizerClaim
      rw [if_pos hf, interp_ret]
    rw [hp]
    simp only [List.nil_append, interp_call]
    rcases hr : h (.getHost claim.Spec.BareMetalHostRef.Name) s with ⟨err | host, s1⟩
    · simp [interp_ret, hf, Call.isApply, Call.writesHostClaimRef]
    · simp only
      by_cases hany : host.Spec.ClaimRef.any (fun ref => ref.UID != claim.UID) = true
      · rw [if_pos hany]
        simp [interp_ret, hf, Call.isApply, Call.writesHostClaimRef]
      · rw [if_neg hany]
        obtain ⟨h1, h2, h3⟩ := reconcileHost_shape h s1 claim host
        refine ⟨fun hn => absurd hf hn, ?_, ?_, ?_⟩
        · intro host' _ he hn
          cases he
          obtain ⟨r, hr⟩ := h1 hn
          right
          exact ⟨r, by rw [hr]⟩
        · rintro ⟨e, he, ha⟩
          rcases List.mem_cons.1 he with rfl | he
          · cases ha
          · exact ⟨hf, host, _, rfl, h2 ⟨e, he, ha⟩⟩
        · rintro ⟨e, he, hw⟩
          rcases List.mem_cons.1 he with rfl | he
          · cases hw
          · obtain ⟨pxe, r2, dhcp, r4, rest, ht, hrest⟩ := h3 ⟨e, he, hw⟩
            exact ⟨host, pxe, r2, dhcp, r4, rest, by rw [ht], hrest⟩
  · have hp : ∃ r, ((PatchEnsureFinalizerClaim claim BareMetalHostClaimFinalizer).interp h s).trace =
          [⟨addClaimFinalizerCall claim, r⟩] ∧
        ∀ claim1, ((PatchEnsureFinalizerClaim claim BareMetalHostClaimFinalizer).interp h s).value ≠
          .ok (false, claim1) := by
      unfold PatchEnsureFinalizerClaim
      rw [if_neg hf, interp_call]
      rcases (h (addClaimFinalizerCall claim) s).1 with err | claim1
      · exact ⟨_, rfl, fun claim1 hv => by simp [interp_ret] at hv⟩
      · exact ⟨_, rfl, fun claim1 hv => by simp [interp_ret] at hv⟩
    obtain ⟨r, ht, hv⟩ := hp
    generalize (PatchEnsureFinalizerClaim claim BareMetalHostClaimFinalizer).interp h s = o
      at ht hv ⊢
    obtain ⟨v, s1, t1⟩ := o
    simp only at ht hv
    subst ht
    rcases v with err | ⟨_ | _, claim1⟩
    · simp [interp_ret, hf, Call.isApply, Call.writesHostClaimRef]
    · exact absurd rfl (hv claim1)
    · simp [interp_ret, hf, Call.isApply, Call.writesHostClaimRef]

/-- C26 at the claim `otherClaim` and the unclaimed host of `freeWorld`, both
with the finalizer: the claim reference is written, after the two applies and
their status patches. -/
theorem C26_write_order_witness :
    (∃ e ∈ (run [] (reconcile otherClaim) freeWorld).trace, e.call.writesHostClaimRef = true) ∧
    ∃ host pxe r2 dhcp r4 rest, (run [] (reconcile otherClaim) freeWorld).trace =
      ⟨.getHost "h1", .ok host⟩ ::
        ⟨.applyPXE (claimPXE otherClaim host) true, .ok pxe⟩ :: ⟨pxeCreatedCall pxe, .ok r2⟩ ::
        ⟨.applyDHCP (claimDHCP otherClaim) true, .ok dhcp⟩ :: ⟨dhcpCreatedCall dhcp, .ok r4⟩ ::
        rest ∧
      ∀ e ∈ rest, e.call.isApply = false :=
  ⟨by decide, (C26_write_order handle (freeWorld, []) otherClaim).2.2.2 (by decide)⟩

/-! ## C27: claim deletion checks no ownership -/

/-- C27: claim deletion performs no ownership check.  Against any environment,
whatever host the lookup returns, the next call is the patch that clears its
claim reference.  On a world that stores the claim and the host it names
(under its name), whatever the claim reference of the host is (another claim, or
none), deletion without failure returns success and leaves the host without
claim reference, at state Tainted and without the claim finalizer. -/
theorem C27_delete_no_ownership_check {σ : Type}
    (h : (c : Call) → σ → Except Error (Resp c) × σ) (s : σ) (w : World)
    (claim : BareMetalHostClaim) (host : BareMetalHost)
    (hc : w.claims (claim.Namespace, claim.Name) = some claim)
    (hh : w.hosts claim.Spec.BareMetalHostRef.Name = some host)
    (hn : host.Name = claim.Spec.BareMetalHostRef.Name) :
    (∀ hostBase, (h (.getHost claim.Spec.BareMetalHostRef.Name) s).1 = .ok hostBase →
      ∃ r rest, ((delete claim).interp h s).trace =
        ⟨.getHost claim.Spec.BareMetalHostRef.Name, .ok hostBase⟩ ::
          ⟨clearClaimRefCall hostBase, r⟩ :: rest) ∧
    (run [] (delete claim) w).value = .ok () ∧
    ∃ host', (run [] (delete claim) w).state.1.hosts claim.Spec.BareMetalHostRef.Name =
        some host' ∧
      host'.Spec.ClaimRef = none ∧ host'.Status.State = StateTainted ∧
      BareMetalHostClaimFinalizer ∉ host'.Finalizers := by
  refine ⟨?_, (delete_success w claim host hc hh hn).1, (delete_success w claim host hc hh hn).2.2.1⟩
  intro hostBase he
  unfold delete
  rw [interp_call, he]
  simp only [interp_call]
  exact ⟨_, _, rfl⟩

/-- C27 at the claim `c1` under deletion and the host `h1` bound to the claim
`c2`: deletion succeeds and releases the host all the same. -/
theorem C27_delete_no_ownership_check_witness :
    foreignHost.Spec.ClaimRef = some (claimRefOf otherClaim) ∧
    (claimRefOf otherClaim).UID ≠ doomedClaim.UID ∧
    (run [] (delete doomedClaim) foreignWorld).value = .ok () ∧
    ∃ host', (run [] (delete doomedClaim) foreignWorld).state.1.hosts "h1" = some host' ∧
      host'.Spec.ClaimRef = none ∧ host'.Status.State = StateTainted ∧
      BareMetalHostClaimFinalizer ∉ host'.Finalizers :=
  have h := C27_delete_no_ownership_check handle (foreignWorld, []) foreignWorld doomedClaim
    foreignHost (by decide) (by decide) (by decide)
  ⟨by decide, by decide, h.2.1, h.2.2⟩

/-! ## C28: merging the same system info twice -/

theorem toNetworkInterface_ID (n : BMCNetworkInterface) : (toNetworkInterface n).ID = n.ID := rfl

/-- Merging a NIC whose entry is already the first one with its ID changes
nothing. -/
theorem mergeNIC_fixed (nics : List NetworkInterface) (n : BMCNetworkInterface)
    (hf : nics.find? (fun x => x.ID == n.ID) = some (toNetworkInterface n)) :
    mergeNIC nics n = nics := by
  induction nics with
  | nil => cases hf
  | cons x rest ih =>
    by_cases hx : n.ID = x.ID
    · rw [mergeNIC_cons_eq x rest n hx]
      rw [List.find?_cons_of_pos _ (by simp [hx])] at hf
      injection hf with hf
      rw [hf]
    · rw [mergeNIC_cons_ne x rest n hx]
      rw [List.find?_cons_of_neg _ (by simpa using fun hh => hx hh.symm)] at hf
      rw [ih hf]

/-- A later NIC with the same ID absorbs an earlier one. -/
theorem mergeNIC_absorb (nics : List NetworkInterface) (n m : BMCNetworkInterface)
    (hnm : n.ID = m.ID) : mergeNIC (mergeNIC nics n) m = mergeNIC nics m := by
  induction nics with
  | nil =>
    rw [mergeNIC_nil, mergeNIC_nil, mergeNIC_cons_eq _ _ _ (by rw [toNetworkInterface_ID, hnm])]
  | cons x rest ih =>
    by_cases hx : n.ID = x.ID
    · rw [mergeNIC_cons_eq x rest n hx,
        mergeNIC_cons_eq _ _ _ (by rw [toNetworkInterface_ID, hnm]),
        mergeNIC_cons_eq x rest m (by rw [← hnm, hx])]
    · have hx' : m.ID ≠ x.ID := by rw [← hnm]; exact hx
      rw [mergeNIC_cons_ne x rest n hx, mergeNIC_cons_ne _ _ m hx', ih,
        mergeNIC_cons_ne x rest m hx']

/-- Merges of NICs with different IDs commute when the first ID is in the
list. -/
theorem mergeNIC_comm (nics : List NetworkInterface) (n m : BMCNetworkInterface)
    (hnm : n.ID ≠ m.ID) (hmem : ∃ x ∈ nics, x.ID = n.ID) :
    mergeNIC (mergeNIC nics n) m = mergeNIC (mergeNIC nics m) n := by
  induction nics with
  | nil =>
    obtain ⟨x, hx, -⟩ := hmem
    cases hx
  | cons x rest ih =>
    by_cases hx : n.ID = x.ID
    · have hmx : m.ID ≠ x.ID := by rw [← hx]; exact fun hh => hnm hh.symm
      rw [mergeNIC_cons_eq x rest n hx,
        mergeNIC_cons_ne _ _ m (by rw [toNetworkInterface_ID]; exact fun hh => hnm hh.symm),
        mergeNIC_cons_ne x rest m hmx, mergeNIC_cons_eq _ _ n hx]
    · have hrest : ∃ y ∈ rest, y.ID = n.ID := by
        obtain ⟨y, hy, hyn⟩ := hmem
        rcases List.mem_cons.1 hy with rfl | hy
        · exact absurd hyn.symm hx
        · exact ⟨y, hy, hyn⟩
      rw [mergeNIC_cons_ne x rest n hx]
      by_cases hmx : m.ID = x.ID
      · rw [mergeNIC_cons_eq _ _ m hmx, mergeNIC_cons_eq x rest m hmx,
          mergeNIC_cons_ne _ _ n (by rw [toNetworkInterface_ID]; exact hnm)]
      · rw [mergeNIC_cons_ne _ _ m hmx, mergeNIC_cons_ne x rest m hmx,
          mergeNIC_cons_ne _ _ n hx, ih hrest]

/-- A merge keeps every ID of the list. -/
theorem mergeNIC_mem_ID (nics : List NetworkInterface) (m : BMCNetworkInterface) (a : String)
    (hmem : ∃ x ∈ nics, x.ID = a) : ∃ x ∈ mergeNIC nics m, x.ID = a := by
  induction nics with
  | nil =>
    obtain ⟨x, hx, -⟩ := hmem
    cases hx
  | cons x rest ih =>
    obtain ⟨y, hy, hya⟩ := hmem
    by_cases hx : m.ID = x.ID
    · rw [mergeNIC_cons_eq x rest m hx]
      rcases List.mem_cons.1 hy with rfl | hy
      · exact ⟨_, List.mem_cons_self _ _, by rw [toNetworkInterface_ID, hx, hya]⟩
      · exact ⟨y, List.mem_cons_of_mem _ hy, hya⟩
    · rw [mergeNIC_cons_ne x rest m hx]
      rcases List.mem_cons.1 hy with rfl | hy
      · exact ⟨_, List.mem_cons_self _ _, hya⟩
      · obtain ⟨z, hz, hza⟩ := ih ⟨y, hy, hya⟩
        exact ⟨z, List.mem_cons_of_mem _ hz, hza⟩

theorem foldl_mergeNIC_mem_ID (news : List BMCNetworkInterface) (nics : List NetworkInterface)
    (a : String) (hmem : ∃ x ∈ nics, x.ID = a) : ∃ x ∈ news.foldl mergeNIC nics, x.ID = a := by
  induction news generalizing nics with
  | nil => exact hmem
  | cons m rest ih => exact ih _ (mergeNIC_mem_ID nics m a hmem)

/-- A NIC whose ID is in the list and comes again later in the info leaves no
trace. -/
theorem foldl_mergeNIC_overwritten (news : List BMCNetworkInterface)
    (nics : List NetworkInterface) (n : BMCNetworkInterface)
    (hmem : ∃ x ∈ nics, x.ID = n.ID) (hlater : ∃ m ∈ news, m.ID = n.ID) :
    news.foldl mergeNIC (mergeNIC nics n) = news.foldl mergeNIC nics := by
  induction news generalizing nics with
  | nil =>
    obtain ⟨m, hm, -⟩ := hlater
    cases hm
  | cons m rest ih =>
    simp only [List.foldl_cons]
    by_cases hmn : n.ID = m.ID
    · rw [mergeNIC_absorb nics n m hmn]
    · have hrest : ∃ m' ∈ rest, m'.ID = n.ID := by
        obtain ⟨m', hm', hmn'⟩ := hlater
        rcases List.mem_cons.1 hm' with rfl | hm'
        · exact absurd hmn'.symm hmn
        · exact ⟨m', hm', hmn'⟩
      rw [mergeNIC_comm nics n m hmn hmem]
      exact ih _ (mergeNIC_mem_ID nics m n.ID hmem) hrest

/-- Merging the NICs of a system info into a list twice gives the list of
merging them once. -/
theorem foldl_mergeNIC_idem (news : List BMCNetworkInterface) (nics : List NetworkInterface) :
    news.foldl mergeNIC (news.foldl mergeNIC nics) = news.foldl mergeNIC nics := by
  induction news generalizing nics with
  | nil => rfl
  | cons n rest ih =>
    simp only [List.foldl_cons]
    have hfind : (mergeNIC nics n).find? (fun x => x.ID == n.ID) =
        some (toNetworkInterface n) := by
      rw [mergeNIC_find?, if_pos rfl]
    have hmemX : ∃ x ∈ mergeNIC nics n, x.ID = n.ID :=
      ⟨_, List.mem_of_find?_eq_some hfind, by simpa using List.find?_some hfind⟩
    have hstep : rest.foldl mergeNIC (mergeNIC (rest.foldl mergeNIC (mergeNIC nics n)) n) =
        rest.foldl mergeNIC (rest.foldl mergeNIC (mergeNIC nics n)) := by
      by_cases hlater : ∃ m ∈ rest, m.ID = n.ID
      · exact foldl_mergeNIC_overwritten rest _ n
          (foldl_mergeNIC_mem_ID rest _ n.ID hmemX) hlater
      · have hne : ∀ m ∈ rest, m.ID ≠ n.ID := fun m hm hh => hlater ⟨m, hm, hh⟩
        rw [mergeNIC_fixed _ n
          ((foldl_mergeNIC_find?_other rest (mergeNIC nics n) n.ID hne).trans hfind)]
    rw [hstep, ih]

/-- C28: `updateHostNICsFromSystemInfo` is idempotent: for every host and every
system info, repeated IDs in either included, merging the same info a second
time leaves the host, and so its NIC list, as it is after the first merge. -/
theorem C28_nic_merge_idempotent (info : SystemInfo) (host : BareMetalHost) :
    updateHostNICsFromSystemInfo info (updateHostNICsFromSystemInfo info host) =
      updateHostNICsFromSystemInfo info host ∧
    (updateHostNICsFromSystemInfo info
        (updateHostNICsFromSystemInfo info host)).Status.NetworkInterfaces =
      (updateHostNICsFromSystemInfo info host).Status.NetworkInterfaces := by
  have h : updateHostNICsFromSystemInfo info (updateHostNICsFromSystemInfo info host) =
      updateHostNICsFromSystemInfo info host := by
    unfold updateHostNICsFromSystemInfo
    simp only [foldl_mergeNIC_idem]
  exact ⟨h, by rw [h]⟩

/-- C28 at a host that names `eth0` twice and an info that reports `eth1`
twice: the second merge gives the list of the first. -/
theorem C28_nic_merge_idempotent_witness :
    (updateHostNICsFromSystemInfo repeatedNicInfo repeatedNicHost).Status.NetworkInterfaces =
      [{ ID := "eth0", MACAddress := "bb:00" }, { ID := "eth0", MACAddress := "aa:09" },
        { ID := "eth1", MACAddress := "bb:02" }] ∧
    (updateHostNICsFromSystemInfo repeatedNicInfo
        (updateHostNICsFromSystemInfo repeatedNicInfo repeatedNicHost)).Status.NetworkInterfaces =
      [{ ID := "eth0", MACAddress := "bb:00" }, { ID := "eth0", MACAddress := "aa:09" },
        { ID := "eth1", MACAddress := "bb:02" }] :=
  ⟨by decide,
    (C28_nic_merge_idempotent repeatedNicInfo repeatedNicHost).2.trans (by decide)⟩

/-! ## C29: the states a host reconcile can leave -/

theorem determineTargetHostStatusWith_range (isHostReady : BareMetalHost → Bool)
    (host : BareMetalHost) :
    BareMetalHostReconciler.determineTargetHostStatusWith isHostReady host = StateInitial ∨
      BareMetalHostReconciler.determineTargetHostStatusWith isHostReady host = StateAvailable := by
  unfold BareMetalHostReconciler.determineTargetHostStatusWith
  split
  · split
    · exact Or.inr rfl
    · exact Or.inl rfl
  · split
    · exact Or.inr rfl
    · split <;> exact Or.inl rfl

/-- C29: `determineTargetHostStatus` returns Initial or Available only, and
Initial for every current state other than Initial and Available (Reserved,
Maintenance, empty, Tainted, unrecognised).  On a world that stores the host, a
run of `ensureHostStatus` that returns success leaves the stored host at
Initial, Available or Reserved, at Reserved iff it has a claim reference, and
an unclaimed host that was neither Initial nor Available at Initial. -/
theorem C29_states_after_host_reconcile (w : World) (faults : List Bool) (host : BareMetalHost)
    (v : HostState × HostState) :
    (BareMetalHostReconciler.determineTargetHostStatus host = StateInitial ∨
      BareMetalHostReconciler.determineTargetHostStatus host = StateAvailable) ∧
    (host.Status.State ≠ StateInitial → host.Status.State ≠ StateAvailable →
      BareMetalHostReconciler.determineTargetHostStatus host = StateInitial) ∧
    (w.hosts host.Name = some host →
      (run faults (BareMetalHostReconciler.ensureHostStatus host) w).value = .ok v →
      ∃ host', (run faults (BareMetalHostReconciler.ensureHostStatus host) w).state.1.hosts
          host.Name = some host' ∧
        host'.Spec.ClaimRef = host.Spec.ClaimRef ∧
        (host'.Status.State = StateInitial ∨ host'.Status.State = StateAvailable ∨
          host'.Status.State = StateReserved) ∧
        (host'.Status.State = StateReserved ↔ host'.Spec.ClaimRef ≠ none) ∧
        (host.Spec.ClaimRef = none → host.Status.State ≠ StateInitial →
          host.Status.State ≠ StateAvailable → host'.Status.State = StateInitial)) := by
  have hrange := determineTargetHostStatusWith_range BareMetalHostReconciler.isHostReady host
  have hother : host.Status.State ≠ StateInitial → host.Status.State ≠ StateAvailable →
      BareMetalHostReconciler.determineTargetHostStatus host = StateInitial := by
    intro hi ha
    simp [BareMetalHostReconciler.determineTargetHostStatus,
      BareMetalHostReconciler.determineTargetHostStatusWith, hi, ha]
  refine ⟨hrange, hother, ?_⟩
  intro hs hok
  obtain ⟨host', hw, -, cr, hb, hu, -⟩ := ensureHostStatus_ok w faults host v hs hok
  refine ⟨host', ?_, cr, ?_, ?_, ?_⟩
  · show (Prog.interp handle _ _).state.1.hosts host.Name = some host'
    rw [hw, Function.update_same]
  · by_cases hc : host.Spec.ClaimRef = none
    · rcases hrange with ht | ht
      · exact Or.inl ((hu hc).1.trans ht)
      · exact Or.inr (Or.inl ((hu hc).1.trans ht))
    · exact Or.inr (Or.inr (hb hc).1)
  · rw [cr]
    by_cases hc : host.Spec.ClaimRef = none
    · have hst := (hu hc).1
      constructor
      · intro hr
        rcases hrange with ht | ht
        · rw [hst] at hr
          rw [BareMetalHostReconciler.determineTargetHostStatus] at hr
          rw [hr] at ht
          exact absurd ht (by decide)
        · rw [hst] at hr
          rw [BareMetalHostReconciler.determineTargetHostStatus] at hr
          rw [hr] at ht
          exact absurd ht (by decide)
      · intro hn
        exact absurd hc hn
    · exact ⟨fun _ => hc, fun _ => (hb hc).1⟩
  · intro hc hi ha
    rw [(hu hc).1]
    exact hother hi ha

/-- C29 at the unclaimed host `h1` at state Maintenance: the target is Initial
and `ensureHostStatus` leaves the stored host at Initial. -/
theorem C29_states_after_host_reconcile_witness :
    maintenanceHost.Status.State = StateMaintenance ∧ maintenanceHost.Spec.ClaimRef = none ∧
    BareMetalHostReconciler.determineTargetHostStatus maintenanceHost = StateInitial ∧
    ∃ host', (run [] (BareMetalHostReconciler.ensureHostStatus maintenanceHost)
        maintenanceWorld).state.1.hosts "h1" = some host' ∧
      host'.Status.State = StateInitial :=
  have h := C29_states_after_host_reconcile maintenanceWorld [] maintenanceHost
    (StateInitial, StateInitial)
  ⟨by decide, by decide, h.2.1 (by decide) (by decide),
    (h.2.2 (by decide) rfl).elim fun host' hh =>
      ⟨host', hh.1, hh.2.2.2.2 (by decide) (by decide) (by decide)⟩⟩

/-! ## C30: claim deletion when the host cannot be fetched -/

/-- C30: when the lookup of the host fails, against any environment, claim
deletion returns the error of the lookup (wrapped) and has issued no other
call, so no write.  On the store model, when the host is not there or the
lookup is made to fail, the world is left as it is, so the claim keeps its
finalizer. -/
theorem C30_delete_without_host {σ : Type} (h : (c : Call) → σ → Except Error (Resp c) × σ)
    (s : σ) (w : World) (faults : List Bool) (claim : BareMetalHostClaim) :
    (∀ err, (h (.getHost claim.Spec.BareMetalHostRef.Name) s).1 = .error err →
      (delete claim).interp h s =
        ⟨.error (.wrap "failed to get host for claim" err),
          (h (.getHost claim.Spec.BareMetalHostRef.Name) s).2,
          [⟨.getHost claim.Spec.BareMetalHostRef.Name, .error err⟩]⟩) ∧
    (w.hosts claim.Spec.BareMetalHostRef.Name = none ∨ faults.head? = some true →
      (∃ err, (run faults (delete claim) w).value =
        .error (.wrap "failed to get host for claim" err)) ∧
      (run faults (delete claim) w).state.1 = w ∧
      (∀ e ∈ (run faults (delete claim) w).trace, e.call.isWrite = false) ∧
      (run faults (delete claim) w).state.1.claims (claim.Namespace, claim.Name) =
        w.claims (claim.Namespace, claim.Name)) := by
  have hgen : ∀ (σ : Type) (h : (c : Call) → σ → Except Error (Resp c) × σ) (s : σ) (err : Error),
      (h (.getHost claim.Spec.BareMetalHostRef.Name) s).1 = .error err →
      (delete claim).interp h s =
        ⟨.error (.wrap "failed to get host for claim" err),
          (h (.getHost claim.Spec.BareMetalHostRef.Name) s).2,
          [⟨.getHost claim.Spec.BareMetalHostRef.Name, .error err⟩]⟩ := by
    intro σ h s err he
    unfold delete
    rw [interp_call, he]
    simp only [interp_ret]
  refine ⟨hgen σ h s, ?_⟩
  intro hf
  have herr : ∃ err, (handle (.getHost claim.Spec.BareMetalHostRef.Name) (w, faults)).1 =
      .error err ∧ (handle (.getHost claim.Spec.BareMetalHostRef.Name) (w, faults)).2.1 = w := by
    rcases faults with _ | ⟨_ | _, faults⟩
    · rcases hf with hf | hf
      · exact ⟨.notFound, by simp [handle, exec, World.getHost, hf], rfl⟩
      · cases hf
    · rcases hf with hf | hf
      · exact ⟨.notFound, by simp [handle, exec, World.getHost, hf], rfl⟩
      · cases hf
    · exact ⟨.unavailable, rfl, rfl⟩
  obtain ⟨err, he, hw⟩ := herr
  have hrun := hgen _ handle (w, faults) err he
  unfold run
  rw [hrun]
  refine ⟨⟨err, rfl⟩, hw, ?_, by rw [hw]⟩
  intro e he'
  rw [List.mem_singleton] at he'
  rw [he']
  rfl

/-- C30 at the claim under deletion on a world without its host: deletion
returns the not-found error, and the claim is stored with its finalizer as
before. -/
theorem C30_delete_without_host_witness :
    hostlessWorld.hosts doomedClaim.Spec.BareMetalHostRef.Name = none ∧
    (run [] (delete doomedClaim) hostlessWorld).value =
      .error (.wrap "failed to get host for claim" .notFound) ∧
    (run [] (delete doomedClaim) hostlessWorld).state.1 = hostlessWorld ∧
    (run [] (delete doomedClaim) hostlessWorld).state.1.claims ("ns", "c1") = some doomedClaim ∧
    BareMetalHostClaimFinalizer ∈ doomedClaim.Finalizers :=
  have h := (C30_delete_without_host handle (hostlessWorld, []) hostlessWorld [] doomedClaim).2
    (Or.inl rfl)
  ⟨rfl, rfl, h.2.1, by decide, by decide⟩

end BareMetal
